import Mathlib

/-!
Cascade: the AOS compile-slot scheduler (`AosCompiler`).

A shallow embedding of `src/cascade/target/core/aos/aos_compiler.h`.

The slot table `slots_` (a `std::vector<Slot>`) is a `List Slot`; every method
that runs under `lock_` is a pure function on the table.  The two places where
the lock is given up (`compile(get_text(), lock_)` and `cv_.wait(lg)`) split the
compile loop into atomic pieces, which are modelled as separate functions, so
that an interleaving of several callers is a list of `Event`s.
-/

namespace Cascade.Aos

/-- Compilation states, `enum class State` of `AosCompiler`. -/
inductive State
  | FREE
  | COMPILING
  | WAITING
  | STOPPED
  | CURRENT
  deriving DecidableEq, Repr

/-- Slot information, `struct Slot` of `AosCompiler`: the requester id
(`Engine::Id`), the state and the generated text. -/
structure Slot where
  id : Nat
  state : State
  text : String
  deriving DecidableEq, Repr

/-- The slot table `slots_`. -/
abbrev Slots := List Slot

/-- The constructor `AosCompiler()`: `slots_.resize(32, {0, State::FREE, ""})`. -/
def init : Slots := List.replicate 32 ⟨0, State.FREE, ""⟩

/-- The loop of `get_free`, started at index `i` on the rest of the table. -/
def get_free_from (i : Nat) : List Slot → Int
  | [] => -1
  | s :: rest => if s.state = State.FREE then (i : Int) else get_free_from (i + 1) rest

/-- The method `AosCompiler::get_free`: the index of the first FREE slot, or `-1`. -/
def get_free (slots : Slots) : Int := get_free_from 0 slots

/-- The body of the preemption loop of `compile_logic` on one slot: a COMPILING
slot is downgraded to WAITING, and then a WAITING slot of requester `id` is
stopped. -/
def demote (id : Nat) (s : Slot) : Slot :=
  let s1 : Slot := if s.state = State.COMPILING then { s with state := State.WAITING } else s
  if s1.id = id ∧ s1.state = State.WAITING then { s1 with state := State.STOPPED } else s1

/-- The preemption step of `compile_logic` for the acquired slot `slot`: the
loop over `slots_`, then the three assignments that make `slot` the compile
lead with text `text` (the result of `Rewrite<T>().run(md, slot, ...)`). -/
def preempt (slots : Slots) (id : Nat) (slot : Nat) (text : String) : Slots :=
  (slots.map (demote id)).set slot ⟨id, State.COMPILING, text⟩

/-- The method `AosCompiler::update`: COMPILING and WAITING slots become CURRENT. -/
def update (slots : Slots) : Slots :=
  slots.map fun s =>
    if s.state = State.COMPILING ∨ s.state = State.WAITING then
      { s with state := State.CURRENT }
    else s

/-- The body of the first loop of `stop_compile(id, force)` on one slot. -/
def stop_mark (id : Nat) (s : Slot) : Slot :=
  if s.id = id then
    match s.state with
    | State.COMPILING => { s with state := State.STOPPED }
    | State.WAITING => { s with state := State.STOPPED }
    | _ => s
  else s

/-- The flag `stopped` after the first loop of `stop_compile`. -/
def stopped_flag (id : Nat) (slots : Slots) : Bool :=
  slots.any fun s => s.id = id ∧ (s.state = State.COMPILING ∨ s.state = State.WAITING)

/-- The flag `need_new_lead` after the first loop of `stop_compile`. -/
def need_new_lead (id : Nat) (slots : Slots) : Bool :=
  slots.any fun s => s.id = id ∧ s.state = State.COMPILING

/-- The promotion loop of `stop_compile` in iteration order: the first WAITING
slot met becomes COMPILING and the loop breaks. -/
def promote_first : List Slot → List Slot
  | [] => []
  | s :: rest =>
    if s.state = State.WAITING then { s with state := State.COMPILING } :: rest
    else s :: promote_first rest

/-- The promotion loop of `stop_compile`, which runs from `rbegin()` to
`rend()`. -/
def promote (slots : Slots) : Slots := (promote_first slots.reverse).reverse

set_option linter.unusedVariables false in
/-- The method `AosCompiler::stop_compile(id, force)` on the slot table.  `force` only
decides whether the backend's `stop_compile()` is called, which does not touch
the table. -/
def stop_compile (slots : Slots) (id : Nat) (force : Bool) : Slots :=
  let marked := slots.map (stop_mark id)
  if !stopped_flag id slots then marked
  else if need_new_lead id slots then promote marked
  else marked

/-- Whether `stop_compile(id, force)` calls the backend's `stop_compile()`. -/
def stop_calls_backend (slots : Slots) (id : Nat) (force : Bool) : Bool :=
  stopped_flag id slots && force

/-- Assignment of a state to one slot, `slots_[slot].state = st`. -/
def set_state (slots : Slots) (slot : Nat) (st : State) : Slots :=
  slots.modify (fun s => { s with state := st }) slot

/-- The method `AosCompiler::release(slot)`, the callback of a compiled core.  The
`assert` restricts it to a CURRENT slot; `none` is the failed assertion. -/
def release (slots : Slots) (slot : Nat) : Option Slots :=
  match slots[slot]? with
  | some s => if s.state = State.CURRENT then some (set_state slots slot State.FREE) else none
  | none => none

/-- What one pass through the `switch` of the compile loop ends in. -/
inductive Outcome
  /-- the caller returns `nullptr` -/
  | null
  /-- the caller returns the logic object `al` -/
  | logic
  /-- the caller is in `cv_.wait(lg)`: the lock is released until a notification -/
  | waiting
  /-- the caller is in `compile(get_text(), lock_)`: the backend build runs -/
  | building
  /-- the `default` case, `assert(false)` -/
  | unreachable
  deriving DecidableEq, Repr

/-- One iteration of the `while (true)` loop of `compile_logic` for the caller
that holds `slot`, up to the point where it returns or gives up the lock. -/
def loop_iter (slots : Slots) (slot : Nat) : Slots × Outcome :=
  match slots[slot]? with
  | some s =>
    match s.state with
    | State.COMPILING => (slots, Outcome.building)
    | State.WAITING => (slots, Outcome.waiting)
    | State.STOPPED => (set_state slots slot State.FREE, Outcome.null)
    | State.CURRENT => (slots, Outcome.logic)
    | State.FREE => (slots, Outcome.unreachable)
  | none => (slots, Outcome.unreachable)

/-- The rest of the COMPILING case once the backend build has returned `ok`
and the lock is held again: `update()` on success, `stop_compile(id, false)` on
failure. -/
def after_build (slots : Slots) (id : Nat) (ok : Bool) : Slots :=
  if ok then update slots else stop_compile slots id false

/-- The return of a backend build to the caller `id` that holds `slot`: the
rest of the COMPILING case followed, under the same lock, by the next
iteration of the loop. -/
def finish_build (slots : Slots) (id : Nat) (slot : Nat) (ok : Bool) : Slots × Outcome :=
  loop_iter (after_build slots id ok) slot

/-- What `compile_logic` needs to know of a module and of the collaborators
it calls before the preemption step. -/
structure Request where
  /-- the value of `info.uses_mixed_triggers()` -/
  mixed_triggers : Bool
  /-- the value of `!info.implied_latches().empty()` -/
  implied_latches : Bool
  /-- whether `build(interface, md, slot)` returns a logic object -/
  build_ok : Bool
  /-- the value of `al->get_table()->size()` after inputs, non-volatile state, outputs and
  tasks have been registered -/
  nv_size : Nat
  /-- the number of table entries taken by the volatile state registered
  afterwards, `table_size - nv_size` -/
  volatile_size : Nat
  /-- the text `Rewrite<T>().run(md, slot, ...)` as a function of the slot index -/
  rewrite : Nat → String

/-- The size of the variable table after the volatile entries are appended,
`table_size` in `compile_logic`. -/
def Request.table_size (r : Request) : Nat := r.nv_size + r.volatile_size

/-- How the part of `compile_logic` before the loop ends. -/
inductive Entry
  /-- the caller returns `nullptr` before the preemption step -/
  | rejected
  /-- the loop is entered by the caller holding this slot -/
  | entered (slot : Nat)
  deriving DecidableEq, Repr

/-- The method `compile_logic` from its first line to the entry of the loop, all under
the lock: validation, slot acquisition, `build`, the table size check and the
preemption step. -/
def compile_entry (slots : Slots) (id : Nat) (r : Request) : Slots × Entry :=
  if r.mixed_triggers then (slots, Entry.rejected)
  else if r.implied_latches then (slots, Entry.rejected)
  else
    let slot := get_free slots
    if slot = -1 then (slots, Entry.rejected)
    else if !r.build_ok then (slots, Entry.rejected)
    else if r.nv_size ≥ 0x4000 then (slots, Entry.rejected)
    else (preempt slots id slot.toNat (r.rewrite slot.toNat), Entry.entered slot.toNat)

/-- The method `compile_logic` from its first line to the first point where
the caller returns or gives up the lock: the part before the loop and, when
the loop is entered, its first iteration. -/
def compile_logic_begin (slots : Slots) (id : Nat) (r : Request) : Slots × Outcome :=
  match compile_entry slots id r with
  | (slots', Entry.rejected) => (slots', Outcome.null)
  | (slots', Entry.entered slot) => loop_iter slots' slot

/-- The atomic actions of the callers of one scheduler. -/
inductive Event
  /-- a caller runs `compile_logic(id, md, interface)` up to its loop -/
  | compile (id : Nat) (r : Request)
  /-- a backend build returns success: `update()` -/
  | built
  /-- the backend build of requester `id` returns failure:
  `stop_compile(id, false)` -/
  | failed (id : Nat)
  /-- the public `stop_compile(id)`, that is `stop_compile(id, true)` -/
  | stop (id : Nat)
  /-- the caller holding `slot` sees it STOPPED and frees it -/
  | free (slot : Nat)
  /-- the release callback of `slot` -/
  | release (slot : Nat)

/-- The effect of one event on the slot table.  An event whose guard in the
code does not hold (the STOPPED case of the loop, the assertion of `release`)
does not happen. -/
def step (slots : Slots) : Event → Slots
  | Event.compile id r => (compile_entry slots id r).1
  | Event.built => update slots
  | Event.failed id => stop_compile slots id false
  | Event.stop id => stop_compile slots id true
  | Event.free slot =>
    match slots[slot]? with
    | some s => if s.state = State.STOPPED then (loop_iter slots slot).1 else slots
    | none => slots
  | Event.release slot => (release slots slot).getD slots

/-- The slot table after a sequence of events. -/
def run (slots : Slots) (es : List Event) : Slots := es.foldl step slots

/-- The events that only the caller holding `slot` performs on its own slot. -/
def Event.own (slot : Nat) : Event → Bool
  | Event.free k => k = slot
  | Event.release k => k = slot
  | _ => false

/-- The number of COMPILING slots. -/
def compiling_count (slots : Slots) : Nat := slots.countP fun s => s.state = State.COMPILING

/-- A request that passes validation and whose `build` succeeds, with the
given table sizes; slot `k` gets the text of a module named after `k`. -/
def sample_request (nv_size volatile_size : Nat) : Request :=
  ⟨false, false, true, nv_size, volatile_size, fun k => "module M" ++ toString k⟩

/-- The slot table together with a record, kept beside the code, of when each
slot last entered the scheduler: the number of the event at which it was last
acquired by a compile (FREE to COMPILING) and the number of the event at which
it was last downgraded (COMPILING to WAITING). -/
structure Stamped where
  slots : Slots
  clock : Nat
  registered : List Nat
  demoted : List Nat

/-- The stamps after an event numbered `now`: a slot that went from state `st0`
to state `st1` gets the stamp `now`, every other slot keeps its stamp. -/
def restamp (now : Nat) (st0 st1 : State) (before after : Slots) (old : List Nat) : List Nat :=
  List.zipWith
    (fun (p : Slot × Slot) (v : Nat) => if p.1.state = st0 ∧ p.2.state = st1 then now else v)
    (before.zip after) old

/-- One event on the stamped table; the table itself moves by `step`. -/
def Stamped.step (g : Stamped) (e : Event) : Stamped :=
  { slots := Cascade.Aos.step g.slots e
    clock := g.clock + 1
    registered := restamp (g.clock + 1) State.FREE State.COMPILING g.slots
      (Cascade.Aos.step g.slots e) g.registered
    demoted := restamp (g.clock + 1) State.COMPILING State.WAITING g.slots
      (Cascade.Aos.step g.slots e) g.demoted }

/-- The stamped table after a sequence of events on a fresh scheduler. -/
def stamped_run (es : List Event) : Stamped :=
  es.foldl Stamped.step ⟨init, 0, List.replicate 32 0, List.replicate 32 0⟩

/-- A trace in which slot 0 is reused: requesters 1, 2, 3 compile (slots 0, 1,
2), requester 1 is stopped and frees slot 0, then requesters 4 and 5 compile
(slots 0 and 3). -/
def reuse_trace : List Event :=
  [Event.compile 1 (sample_request 1 0), Event.compile 2 (sample_request 1 0),
   Event.compile 3 (sample_request 1 0), Event.stop 1, Event.free 0,
   Event.compile 4 (sample_request 1 0), Event.compile 5 (sample_request 1 0)]

/-- A `std::map` with keys in `Nat`, as the list of its entries in key order. -/
abbrev KeyMap (α : Type) := List (Nat × α)

/-- The method `std::map::insert`: the entry is put at its place in key order,
and nothing changes when the key is already present. -/
def map_insert {α : Type} (k : Nat) (v : α) : KeyMap α → KeyMap α
  | [] => [(k, v)]
  | p :: rest =>
    if k < p.1 then (k, v) :: p :: rest
    else if k = p.1 then p :: rest
    else p :: map_insert k v rest

/-- What `get_text` writes to its `indstream`, one item for each operation. -/
inductive Tok
  /-- a string is written -/
  | str (s : String)
  /-- a slot index is written -/
  | num (n : Nat)
  /-- the end of a line, `endl` -/
  | endl
  /-- the call `os.tab()` -/
  | tab
  /-- the call `os.untab()` -/
  | untab
  deriving DecidableEq, Repr

/-- The first loop of `get_text`, from index `i` on: the text of every slot
that is not FREE is inserted into the map `text` under its index. -/
def text_map_from (i : Nat) (text : KeyMap String) : List Slot → KeyMap String
  | [] => text
  | s :: rest =>
    text_map_from (i + 1)
      (if s.state ≠ State.FREE then map_insert i s.text text else text) rest

/-- The map `text` of `get_text` after its first loop. -/
def text_map (slots : Slots) : KeyMap String := text_map_from 0 [] slots

/-- The module declarations written by `get_text`: for each entry of `text`
its text, the end of the line and an empty line. -/
def module_declarations (text : KeyMap String) : List Tok :=
  text.flatMap fun s => [Tok.str s.2, Tok.endl, Tok.endl]

/-- One line `os << s << endl`. -/
def line (s : String) : List Tok := [Tok.str s, Tok.endl]

/-- The top-level module written by `get_text`, up to the module
instantiations. -/
def shell_head : List Tok :=
  line "module program_logic(" ++ [Tok.tab] ++
  line "input wire clk," ++
  line "input wire reset," ++
  [Tok.endl] ++
  line "input wire         softreg_req_valid," ++
  line "input wire         softreg_req_isWrite," ++
  line "input wire[31:0]   softreg_req_addr," ++
  line "input wire[63:0]   softreg_req_data," ++
  [Tok.endl] ++
  line "output wire        softreg_resp_valid," ++
  line "output wire[63:0]  softreg_resp_data" ++
  [Tok.untab] ++
  line ");" ++
  [Tok.endl] ++
  [Tok.tab] ++
  line "parameter app_num = 0;" ++
  [Tok.endl] ++
  line "// Register module signals" ++
  line "reg        valid_in;" ++
  line "reg        write_in;" ++
  line "reg        read_in;" ++
  line "reg[13:0]  addr_in;" ++
  line "reg[63:0]  data_in;" ++
  [Tok.endl] ++
  line "wire       valid_out;" ++
  line "wire[63:0] data_out;" ++
  line "reg        valid_out_reg;" ++
  line "reg[63:0]  data_out_reg;" ++
  [Tok.endl] ++
  line "always @(posedge clk) begin" ++
  [Tok.tab] ++
  line "if (reset) begin" ++
  [Tok.tab] ++
  line "valid_in <= 1'b0;" ++
  line "write_in <= 1'b0;" ++
  line "read_in <= 1'b0;" ++
  line "addr_in <= 14'b0;" ++
  line "data_in <= 64'b0;" ++
  [Tok.untab] ++
  line "end else begin" ++
  [Tok.tab] ++
  line "valid_in <= softreg_req_valid;" ++
  line "write_in <= softreg_req_valid & softreg_req_isWrite;" ++
  line "read_in <= softreg_req_valid & ~softreg_req_isWrite;" ++
  line "addr_in <= softreg_req_addr[16:3];" ++
  line "data_in <= softreg_req_data;" ++
  [Tok.untab] ++
  line "end" ++
  [Tok.endl] ++
  line "if (reset) begin" ++
  [Tok.tab] ++
  line "valid_out_reg <= 1'b0;" ++
  line "data_out_reg <= 64'b0;" ++
  [Tok.untab] ++
  line "end else begin" ++
  [Tok.tab] ++
  line "valid_out_reg <= valid_out;" ++
  line "data_out_reg <= data_out;" ++
  [Tok.untab] ++
  line "end" ++
  [Tok.untab] ++
  line "end" ++
  [Tok.endl] ++
  line "assign softreg_resp_valid = valid_out_reg;" ++
  line "assign softreg_resp_data = data_out_reg;" ++
  [Tok.endl] ++
  line "// Module Instantiations:" ++
  line "generate"

/-- The branch of the `generate` block that `get_text` writes for the entry
with key `i`. -/
def branch (i : Nat) : List Tok :=
  [Tok.str "if (app_num == ", Tok.num i, Tok.str ") begin", Tok.endl] ++
  [Tok.tab] ++
  [Tok.str "M", Tok.num i, Tok.str " m (", Tok.endl] ++
  [Tok.tab] ++
  line ".__clk(clk)," ++
  line ".__in_read(write_in)," ++
  line ".__in_vid(addr_in)," ++
  line ".__in_data(data_in)," ++
  line ".__in_valid(valid_in)," ++
  line ".__out_data(data_out)," ++
  line ".__out_valid(valid_out)" ++
  [Tok.untab] ++
  line ");" ++
  [Tok.untab] ++
  line "end"

/-- The branches of the `generate` block, one for each entry of `text`. -/
def branches (text : KeyMap String) : List Tok := text.flatMap fun s => branch s.1

/-- The end of the top-level module written by `get_text`. -/
def shell_tail : List Tok := line "endgenerate" ++ [Tok.untab] ++ [Tok.str "endmodule"]

/-- The method `AosCompiler::get_text`: everything it writes to `os`, in order. -/
def get_text (slots : Slots) : List Tok :=
  module_declarations (text_map slots) ++ shell_head ++ branches (text_map slots) ++ shell_tail

/-- The occupied slots in index order: index and text of every slot that is
not FREE. -/
def occupied (slots : Slots) : List (Nat × String) :=
  (slots.enum.filter fun p => p.2.state ≠ State.FREE).map fun p => (p.1, p.2.text)

/-- A call that `compile_logic` makes on the logic object to fill its variable
table. -/
inductive Registration (Ident : Type)
  /-- the call `al->set_input(i, vid)` -/
  | set_input (i : Ident) (vid : Nat)
  /-- the call `al->set_state(is_volatile, s, vid)` -/
  | set_state (is_volatile : Bool) (s : Ident) (vid : Nat)
  /-- the call `al->set_output(o, vid)` -/
  | set_output (o : Ident) (vid : Nat)
  /-- the call `al->index_tasks()` -/
  | index_tasks
  deriving DecidableEq, Repr

/-- A loop `for (auto* x : xs) m.insert(make_pair(to_vid(x), x))` over a set
that is iterated in the order `xs`. -/
def vid_map {Ident : Type} (to_vid : Ident → Nat) (xs : List Ident) : KeyMap Ident :=
  xs.foldl (fun m x => map_insert (to_vid x) x m) []

/-- The loop of `compile_logic` over `info.stateful()`, iterated in the order
`xs`: the maps `ss` (not volatile) and `ssv` (volatile). -/
def stateful_maps {Ident : Type} (to_vid : Ident → Nat) (is_volatile : Ident → Bool)
    (xs : List Ident) : KeyMap Ident × KeyMap Ident :=
  xs.foldl
    (fun m s =>
      if is_volatile s then (m.1, map_insert (to_vid s) s m.2)
      else (map_insert (to_vid s) s m.1, m.2))
    ([], [])

/-- The registrations of `compile_logic` up to the check of the table size:
inputs, state that is not volatile, outputs, each in key order, and the tasks. -/
def nv_registrations {Ident : Type} (to_vid : Ident → Nat) (is_volatile : Ident → Bool)
    (inputs stateful outputs : List Ident) : List (Registration Ident) :=
  (vid_map to_vid inputs).map (fun i => Registration.set_input i.2 i.1) ++
  (stateful_maps to_vid is_volatile stateful).1.map
    (fun s => Registration.set_state false s.2 s.1) ++
  (vid_map to_vid outputs).map (fun o => Registration.set_output o.2 o.1) ++
  [Registration.index_tasks]

/-- All registrations of `compile_logic` for a module whose sets `inputs()`,
`stateful()` and `outputs()` are iterated in the given orders.  `table_size`
is the size of the variable table after a sequence of registrations; the
volatile state is registered only when the size check passes. -/
def registrations {Ident : Type} (to_vid : Ident → Nat) (is_volatile : Ident → Bool)
    (table_size : List (Registration Ident) → Nat)
    (inputs stateful outputs : List Ident) : List (Registration Ident) :=
  let nv := nv_registrations to_vid is_volatile inputs stateful outputs
  if table_size nv ≥ 0x4000 then nv
  else nv ++ (stateful_maps to_vid is_volatile stateful).2.map
    (fun s => Registration.set_state true s.2 s.1)

end Cascade.Aos

/-!
Cascade: recompilation of a module (`Module::compile_and_replace`).

A shallow embedding of the part of `src/cascade/runtime/module.cc` that
versions a module, compiles it pass by pass and swaps its engine.  The compiler
and the code transformations are collaborators: what they return is an
argument of the functions below.  The work that the code hands to the runtime
(`schedule_asynchronous`, `schedule_interrupt`) is kept in two queues, and any
queued item may run next.
-/

namespace Cascade.Runtime

/-- Modelled from the spec: the class `Engine` (declared in `target/engine.h`,
which is not among the sources): the compiled form of one module, with its
identity, whether it is a stub, and the backend it is bound to. -/
structure Engine where
  id : Nat
  is_stub : Bool
  core : Nat
  deriving DecidableEq, Repr

/-- Modelled from the spec: `Engine::replace_with` (declared in
`target/engine.h`, which is not among the sources): the engine of the node is
hot-swapped with the new result. -/
def Engine.replace_with (_old e : Engine) : Engine := e

/-- The search of `std::string::find_first_of(c)` from index `i` on. -/
def find_from (c : Char) (i : Nat) : List Char → Option Nat
  | [] => none
  | x :: rest => if x = c then some i else find_from c (i + 1) rest

/-- The method `std::string::find_first_of(c)`; `none` is `string::npos`. -/
def find_first_of (s : String) (c : Char) : Option Nat := find_from c 0 s.data

/-- The method `std::string::substr(pos, len)` for `pos` within the string. -/
def substr (s : String) (pos len : Nat) : String := ⟨(s.data.drop pos).take len⟩

/-- The method `std::string::substr(pos)` for `pos` within the string. -/
def substr_from (s : String) (pos : Nat) : String := ⟨s.data.drop pos⟩

/-- A `ModuleDeclaration` as far as `compile_and_replace` reads and writes it:
the attributes `__std`, `__target` and `__loc`, whether the attributes
`__delay` and `__state_safe_int` are present, whether the code still has
initial constructs, and the rest of the code. -/
structure ModuleDeclaration where
  std : String
  target : String
  loc : String
  delay : Bool
  state_safe_int : Bool
  initial : Bool
  items : Nat
  deriving DecidableEq, Repr

/-- The flag `jit` of `compile_and_replace`. -/
def jit (md : ModuleDeclaration) : Bool :=
  decide (md.std = "logic") &&
    ((find_first_of md.target ';').isSome || (find_first_of md.loc ';').isSome)

/-- The declaration `md` after the `if (jit)` block of `compile_and_replace`:
the attributes are cut at their first separator and `__delay` and
`__state_safe_int` are erased. -/
def primary (md : ModuleDeclaration) : ModuleDeclaration :=
  if jit md then
    { md with
      target := match find_first_of md.target ';' with
        | some tsep => substr md.target 0 tsep
        | none => md.target
      loc := match find_first_of md.loc ';' with
        | some lsep => substr md.loc 0 lsep
        | none => md.loc
      delay := false
      state_safe_int := false }
  else md

/-- The second copy `md2` after the `if (jit)` block of `compile_and_replace`:
the clone of `md` with the attributes after their first separator.  When `jit`
is false the code makes an empty module named `null`, which is `none`. -/
def secondary (md : ModuleDeclaration) : Option ModuleDeclaration :=
  if jit md then
    some { md with
      target := match find_first_of md.target ';' with
        | some tsep => substr_from md.target (tsep + 1)
        | none => md.target
      loc := match find_first_of md.loc ';' with
        | some lsep => substr_from md.loc (lsep + 1)
        | none => md.loc }
  else none

/-- The transformations `DeleteInitial().run(md2); DeadCodeEliminate().run(md2)`
as far as `compile_and_replace` depends on them: no initial construct is left. -/
def delete_initial (md : ModuleDeclaration) : ModuleDeclaration := { md with initial := false }

/-- The work queued by `rt_->schedule_asynchronous`: the closure that calls
`compile_and_replace(md2, version, id, pass+1)`. -/
structure Task where
  md2 : ModuleDeclaration
  version : Nat
  pass : Nat
  deriving DecidableEq, Repr

/-- The work queued by `rt_->schedule_interrupt` in pass `pass`: the closure
that holds the captured `version` and the result `e` of the compile. -/
structure Completion where
  version : Nat
  pass : Nat
  e : Option Engine
  deriving DecidableEq, Repr

/-- A module node and what its recompilation leaves at the runtime.  The type
of `version_` is declared in `runtime/module.h`, which is not among the
sources; it is the counter of the data model of the spec, a natural number.
`fatals` holds the messages passed to `fatal`, `stdinfo` the first word of each
line written to the info stream, and `installs` and `captured` record, beside
the code, the version and pass of every `replace_with` and every value of
`this_version`. -/
structure Node where
  version : Nat
  engine : Engine
  asynchronous : List Task
  interrupts : List Completion
  fatals : List String
  stdinfo : List String
  installs : List (Nat × Nat)
  captured : List Nat
  deriving DecidableEq, Repr

/-- The constructor `Module::Module`: the engine is the stub made by
`compile_stub` and `version_ = 0`; nothing is queued. -/
def construct (stub : Engine) : Node :=
  { version := 0, engine := stub, asynchronous := [], interrupts := [], fatals := [],
    stdinfo := [], installs := [], captured := [] }

/-- The interrupt that `compile_and_replace` schedules in a pass after the
first, when it runs: the stale or failed attempt is aborted, any other result
is swapped in. -/
def run_completion (n : Node) (c : Completion) : Node :=
  match c.e with
  | none => { n with stdinfo := n.stdinfo ++ ["Aborted"] }
  | some e =>
    if c.version < n.version then { n with stdinfo := n.stdinfo ++ ["Aborted"] }
    else
      { n with
        engine := n.engine.replace_with e
        stdinfo := n.stdinfo ++ ["Finished"]
        installs := n.installs ++ [(c.version, c.pass)] }

/-- The method `Module::compile_and_replace(md, version, id, pass)`; `e` is
what `rt_->get_compiler()->compile(engine_->get_id(), md)` returns when it is
called.  The calls `rt_->reset_open_loop_itrs()` touch nothing of the node. -/
def compile_and_replace_pass (n : Node) (md : ModuleDeclaration) (version pass : Nat)
    (e : Option Engine) : Node :=
  let md1 := primary md
  let md2 := if pass = 1 then (secondary md).map delete_initial else secondary md
  if md.std = "logic" ∧ pass = 1 ∧ md1.target ≠ "sw" then
    { n with fatals := n.fatals ++ ["Pass 1 compilation for logic must target software!"] }
  else
    let n1 : Node :=
      if pass = 1 then
        match e with
        | none => { n with fatals := n.fatals ++ ["Unable to complete pass 1 compilation!"] }
        | some e1 =>
          { n with
            engine := n.engine.replace_with e1
            stdinfo := n.stdinfo ++
              [if (n.engine.replace_with e1).is_stub then "Deferring" else "Finished"]
            installs := n.installs ++ [(version, pass)] }
      else { n with interrupts := n.interrupts ++ [⟨version, pass, e⟩] }
    if jit md && !n1.engine.is_stub && e.isSome then
      match md2 with
      | some m2 => { n1 with asynchronous := n1.asynchronous ++ [⟨m2, version, pass⟩] }
      | none => n1
    else n1

/-- The method `Module::compile_and_replace(ignore)`; `md` is what
`regenerate_ir_source(ignore)` returns and `e` what the compile of pass 1
returns when it is called. -/
def compile_and_replace (n : Node) (md : ModuleDeclaration) (e : Option Engine) : Node :=
  compile_and_replace_pass
    { n with version := n.version + 1, captured := n.captured ++ [n.version + 1] }
    md (n.version + 1) 1 e

/-- What happens to one node, one action at a time. -/
inductive Event
  /-- the interpreter calls `compile_and_replace(ignore)` -/
  | recompile (md : ModuleDeclaration) (e : Option Engine)
  /-- the queued asynchronous pass number `i` runs and its compile returns `e` -/
  | asynchronous (i : Nat) (e : Option Engine)
  /-- the queued interrupt number `i` runs -/
  | interrupt (i : Nat)
  /-- the queued interrupt number `i` is dropped: its alternative deletes `e` -/
  | alternate (i : Nat)
  deriving DecidableEq, Repr

/-- The effect of one event on the node; an event that names no queued item
does not happen. -/
def step (n : Node) : Event → Node
  | Event.recompile md e => compile_and_replace n md e
  | Event.asynchronous i e =>
    match n.asynchronous[i]? with
    | some t =>
      compile_and_replace_pass { n with asynchronous := n.asynchronous.eraseIdx i }
        t.md2 t.version (t.pass + 1) e
    | none => n
  | Event.interrupt i =>
    match n.interrupts[i]? with
    | some c => run_completion { n with interrupts := n.interrupts.eraseIdx i } c
    | none => n
  | Event.alternate i => { n with interrupts := n.interrupts.eraseIdx i }

/-- The node after a sequence of events. -/
def run (n : Node) (es : List Event) : Node := es.foldl step n

/-- A module of standard `logic` with three passes: software, then two
hardware targets. -/
def three_pass_module : ModuleDeclaration :=
  ⟨"logic", "sw;aos;f1", "local;local;remote", false, false, true, 0⟩

/-- The tasks that a pass adds to the queue of asynchronous work when it gets
to the end of `compile_and_replace` with the engine `eng` installed. -/
def queued (md : ModuleDeclaration) (version pass : Nat) (eng : Engine) (e : Option Engine) :
    List Task :=
  match (if pass = 1 then (secondary md).map delete_initial else secondary md) with
  | some m2 => if !eng.is_stub && e.isSome then [⟨m2, version, pass⟩] else []
  | none => []

/-- What every reachable node satisfies: the versions held by the queued work
and the installed versions are at most the live version, a queued pass comes
after a pass numbered from 1, and the installed versions never go down. -/
def Consistent (n : Node) : Prop :=
  (∀ t ∈ n.asynchronous, t.version ≤ n.version ∧ 1 ≤ t.pass) ∧
  (∀ c ∈ n.interrupts, c.version ≤ n.version) ∧
  (∀ p ∈ n.installs, p.1 ≤ n.version) ∧
  (n.installs.map Prod.fst).Pairwise (· ≤ ·)

/-- The first segment of a list of targets separated by `;`: the string up to
its first separator, or all of it when it has none. -/
def first_segment (t : String) : String := ⟨t.data.takeWhile fun x => x ≠ ';'⟩

/-- A software engine for one module. -/
def sw_engine : Engine := ⟨1, false, 10⟩

/-- A hardware engine for the module of `sw_engine`. -/
def hw_engine : Engine := ⟨1, false, 20⟩

/-- The stub of the module of `sw_engine`. -/
def stub_engine : Engine := ⟨1, true, 0⟩

end Cascade.Runtime

namespace Cascade.Aos

/-- Whether an event is the entry of a compile call. -/
def Event.is_compile : Event → Bool
  | Event.compile _ _ => true
  | _ => false

/-- The table has a lead whenever it has a waiter. -/
def has_lead_if_waiting (t : Slots) : Prop :=
  (∃ (i : Nat) (s : Slot), t[i]? = some s ∧ s.state = State.WAITING) →
    ∃ (i : Nat) (s : Slot), t[i]? = some s ∧ s.state = State.COMPILING

end Cascade.Aos

/-!
Cascade: the analysis of event controls (`ModuleInfo::visit(const EventControl*)`
in `src/cascade/verilog/analyze/module_info.cc`).
-/

namespace Cascade.Analyze

/-- The types of an event, `Event::Type`: the two edge-triggered ones and the
level-triggered one. -/
inductive EventType
  | POSEDGE
  | NEGEDGE
  | EDGE
  deriving DecidableEq, Repr

/-- An event control, as the types of its events in order. -/
abbrev EventControl := List EventType

/-- The fields of a module declaration that `visit(const EventControl*)`
writes. -/
structure Info where
  uses_mixed_triggers : Bool
  clocks : Nat
  deriving DecidableEq, Repr

/-- The locals `edge` and `var` and the counter `clocks_` along the loop of
`visit(const EventControl*)` over the events. -/
def scan_events (clocks : Nat) (ec : EventControl) : Bool × Bool × Nat :=
  ec.foldl
    (fun acc ev =>
      match ev with
      | EventType.POSEDGE => (true, acc.2.1, acc.2.2 + 1)
      | EventType.NEGEDGE => (true, acc.2.1, acc.2.2 + 1)
      | EventType.EDGE => (acc.1, true, acc.2.2))
    (false, false, clocks)

/-- The method `ModuleInfo::visit(const EventControl*)`. -/
def visit_event_control (md : Info) (ec : EventControl) : Info :=
  let r := scan_events md.clocks ec
  { uses_mixed_triggers := md.uses_mixed_triggers || (r.1 && r.2.1), clocks := r.2.2 }

/-- The method `ModuleInfo::uses_mixed_triggers` on a module whose event
controls are visited in the order `ecs`, from the state left by
`invalidate`. -/
def uses_mixed_triggers (ecs : List EventControl) : Bool :=
  (ecs.foldl visit_event_control ⟨false, 0⟩).uses_mixed_triggers

/-- Whether an event is edge-triggered. -/
def EventType.is_edge : EventType → Bool
  | EventType.POSEDGE => true
  | EventType.NEGEDGE => true
  | EventType.EDGE => false

end Cascade.Analyze

/-!
Cascade: the compilation cache of the build server (`VivadoServer::cache_find`
and `cache_add` in `src/cascade/target/core/aos/f1/vivado_server.cc`).  The
cache file is the list of its characters; a field ends with the character 0.
-/

namespace Cascade.Vivado

/-- The delimiter of the cache file and the end of a C string. -/
def nul : Char := Char.ofNat 0

/-- The call `getdelim(&line, &n, 0, fp)`: the characters read before the
delimiter, the return value (the number of characters read, the delimiter
included when it was found), and the rest of the file; `none` is the return
value `-1` at the end of the file. -/
def getdelim : List Char → Option (List Char × Nat × List Char)
  | [] => none
  | c :: rest =>
    if c = nul then some ([], 1, rest)
    else
      match getdelim rest with
      | some (line, ret, rest') => some (c :: line, ret + 1, rest')
      | none => some ([c], 1, [])

/-- Whether `strncmp(a, b, n)` is 0, for two C strings given without their
final 0: at most `n` characters are compared, up to the end of a string. -/
def strncmp_eq : Nat → List Char → List Char → Bool
  | 0, _, _ => true
  | _ + 1, [], [] => true
  | n + 1, x :: xs, y :: ys => x == y && strncmp_eq n xs ys
  | _ + 1, _, _ => false

/-- The loop of `cache_find` on the rest of the file, for at most `fuel`
records: whether the text was found, and the values left in `agfi` and
`afi`. -/
def cache_find_loop (text : String) :
    Nat → List Char → String → String → Bool × String × String
  | 0, _, agfi, afi => (false, agfi, afi)
  | fuel + 1, fp, agfi, afi =>
    match getdelim fp with
    | none => (false, agfi, afi)
    | some (line, ret, fp1) =>
      let cmp := strncmp_eq (ret - 1) line text.data
      match getdelim fp1 with
      | none => (false, agfi, afi)
      | some (line2, _, fp2) =>
        match getdelim fp2 with
        | none => (false, ⟨line2⟩, afi)
        | some (line3, _, fp3) =>
          if cmp then (true, ⟨line2⟩, ⟨line3⟩)
          else cache_find_loop text fuel fp3 ⟨line2⟩ ⟨line3⟩

/-- The method `VivadoServer::cache_find(text, agfi, afi)` on the cache file
`fp`; every record takes at least three characters, so the length of the file
bounds the number of iterations. -/
def cache_find (fp : List Char) (text agfi afi : String) : Bool × String × String :=
  cache_find_loop text (fp.length + 1) fp agfi afi

/-- The method `VivadoServer::cache_add(text, agfi, afi)`: the three fields
are appended to the cache file, each followed by the character 0. -/
def cache_add (fp : List Char) (text agfi afi : String) : List Char :=
  fp ++ (text.data ++ [nul]) ++ (agfi.data ++ [nul]) ++ (afi.data ++ [nul])

end Cascade.Vivado

/-!
Cascade: the synchronised buffer (`syncbuf` in
`src/cascade/target/core/common/syncbuf.h`).  Every method runs under the
mutex of the buffer and is a function on its fields; a character is a natural
number.
-/

namespace Cascade.Syncbuf

/-- The data members of `syncbuf`: the array `data_`, `data_cap_`, `goff_`
and `poff_`. -/
structure syncbuf where
  data : List Nat
  data_cap : Nat
  goff : Nat
  poff : Nat
  deriving DecidableEq, Repr

/-- The constructor `syncbuf()`: an array of 64 characters and both offsets 0. -/
def init : syncbuf := ⟨List.replicate 64 0, 64, 0, 0⟩

/-- The call `std::copy(src, src + n, &dst[pos])` on an array `dst` that has
room for it. -/
def copy_to (dst : List Nat) (pos : Nat) (src : List Nat) : List Nat :=
  dst.take pos ++ src ++ dst.drop (pos + src.length)

/-- The loop `while (next_poff > data_cap_) data_cap_ *= 2` of `xsputn`, for at
most `fuel` doublings. -/
def grow : Nat → Nat → Nat → Nat
  | 0, cap, _ => cap
  | fuel + 1, cap, next_poff => if next_poff > cap then grow fuel (cap * 2) next_poff else cap

/-- The valid entries of the buffer, `data_[goff_]` up to `data_[poff_]`. -/
def contents (b : syncbuf) : List Nat := (b.data.drop b.goff).take (b.poff - b.goff)

/-- The method `syncbuf::xsputn(s, count)` with `count` the length of `s`: the
buffer afterwards and the return value.  A capacity that is not 0 is at least
`next_poff` after `next_poff` doublings. -/
def xsputn (b : syncbuf) (s : List Nat) : syncbuf × Nat :=
  let count := s.length
  let next_poff := b.poff + count
  if next_poff > b.data_cap then
    let cap := grow next_poff b.data_cap next_poff
    let next_data := copy_to (List.replicate cap 0) 0 (contents b)
    let poff := b.poff - b.goff
    ({ data := copy_to next_data poff s, data_cap := cap, goff := 0, poff := poff + count },
      count)
  else
    ({ b with data := copy_to b.data b.poff s, poff := next_poff }, count)

/-- The end of `xsgetn` and of `uflow`: when no data is left both offsets are
reset to 0. -/
def recycle (b : syncbuf) : syncbuf :=
  if b.goff = b.poff then { b with goff := 0, poff := 0 } else b

/-- The method `syncbuf::xsgetn(s, count)` for a count that is not negative:
the buffer afterwards and the characters copied to `s`, whose number is the
return value. -/
def xsgetn (b : syncbuf) (count : Nat) : syncbuf × List Nat :=
  let true_count := min count (b.poff - b.goff)
  if true_count = 0 then (b, [])
  else
    (recycle { b with goff := b.goff + true_count }, (b.data.drop b.goff).take true_count)

/-- The method `syncbuf::uflow()`: the buffer afterwards and the character
returned; `none` is `traits_type::eof()`. -/
def uflow (b : syncbuf) : syncbuf × Option Nat :=
  if b.goff = b.poff then (b, none)
  else (recycle { b with goff := b.goff + 1 }, some (b.data.getD b.goff 0))

/-- A call of one of the three methods. -/
inductive Op
  | xsputn (s : List Nat)
  | xsgetn (count : Nat)
  | uflow
  deriving DecidableEq, Repr

/-- A buffer with the record, kept beside the code, of all characters written
to it and of all characters read from it. -/
structure Trace where
  buf : syncbuf
  written : List Nat
  read : List Nat
  deriving DecidableEq, Repr

/-- One call on the buffer, with the record brought up to date. -/
def step (t : Trace) : Op → Trace
  | Op.xsputn s => { buf := (xsputn t.buf s).1, written := t.written ++ s, read := t.read }
  | Op.xsgetn count =>
    { buf := (xsgetn t.buf count).1, written := t.written,
      read := t.read ++ (xsgetn t.buf count).2 }
  | Op.uflow =>
    { buf := (uflow t.buf).1, written := t.written,
      read := t.read ++ ((uflow t.buf).2).toList }

/-- The buffer and its record after a sequence of calls on a new buffer. -/
def run (ops : List Op) : Trace := ops.foldl step ⟨init, [], []⟩

/-- The relations between the fields that every method keeps: the array has
`data_cap_` entries, the capacity is not 0, `goff_ <= poff_ <= data_cap_`, and
an empty buffer has both offsets at 0. -/
def WellFormed (b : syncbuf) : Prop :=
  b.data.length = b.data_cap ∧ 0 < b.data_cap ∧ b.goff ≤ b.poff ∧ b.poff ≤ b.data_cap ∧
  (b.goff = b.poff → b.poff = 0)

end Cascade.Syncbuf

namespace Cascade.Runtime

/-! ## The module hierarchy: iteration, `save` and `restart` (module.cc) -/

/-- A `Module` of the hierarchy as far as the iterator, `save` and `restart`
use it: the id that `Isolate::isolate` gives its instantiation (`mid`), the
owned list `children_`, and the two register files held by its engine.
Modelled from the spec: the register files `input` and `state` are what
`Engine::get_input` and `Engine::get_state` return and what
`Engine::set_input` and `Engine::set_state` store (`target/engine.h`,
`target/input.h` and `target/state.h` are not among the sources); `R` is the
type of a register file. -/
inductive Module (R : Type) where
  | mk (mid : Nat) (input : R) (state : R) (children : List (Module R)) : Module R

/-- The id `rt_->get_isolate()->isolate(p)` of the instantiation of a module. -/
def Module.mid {R : Type} : Module R → Nat
  | .mk i _ _ _ => i

/-- Modelled from the spec: `engine_->get_input()`. -/
def Module.get_input {R : Type} : Module R → R
  | .mk _ a _ _ => a

/-- Modelled from the spec: `engine_->get_state()`. -/
def Module.get_state {R : Type} : Module R → R
  | .mk _ _ b _ => b

/-- The member `children_`. -/
def Module.children {R : Type} : Module R → List (Module R)
  | .mk _ _ _ cs => cs

/-- Modelled from the spec: `engine_->set_input(input)`. -/
def Module.set_input {R : Type} (input : R) : Module R → Module R
  | .mk i _ b cs => .mk i input b cs

/-- Modelled from the spec: `engine_->set_state(state)`. -/
def Module.set_state {R : Type} (state : R) : Module R → Module R
  | .mk i a _ cs => .mk i a state cs

/-- The class `Module::iterator`: the worklist `path_` of module pointers,
`none` being `nullptr`. -/
structure iterator (R : Type) where
  path : List (Option (Module R))

/-- The constructor `iterator()`, returned by `Module::end`. -/
def iterator.end_ (R : Type) : iterator R := ⟨[none]⟩

/-- The constructor `iterator(m)`, returned by `Module::begin`. -/
def Module.begin {R : Type} (m : Module R) : iterator R := ⟨[some m, none]⟩

/-- The pointer `path_.front()` that `operator*`, `operator==` and
`operator!=` read; two iterators are equal when their fronts are. -/
def iterator.front {R : Type} (it : iterator R) : Option (Module R) :=
  match it.path with
  | some m :: _ => some m
  | _ => none

/-- The method `iterator::operator++`: nothing at `nullptr`; otherwise the
front is popped and its children are pushed to the front, the last child
first. -/
def iterator.next {R : Type} (it : iterator R) : iterator R :=
  match it.path with
  | some ptr :: rest => ⟨ptr.children.reverse.foldl (fun p c => some c :: p) rest⟩
  | _ => it

/-- The loop `for (auto i = iterator(this), ie = end(); i != ie; ++i)` from
the iterator `it` on, returning the modules `*i` of its rounds in order;
`none` when `fuel` rounds do not reach the end. -/
def visit_loop {R : Type} : Nat → iterator R → Option (List (Module R))
  | 0, _ => none
  | fuel + 1, it =>
    match it.front with
    | none => some []
    | some m => (visit_loop fuel it.next).map (fun ms => m :: ms)

/-- The method `Module::size`: the loop from `iterator(this)` to `end()` with
`++res` in each round. -/
def size_loop {R : Type} : Nat → iterator R → Nat → Option Nat
  | 0, _, _ => none
  | fuel + 1, it, res =>
    match it.front with
    | none => some res
    | some _ => size_loop fuel it.next (res + 1)

/-- The method `Module::size`, run for at most `fuel` rounds. -/
def Module.size {R : Type} (fuel : Nat) (m : Module R) : Option Nat :=
  size_loop fuel m.begin 0

mutual
/-- The pre-order of a subtree as the claim words it: the node, then the
subtrees of its children in the order of the children list. -/
def preorder {R : Type} : Module R → List (Module R)
  | .mk i a b cs => .mk i a b cs :: preorder_list cs
/-- The pre-orders of a list of subtrees, one after the other. -/
def preorder_list {R : Type} : List (Module R) → List (Module R)
  | [] => []
  | c :: cs => preorder c ++ preorder_list cs
end

/-- One token of a save stream, as `operator>>` separates them: a number or
another word. -/
inductive Stok where
  | word (s : String)
  | num (n : Nat)
  deriving DecidableEq, Repr

/-- An input stream: the tokens that are not read yet, or `none` once an
extraction has failed; the failbit is then set and every later extraction does
nothing. -/
abbrev IStream := Option (List Stok)

/-- The extraction `is >> ignore` into a string: one token is taken; at the
end of the stream, and on a failed stream, nothing is read and the stream is
failed. -/
def read_string : IStream → IStream
  | some (_ :: rest) => some rest
  | _ => none

/-- The extraction `is >> x` into an unsigned integer variable that holds
`old`: a number is stored in `x`; a word is not converted, 0 is stored and
the stream is failed; at the end of the stream, and on a failed stream, `x`
is left as it is and the stream is failed. -/
def read_num (old : Nat) : IStream → Nat × IStream
  | some (Stok.num v :: rest) => (v, some rest)
  | some (Stok.word _ :: _) => (0, none)
  | _ => (old, none)

/-- Modelled from the spec: the radix-16 `write(os, 16)` and `read(is, 16)` of
a register file (`Input` and `State`, whose headers are not among the
sources): `write` gives the tokens put on the stream; `read` is called on a
new register file and gives what that register file holds afterwards and the
stream afterwards, also for a stream that has failed or on which it fails. -/
structure Codec (R : Type) where
  write : R → List Stok
  read : IStream → R × IStream

/-- The register files round-trip through `write` and `read`. -/
def Codec.RoundTrip {R : Type} (c : Codec R) : Prop :=
  ∀ (r : R) (rest : List Stok), c.read (some (c.write r ++ rest)) = (r, some rest)

/-- The body of the loop of `Module::save` for the module `*i`: the lines
`MODULE:`, the id, `INPUT:`, the input register file, `STATE:`, the state
register file.  (The line `<save> fid` goes to the stdinfo stream of the
runtime, not to `os`.) -/
def save_module {R : Type} (c : Codec R) (p : Module R) : List Stok :=
  [Stok.word "MODULE:", Stok.num p.mid, Stok.word "INPUT:"] ++ c.write p.get_input
    ++ [Stok.word "STATE:"] ++ c.write p.get_state

/-- The method `Module::save`: `size()`, then the entry of every module of
the iteration; `none` when `fuel` rounds do not end the loops. -/
def save {R : Type} (c : Codec R) (fuel : Nat) (m : Module R) : Option (List Stok) :=
  match m.size fuel, visit_loop fuel m.begin with
  | some n, some ms => some (Stok.num n :: ms.flatMap (save_module c))
  | _, _ => none

/-- The table `unordered_map<MId, pair<Input*, State*>> save` of
`Module::restart`. -/
abbrev SaveMap (R : Type) := List (Nat × R × R)

/-- The assignment `save[id] = make_pair(input, state)`: the pair of the id
is replaced. -/
def SaveMap.assign {R : Type} (save : SaveMap R) (id : Nat) (v : R × R) : SaveMap R :=
  (id, v) :: save.filter (fun e => e.1 != id)

/-- The lookup `save.find(id)`; `none` is `save.end()`. -/
def SaveMap.find {R : Type} : SaveMap R → Nat → Option (R × R)
  | [], _ => none
  | (k, v) :: rest, id => if k = id then some v else SaveMap.find rest id

/-- One round of the reading loop of `Module::restart`:
`is >> ignore >> id; is >> ignore; input->read(is, 16); is >> ignore;
state->read(is, 16)`, giving the `id`, `input` and `state` of the round and
the stream after it.  The local `id` is not initialised: `held` is the value
it holds when no extraction writes it.  The loop does not test the stream. -/
def read_entry {R : Type} (c : Codec R) (held : Nat) (is : IStream) :
    (Nat × R × R) × IStream :=
  let id := read_num held (read_string is)
  let input := c.read (read_string id.2)
  let state := c.read (read_string input.2)
  ((id.1, input.1, state.1), state.2)

/-- The reading loop `for (size_t i = 0; i < n; ++i)` of `Module::restart`
from round `i` on, with `k` rounds left, filling the table `save`; `held i`
is the value that the uninitialised local `id` holds in round `i`. -/
def read_entries {R : Type} (c : Codec R) (held : Nat → Nat) :
    Nat → Nat → IStream → SaveMap R → SaveMap R
  | 0, _, _, save => save
  | k + 1, i, is, save =>
    read_entries c held k (i + 1) (read_entry c (held i) is).2
      (save.assign (read_entry c (held i) is).1.1 (read_entry c (held i) is).1.2)

/-- The triples that the rounds of the reading loop store, in the order of
the rounds. -/
def stored {R : Type} (c : Codec R) (held : Nat → Nat) :
    Nat → Nat → IStream → List (Nat × R × R)
  | 0, _, _ => []
  | k + 1, i, is =>
    (read_entry c (held i) is).1 :: stored c held k (i + 1) (read_entry c (held i) is).2

/-- The triples that `Module::restart` stores when it reads the stream `is`:
the count is read into `n`, which is initialised with 0, then `n` rounds are
made. -/
def stored_of {R : Type} (c : Codec R) (held : Nat → Nat) (is : List Stok) :
    List (Nat × R × R) :=
  stored c held (read_num 0 (some is)).1 0 (read_num 0 (some is)).2

/-- One entry at the front of a stream as `save` writes it: a word, the id, a
word, a register file, a word, a register file; `none` when the stream does
not start with such an entry. -/
def parse_entry {R : Type} (c : Codec R) : List Stok → Option ((Nat × R × R) × List Stok)
  | _ :: Stok.num id :: _ :: rest =>
    match c.read (some rest) with
    | (input, some (_ :: rest2)) =>
      match c.read (some rest2) with
      | (state, some rest3) => some ((id, input, state), rest3)
      | _ => none
    | _ => none
  | _ => none

/-- The entries of a stream that holds `n` entries one after the other, in
the order in which they stand; `none` when it does not. -/
def entries {R : Type} (c : Codec R) : Nat → List Stok → Option (List (Nat × R × R))
  | 0, _ => some []
  | n + 1, is =>
    match parse_entry c is with
    | some (e, rest) => (entries c n rest).map (fun es => e :: es)
    | none => none

/-- The body of the second loop of `Module::restart` for the module `*i`:
nothing when the id is not in the table, otherwise `set_input` and
`set_state` from the pair found. -/
def restart_module {R : Type} (save : SaveMap R) (p : Module R) : Module R :=
  match save.find p.mid with
  | none => p
  | some (input, state) => (p.set_input input).set_state state

mutual
/-- The second loop of `Module::restart` on the hierarchy: the loop visits
every module of the tree (see `visit_loop`) and changes the registers of the
module it visits, never `children_`; with modules as values this is the body
applied at every node of the tree. -/
def update_hierarchy {R : Type} (save : SaveMap R) : Module R → Module R
  | .mk i a b cs => restart_module save (.mk i a b (update_children save cs))
/-- The second loop of `Module::restart` on a list of subtrees. -/
def update_children {R : Type} (save : SaveMap R) : List (Module R) → List (Module R)
  | [] => []
  | c :: cs => update_hierarchy save c :: update_children save cs
end

/-- The method `Module::restart` on a stream that holds the tokens `is`:
`size_t n = 0; is >> n`, the reading loop, the update of the hierarchy.  No
step tests the stream. -/
def restart {R : Type} (c : Codec R) (held : Nat → Nat) (is : List Stok) (m : Module R) :
    Module R :=
  update_hierarchy
    (read_entries c held (read_num 0 (some is)).1 0 (read_num 0 (some is)).2 []) m

/-- The registers of a module with its id. -/
def Module.regs {R : Type} (p : Module R) : Nat × R × R := (p.mid, p.get_input, p.get_state)

/-- The ids of the modules of a subtree, in pre-order. -/
def ids {R : Type} (m : Module R) : List Nat := (preorder m).map Module.mid

mutual
/-- The shape of a subtree with its ids, the registers left out. -/
def skeleton {R : Type} : Module R → Module Unit
  | .mk i _ _ cs => .mk i () () (skeleton_list cs)
/-- The shapes of a list of subtrees. -/
def skeleton_list {R : Type} : List (Module R) → List (Module Unit)
  | [] => []
  | c :: cs => skeleton c :: skeleton_list cs
end

/-- The last entry of a list of entries with the given id. -/
def last_entry {R : Type} : List (Nat × R × R) → Nat → Option (R × R)
  | [], _ => none
  | e :: es, id =>
    match last_entry es id with
    | some v => some v
    | none => if e.1 = id then some e.2 else none

/-- A register file of one number, written as one token; a new register
file holds 0, and a read that fails leaves it so. -/
def word_codec : Codec Nat :=
  ⟨fun r => [Stok.num r], fun is => match is with
    | some (Stok.num r :: rest) => (r, some rest)
    | _ => (0, none)⟩

/-- A hierarchy of four modules: a root with two children, the first of which
has one child. -/
def sample_hierarchy : Module Nat :=
  .mk 0 10 20 [.mk 1 11 21 [.mk 2 12 22 []], .mk 3 13 23 []]

/-- The hierarchy `sample_hierarchy` with other contents in every register
file. -/
def sample_hierarchy_reset : Module Nat :=
  .mk 0 0 0 [.mk 1 0 0 [.mk 2 0 0 []], .mk 3 0 0 []]

/-- The entries of a save stream with three entries: two for the id 1 and one
for the id 7. -/
def sample_entries : List Stok :=
  [Stok.word "MODULE:", Stok.num 1, Stok.word "INPUT:", Stok.num 101, Stok.word "STATE:",
    Stok.num 201,
   Stok.word "MODULE:", Stok.num 7, Stok.word "INPUT:", Stok.num 107, Stok.word "STATE:",
    Stok.num 207,
   Stok.word "MODULE:", Stok.num 1, Stok.word "INPUT:", Stok.num 111, Stok.word "STATE:",
    Stok.num 211]

end Cascade.Runtime

namespace Cascade.Aos

/-- The request of a module whose event controls are `ecs`: the value of
`info.uses_mixed_triggers()` is the flag that the analysis computes from them;
the other fields are as in `Request`. -/
def Request.of_module (ecs : List Analyze.EventControl) (implied_latches build_ok : Bool)
    (nv_size volatile_size : Nat) (rewrite : Nat → String) : Request :=
  ⟨Analyze.uses_mixed_triggers ecs, implied_latches, build_ok, nv_size, volatile_size, rewrite⟩

end Cascade.Aos

namespace Cascade.Aos

/-! ## Slot acquisition -/

theorem get_free_from_cases (l : List Slot) (i : Nat) :
    (get_free_from i l = -1 ∧ ∀ s ∈ l, s.state ≠ State.FREE) ∨
    ∃ (k : Nat) (s : Slot), get_free_from i l = ((i + k : Nat) : Int) ∧ l[k]? = some s ∧
      s.state = State.FREE ∧
      ∀ j < k, ∀ s', l[j]? = some s' → s'.state ≠ State.FREE := by
  induction l generalizing i with
  | nil => left; simp [get_free_from]
  | cons a rest ih =>
    by_cases ha : a.state = State.FREE
    · right
      refine ⟨0, a, ?_, by simp, ha, ?_⟩
      · simp [get_free_from, ha]
      · intro j hj; omega
    · rcases ih (i + 1) with ⟨h1, h2⟩ | ⟨k, s, h1, h2, h3, h4⟩
      · left
        refine ⟨by simp [get_free_from, ha, h1], ?_⟩
        intro s hs
        rcases List.mem_cons.mp hs with rfl | hs
        · exact ha
        · exact h2 s hs
      · right
        refine ⟨k + 1, s, ?_, by simpa using h2, h3, ?_⟩
        · simp only [get_free_from, ha, if_false, h1]
          congr 1; omega
        · intro j hj s' hs'
          cases j with
          | zero => simp at hs'; subst hs'; exact ha
          | succ j => exact h4 j (by omega) s' (by simpa using hs')

theorem get_free_cases (t : Slots) :
    (get_free t = -1 ∧ ∀ s ∈ t, s.state ≠ State.FREE) ∨
    ∃ (k : Nat) (s : Slot), get_free t = (k : Int) ∧ t[k]? = some s ∧ s.state = State.FREE ∧
      ∀ j < k, ∀ s', t[j]? = some s' → s'.state ≠ State.FREE := by
  simpa [get_free] using get_free_from_cases t 0

theorem get_free_eq_nat {t : Slots} {k : Nat} (h : get_free t = (k : Int)) :
    ∃ s, t[k]? = some s ∧ s.state = State.FREE ∧
      ∀ j < k, ∀ s', t[j]? = some s' → s'.state ≠ State.FREE := by
  rcases get_free_cases t with ⟨h1, _⟩ | ⟨k', s, h1, h2, h3, h4⟩
  · rw [h1] at h; omega
  · have : k' = k := by rw [h1] at h; exact_mod_cast h
    subst this
    exact ⟨s, h2, h3, h4⟩

theorem get_free_none {t : Slots} (h : ∀ s ∈ t, s.state ≠ State.FREE) : get_free t = -1 := by
  rcases get_free_cases t with ⟨h1, _⟩ | ⟨k, s, _, h2, h3, _⟩
  · exact h1
  · exact absurd h3 (h s (List.getElem?_mem h2))

/-! ## The table after each method, slot by slot -/

@[simp] theorem length_preempt (t : Slots) (id k : Nat) (txt : String) :
    (preempt t id k txt).length = t.length := by
  simp [preempt]

@[simp] theorem length_update (t : Slots) : (update t).length = t.length := by
  simp [update]

@[simp] theorem length_promote_first (l : List Slot) : (promote_first l).length = l.length := by
  induction l with
  | nil => rfl
  | cons a rest ih =>
    unfold promote_first
    split <;> simp [ih]

@[simp] theorem length_promote (l : List Slot) : (promote l).length = l.length := by
  simp [promote]

@[simp] theorem length_stop_compile (t : Slots) (id : Nat) (force : Bool) :
    (stop_compile t id force).length = t.length := by
  unfold stop_compile
  split_ifs <;> simp

@[simp] theorem length_set_state (t : Slots) (k : Nat) (st : State) :
    (set_state t k st).length = t.length := by
  simp [set_state]

theorem getElem?_set_state (t : Slots) (k i : Nat) (st : State) :
    (set_state t k st)[i]? =
      if k = i then (t[i]?).map (fun s => { s with state := st }) else t[i]? := by
  by_cases h : k = i
  · subst h; simp [set_state]
  · simp [set_state, h]

theorem getElem?_preempt_self {t : Slots} {k : Nat} (hk : k < t.length) (id : Nat)
    (txt : String) : (preempt t id k txt)[k]? = some ⟨id, State.COMPILING, txt⟩ := by
  simp [preempt, List.getElem?_set, hk]

theorem getElem?_preempt_ne (t : Slots) (id : Nat) {k i : Nat} (h : i ≠ k) (txt : String) :
    (preempt t id k txt)[i]? = (t[i]?).map (demote id) := by
  simp [preempt, List.getElem?_set, Ne.symm h]

theorem getElem?_update (t : Slots) (i : Nat) :
    (update t)[i]? = (t[i]?).map fun s =>
      if s.state = State.COMPILING ∨ s.state = State.WAITING then
        { s with state := State.CURRENT } else s := by
  simp [update]

theorem demote_id (id : Nat) (s : Slot) : (demote id s).id = s.id := by
  rcases s with ⟨sid, st, txt⟩
  cases st <;> by_cases h : sid = id <;> simp [demote, h]

theorem demote_text (id : Nat) (s : Slot) : (demote id s).text = s.text := by
  rcases s with ⟨sid, st, txt⟩
  cases st <;> by_cases h : sid = id <;> simp [demote, h]

theorem demote_state (id : Nat) (s : Slot) :
    (demote id s).state =
      match s.state with
      | State.COMPILING => if s.id = id then State.STOPPED else State.WAITING
      | State.WAITING => if s.id = id then State.STOPPED else State.WAITING
      | st => st := by
  rcases s with ⟨sid, st, txt⟩
  cases st <;> by_cases h : sid = id <;> simp [demote, h]

theorem stop_mark_id (id : Nat) (s : Slot) : (stop_mark id s).id = s.id := by
  unfold stop_mark
  split_ifs
  · split <;> rfl
  · rfl

theorem stop_mark_text (id : Nat) (s : Slot) : (stop_mark id s).text = s.text := by
  unfold stop_mark
  split_ifs
  · split <;> rfl
  · rfl

theorem stop_mark_state (id : Nat) (s : Slot) :
    (stop_mark id s).state =
      if s.id = id ∧ (s.state = State.COMPILING ∨ s.state = State.WAITING) then State.STOPPED
      else s.state := by
  rcases s with ⟨sid, st, txt⟩
  cases st <;> by_cases h : sid = id <;> simp [stop_mark, h]

theorem stopped_flag_eq_false {id : Nat} {t : Slots} (h : stopped_flag id t = false) :
    ∀ s ∈ t, ¬ (s.id = id ∧ (s.state = State.COMPILING ∨ s.state = State.WAITING)) := by
  intro s hs hc
  have : stopped_flag id t = true := by
    simp only [stopped_flag, List.any_eq_true]
    exact ⟨s, hs, by simpa using hc⟩
  rw [h] at this
  exact Bool.noConfusion this

theorem stopped_flag_eq_true {id : Nat} {t : Slots} (h : stopped_flag id t = true) :
    ∃ s ∈ t, s.id = id ∧ (s.state = State.COMPILING ∨ s.state = State.WAITING) := by
  simp only [stopped_flag, List.any_eq_true] at h
  obtain ⟨s, hs, hc⟩ := h
  exact ⟨s, hs, by simpa using hc⟩

theorem need_new_lead_eq_true {id : Nat} {t : Slots} :
    need_new_lead id t = true ↔ ∃ s ∈ t, s.id = id ∧ s.state = State.COMPILING := by
  simp [need_new_lead]

theorem need_new_lead_stopped {id : Nat} {t : Slots} (h : need_new_lead id t = true) :
    stopped_flag id t = true := by
  obtain ⟨s, hs, h1, h2⟩ := need_new_lead_eq_true.mp h
  simp only [stopped_flag, List.any_eq_true]
  exact ⟨s, hs, by simp [h1, h2]⟩

theorem map_stop_mark_of_not_stopped {id : Nat} {t : Slots} (h : stopped_flag id t = false) :
    t.map (stop_mark id) = t := by
  have h' := stopped_flag_eq_false h
  have : ∀ s ∈ t, stop_mark id s = s := by
    intro s hs
    have hn := h' s hs
    rcases s with ⟨sid, st, txt⟩
    by_cases hid : sid = id
    · cases st <;> simp_all [stop_mark]
    · simp [stop_mark, hid]
  calc t.map (stop_mark id) = t.map (fun s => s) := List.map_congr_left this
    _ = t := by simp

/-! ## Counting the COMPILING slots -/

theorem countP_set_le {α : Type} (p : α → Bool) (l : List α) (k : Nat) (a : α) :
    (l.set k a).countP p ≤ l.countP p + 1 := by
  induction l generalizing k with
  | nil => simp
  | cons b rest ih =>
    cases k with
    | zero =>
      simp only [List.set_cons_zero, List.countP_cons]
      split_ifs <;> omega
    | succ k =>
      simp only [List.set_cons_succ, List.countP_cons]
      have := ih k
      omega

theorem countP_eq_zero_of_forall {α : Type} (p : α → Bool) (l : List α)
    (h : ∀ a ∈ l, p a = false) : l.countP p = 0 := by
  rw [List.countP_eq_zero]
  intro a ha
  simp [h a ha]

theorem compiling_count_map_demote (t : Slots) (id : Nat) :
    compiling_count (t.map (demote id)) = 0 := by
  apply countP_eq_zero_of_forall
  intro s hs
  obtain ⟨a, _, rfl⟩ := List.mem_map.mp hs
  have := demote_state id a
  rcases a with ⟨sid, st, txt⟩
  cases st <;> by_cases h : sid = id <;> simp_all

theorem compiling_count_preempt_le (t : Slots) (id k : Nat) (txt : String) :
    compiling_count (preempt t id k txt) ≤ 1 := by
  have h1 := countP_set_le (fun s : Slot => decide (s.state = State.COMPILING))
    (t.map (demote id)) k ⟨id, State.COMPILING, txt⟩
  have h2 := compiling_count_map_demote t id
  simp only [compiling_count] at h2 ⊢
  simp only [preempt]
  omega

theorem compiling_count_update (t : Slots) : compiling_count (update t) = 0 := by
  apply countP_eq_zero_of_forall
  intro s hs
  simp only [update] at hs
  obtain ⟨a, _, rfl⟩ := List.mem_map.mp hs
  rcases a with ⟨sid, st, txt⟩
  cases st <;> simp

theorem compiling_count_map_stop_mark_le (t : Slots) (id : Nat) :
    compiling_count (t.map (stop_mark id)) ≤ compiling_count t := by
  induction t with
  | nil => simp [compiling_count]
  | cons a rest ih =>
    simp only [compiling_count, List.map_cons, List.countP_cons] at ih ⊢
    have := stop_mark_state id a
    rcases a with ⟨sid, st, txt⟩
    cases st <;> by_cases h : sid = id <;> first | (simp_all; done) | (simp_all; omega)

theorem compiling_count_map_stop_mark_lt (t : Slots) (id : Nat)
    (h : need_new_lead id t = true) :
    compiling_count (t.map (stop_mark id)) + 1 ≤ compiling_count t := by
  induction t with
  | nil => simp [need_new_lead] at h
  | cons a rest ih =>
    have hle := compiling_count_map_stop_mark_le rest id
    simp only [compiling_count, List.map_cons, List.countP_cons] at ih hle ⊢
    by_cases ha : a.id = id ∧ a.state = State.COMPILING
    · have h1 : (stop_mark id a).state = State.STOPPED := by
        rw [stop_mark_state]; simp [ha.1, ha.2]
      simp only [h1, ha.2]
      simp only [List.countP_map] at hle ⊢
      simp
      omega
    · have hrest : need_new_lead id rest = true := by
        simp only [need_new_lead, List.any_cons, Bool.or_eq_true] at h ⊢
        rcases h with h | h
        · exact absurd (by simpa using h) ha
        · exact h
      have ih' := ih hrest
      have hst := stop_mark_state id a
      rcases a with ⟨sid, st, txt⟩
      cases st <;> by_cases hid : sid = id <;> simp_all

theorem compiling_count_promote_first_le (l : List Slot) :
    compiling_count (promote_first l) ≤ compiling_count l + 1 := by
  induction l with
  | nil => simp [promote_first, compiling_count]
  | cons a rest ih =>
    unfold promote_first
    simp only [compiling_count] at ih ⊢
    split_ifs with h
    · simp [List.countP_cons, h]
    · simp only [List.countP_cons]
      omega

theorem compiling_count_promote_le (l : List Slot) :
    compiling_count (promote l) ≤ compiling_count l + 1 := by
  have := compiling_count_promote_first_le l.reverse
  simpa [promote, compiling_count] using this

theorem compiling_count_stop_compile_le (t : Slots) (id : Nat) (force : Bool)
    (h : compiling_count t ≤ 1) : compiling_count (stop_compile t id force) ≤ 1 := by
  have h1 := compiling_count_map_stop_mark_le t id
  unfold stop_compile
  simp only []
  split_ifs with hs hn
  · omega
  · have h2 := compiling_count_map_stop_mark_lt t id hn
    have h3 := compiling_count_promote_le (t.map (stop_mark id))
    omega
  · omega

theorem compiling_count_set_state_le (t : Slots) (k : Nat) (st : State)
    (hst : st ≠ State.COMPILING) :
    compiling_count (set_state t k st) ≤ compiling_count t := by
  induction t generalizing k with
  | nil => simp [set_state, compiling_count]
  | cons a rest ih =>
    cases k with
    | zero =>
      simp only [set_state, compiling_count, List.modify_zero_cons, List.countP_cons, hst]
      simp
    | succ k =>
      have := ih k
      simp only [set_state, compiling_count, List.modify_succ_cons, List.countP_cons] at this ⊢
      omega

theorem compiling_count_compile_entry_le (t : Slots) (id : Nat) (r : Request)
    (h : compiling_count t ≤ 1) : compiling_count (compile_entry t id r).1 ≤ 1 := by
  unfold compile_entry
  simp only []
  split_ifs <;> first | exact h | exact compiling_count_preempt_le _ _ _ _

theorem compiling_count_step_le (t : Slots) (e : Event) (h : compiling_count t ≤ 1) :
    compiling_count (step t e) ≤ 1 := by
  cases e with
  | compile id r => exact compiling_count_compile_entry_le t id r h
  | built => simp [step, compiling_count_update]
  | failed id => exact compiling_count_stop_compile_le t id false h
  | stop id => exact compiling_count_stop_compile_le t id true h
  | free k =>
    simp only [step]
    split
    · rename_i s hs
      split_ifs with hst
      · have : (loop_iter t k).1 = set_state t k State.FREE := by
          simp [loop_iter, hs, hst]
        rw [this]
        exact le_trans (compiling_count_set_state_le t k State.FREE (by decide)) h
      · exact h
    · exact h
  | release k =>
    simp only [step, release]
    split
    · split_ifs
      · simp only [Option.getD_some]
        exact le_trans (compiling_count_set_state_le t k State.FREE (by decide)) h
      · simpa using h
    · simpa using h

theorem compiling_count_run_le (t : Slots) (es : List Event) (h : compiling_count t ≤ 1) :
    compiling_count (run t es) ≤ 1 := by
  induction es generalizing t with
  | nil => simpa [run] using h
  | cons e es ih =>
    simp only [run, List.foldl_cons]
    exact ih (step t e) (compiling_count_step_le t e h)

theorem compiling_count_init : compiling_count init = 0 := by
  simp [compiling_count, init]

theorem run_append (t : Slots) (es fs : List Event) : run t (es ++ fs) = run (run t es) fs := by
  simp [run]

@[simp] theorem length_compile_entry (t : Slots) (id : Nat) (r : Request) :
    (compile_entry t id r).1.length = t.length := by
  unfold compile_entry
  simp only []
  split_ifs <;> simp

@[simp] theorem length_step (t : Slots) (e : Event) : (step t e).length = t.length := by
  cases e with
  | compile id r => simp [step]
  | built => simp [step]
  | failed id => simp [step]
  | stop id => simp [step]
  | free k =>
    simp only [step]
    split
    · rename_i s hs
      split_ifs with hst
      · simp [loop_iter, hs, hst]
      · rfl
    · rfl
  | release k =>
    simp only [step, release]
    split
    · split_ifs <;> simp
    · simp

@[simp] theorem length_run (t : Slots) (es : List Event) : (run t es).length = t.length := by
  induction es generalizing t with
  | nil => rfl
  | cons e es ih => simp [run, List.foldl_cons] at ih ⊢; rw [ih]; simp

theorem compiling_unique_of_count_le_one (l : List Slot) (h : compiling_count l ≤ 1)
    (i j : Nat) (si sj : Slot) (hi : l[i]? = some si) (hsi : si.state = State.COMPILING)
    (hj : l[j]? = some sj) (hsj : sj.state = State.COMPILING) : i = j := by
  induction l generalizing i j with
  | nil => simp at hi
  | cons a rest ih =>
    simp only [compiling_count, List.countP_cons] at h ih
    have hzero : ∀ (k : Nat) (s : Slot), a.state = State.COMPILING → rest[k]? = some s →
        s.state = State.COMPILING → False := by
      intro k s ha hk hs
      have h0 : rest.countP (fun s => decide (s.state = State.COMPILING)) = 0 := by
        simp only [ha, decide_True, if_true] at h
        omega
      rw [List.countP_eq_zero] at h0
      exact h0 s (List.getElem?_mem hk) (by simpa using hs)
    cases i with
    | zero =>
      cases j with
      | zero => rfl
      | succ j =>
        simp only [List.getElem?_cons_zero, Option.some.injEq] at hi
        simp only [List.getElem?_cons_succ] at hj
        subst hi
        exact (hzero j sj hsi hj hsj).elim
    | succ i =>
      cases j with
      | zero =>
        simp only [List.getElem?_cons_zero, Option.some.injEq] at hj
        simp only [List.getElem?_cons_succ] at hi
        subst hj
        exact (hzero i si hsj hi hsi).elim
      | succ j =>
        simp only [List.getElem?_cons_succ] at hi hj
        have hrest : rest.countP (fun s => decide (s.state = State.COMPILING)) ≤ 1 := by
          omega
        rw [ih hrest i j hi hj]

theorem compile_entry_entered {t t1 : Slots} {id k : Nat} {r : Request}
    (h : compile_entry t id r = (t1, Entry.entered k)) :
    get_free t = (k : Int) ∧ t1 = preempt t id k (r.rewrite k) := by
  unfold compile_entry at h
  simp only [] at h
  split_ifs at h with h1 h2 h3 h4 h5
  iterate 5 simp at h
  have hk : (get_free t).toNat = k := by
    have := congrArg Prod.snd h
    simpa using this
  have hnn : 0 ≤ get_free t := by
    rcases get_free_cases t with ⟨h', _⟩ | ⟨k', _, h', _⟩
    · exact absurd h' h3
    · rw [h']; exact Int.natCast_nonneg k'
  refine ⟨?_, ?_⟩
  · rw [← hk]; exact (Int.toNat_of_nonneg hnn).symm
  · have := congrArg Prod.fst h
    simp only [hk] at this
    exact this.symm

/-! ## Claims C1, C2, C3, C8, C9, C10: invariant, preemption, update, acquisition, rejections -/

/-- C1: in every state reached from a freshly constructed scheduler (32 slots,
all FREE) by any sequence of compile entries (with their preemption step),
build successes (`update`), build failures (`stop_compile(id, false)`),
`stop_compile(id)`, frees of a STOPPED slot and releases, the table still has
32 slots and at most one of them is COMPILING. -/
theorem C1_at_most_one_compiling (es : List Event) :
    (run init es).length = 32 ∧ compiling_count (run init es) ≤ 1 ∧
    ∀ (i j : Nat) (si sj : Slot),
      (run init es)[i]? = some si → si.state = State.COMPILING →
      (run init es)[j]? = some sj → sj.state = State.COMPILING → i = j := by
  have hc : compiling_count (run init es) ≤ 1 :=
    compiling_count_run_le init es (by rw [compiling_count_init]; omega)
  refine ⟨by simp [init], hc, ?_⟩
  intro i j si sj hi hsi hj hsj
  exact compiling_unique_of_count_le_one _ hc i j si sj hi hsi hj hsj

/-- C2: the preemption step of a compile by requester `id` that acquired slot
`k`: slot `k` was FREE and becomes COMPILING with requester `id` and the text
generated for index `k`; every other slot keeps its requester and text; a
COMPILING slot of another requester becomes WAITING; a COMPILING or WAITING slot
of `id` becomes STOPPED; a WAITING slot of another requester stays WAITING; FREE,
STOPPED and CURRENT slots keep their state. -/
theorem C2_preemption_step (t t1 : Slots) (id k : Nat) (r : Request)
    (h : compile_entry t id r = (t1, Entry.entered k)) :
    (∃ s, t[k]? = some s ∧ s.state = State.FREE) ∧
    t1.length = t.length ∧
    t1[k]? = some ⟨id, State.COMPILING, r.rewrite k⟩ ∧
    ∀ (i : Nat) (s : Slot), i ≠ k → t[i]? = some s →
      ∃ s', t1[i]? = some s' ∧ s'.id = s.id ∧ s'.text = s.text ∧
        (s.state = State.COMPILING → s.id ≠ id → s'.state = State.WAITING) ∧
        (s.state = State.COMPILING ∨ s.state = State.WAITING → s.id = id →
          s'.state = State.STOPPED) ∧
        (s.state = State.WAITING → s.id ≠ id → s'.state = State.WAITING) ∧
        (s.state = State.FREE ∨ s.state = State.STOPPED ∨ s.state = State.CURRENT →
          s'.state = s.state) := by
  obtain ⟨hfree, rfl⟩ := compile_entry_entered h
  obtain ⟨s0, hs0, hs0free, _⟩ := get_free_eq_nat hfree
  have hk : k < t.length := (List.getElem?_eq_some.mp hs0).1
  refine ⟨⟨s0, hs0, hs0free⟩, by simp, getElem?_preempt_self hk id _, ?_⟩
  intro i s hik hs
  refine ⟨demote id s, ?_, demote_id id s, demote_text id s, ?_, ?_, ?_, ?_⟩
  · rw [getElem?_preempt_ne t id hik, hs]; rfl
  · intro h1 h2; rw [demote_state, h1]; simp [h2]
  · intro h1 h2
    rcases h1 with h1 | h1 <;> rw [demote_state, h1] <;> simp [h2]
  · intro h1 h2; rw [demote_state, h1]; simp [h2]
  · intro h1
    rcases h1 with h1 | h1 | h1 <;> rw [demote_state, h1]

/-- Witness of C2 on the table left by a first compile: the compile of
requester 8 acquires slot 1 and slot 0, COMPILING for requester 7, becomes
WAITING. -/
theorem C2_preemption_step_witness :
    (compile_entry (compile_entry init 7 (sample_request 1 0)).1 8 (sample_request 1 0)).2
      = Entry.entered 1 ∧
    ((compile_entry (compile_entry init 7 (sample_request 1 0)).1 8
      (sample_request 1 0)).1[0]?).map Slot.state = some State.WAITING := by
  refine ⟨by decide, ?_⟩
  obtain ⟨s', h1, _, _, h2, _⟩ :=
    (C2_preemption_step (compile_entry init 7 (sample_request 1 0)).1
      (compile_entry (compile_entry init 7 (sample_request 1 0)).1 8 (sample_request 1 0)).1
      8 1 (sample_request 1 0) (by rfl)).2.2.2 0
      ⟨7, State.COMPILING, (sample_request 1 0).rewrite 0⟩ (by decide) (by rfl)
  rw [h1]
  simp [h2 rfl (by decide)]

/-- C3, counterexample: requester 1 compiles, requester 2 compiles (slot 0
becomes WAITING), `stop_compile(1)` stops slot 0, and the build of the lead
(slot 1) succeeds: slot 0 is not FREE and is STOPPED, not CURRENT, afterwards. -/
theorem C3_stopped_slot_stays_stopped :
    ((run init [Event.compile 1 (sample_request 1 0), Event.compile 2 (sample_request 1 0),
        Event.stop 1])[0]?).map Slot.state = some State.STOPPED ∧
    ((run init [Event.compile 1 (sample_request 1 0), Event.compile 2 (sample_request 1 0),
        Event.stop 1])[1]?).map Slot.state = some State.COMPILING ∧
    ((update (run init [Event.compile 1 (sample_request 1 0),
        Event.compile 2 (sample_request 1 0), Event.stop 1]))[0]?).map Slot.state
      = some State.STOPPED := by
  decide

/-- C3, amended: when a backend build succeeds (`update`), every slot that is
COMPILING, WAITING or CURRENT is CURRENT afterwards, every STOPPED slot stays
STOPPED and every FREE slot stays FREE; requesters and texts are unchanged. -/
theorem C3_update_states (t : Slots) (i : Nat) (s : Slot) (h : t[i]? = some s) :
    (update t).length = t.length ∧
    ∃ s', (update t)[i]? = some s' ∧ s'.id = s.id ∧ s'.text = s.text ∧
      (s.state = State.COMPILING ∨ s.state = State.WAITING ∨ s.state = State.CURRENT →
        s'.state = State.CURRENT) ∧
      (s.state = State.STOPPED → s'.state = State.STOPPED) ∧
      (s.state = State.FREE → s'.state = State.FREE) := by
  refine ⟨length_update t, ?_⟩
  rw [getElem?_update, h]
  rcases s with ⟨sid, st, txt⟩
  cases st <;> simp

/-- Witness of the amended C3: after a successful build the WAITING slot 0 of
a table with two compiles is CURRENT. -/
theorem C3_update_states_witness :
    (run init [Event.compile 1 (sample_request 1 0), Event.compile 2 (sample_request 1 0)])[0]?
      = some ⟨1, State.WAITING, (sample_request 1 0).rewrite 0⟩ ∧
    ((update (run init [Event.compile 1 (sample_request 1 0),
      Event.compile 2 (sample_request 1 0)]))[0]?).map Slot.state = some State.CURRENT := by
  refine ⟨by rfl, ?_⟩
  obtain ⟨_, s', h1, _, _, h2, _⟩ := C3_update_states
    (run init [Event.compile 1 (sample_request 1 0), Event.compile 2 (sample_request 1 0)]) 0
    ⟨1, State.WAITING, (sample_request 1 0).rewrite 0⟩ (by rfl)
  rw [h1]
  simp [h2 (Or.inr (Or.inl rfl))]

/-- C8: `get_free` returns `-1` exactly when no slot is FREE; it returns the
index `k` exactly when slot `k` is FREE and no slot below `k` is; and its
result is always `-1` or an index of the table.  (The function only reads the
table: its result is all it produces.) -/
theorem C8_get_free_lowest (t : Slots) :
    (get_free t = -1 ↔ ∀ s ∈ t, s.state ≠ State.FREE) ∧
    (∀ k : Nat, get_free t = (k : Int) ↔
      (∃ s, t[k]? = some s ∧ s.state = State.FREE) ∧
      ∀ j < k, ∀ s', t[j]? = some s' → s'.state ≠ State.FREE) ∧
    (get_free t = -1 ∨ ∃ k : Nat, k < t.length ∧ get_free t = (k : Int)) := by
  refine ⟨⟨?_, get_free_none⟩, ?_, ?_⟩
  · intro h
    rcases get_free_cases t with ⟨_, h2⟩ | ⟨k, _, h1, _⟩
    · exact h2
    · rw [h1] at h; omega
  · intro k
    constructor
    · intro h
      obtain ⟨s, h1, h2, h3⟩ := get_free_eq_nat h
      exact ⟨⟨s, h1, h2⟩, h3⟩
    · rintro ⟨⟨s, h1, h2⟩, h3⟩
      rcases get_free_cases t with ⟨_, h5⟩ | ⟨k', s', h4, h5, h6, h7⟩
      · exact absurd h2 (h5 s (List.getElem?_mem h1))
      · rcases Nat.lt_trichotomy k' k with hlt | heq | hgt
        · exact absurd h6 (h3 k' hlt s' h5)
        · rw [h4, heq]
        · exact absurd h2 (h7 k hgt s h1)
  · rcases get_free_cases t with ⟨h1, _⟩ | ⟨k, s, h1, h2, _, _⟩
    · exact Or.inl h1
    · exact Or.inr ⟨k, (List.getElem?_eq_some.mp h2).1, h1⟩

/-- C9: when no slot is FREE, in particular with all 32 slots of the pool
taken, `compile_logic` returns null before the preemption step for every
requester and every module, and the table (requester, state and text of every
slot) is the one before the call. -/
theorem C9_pool_exhausted (t : Slots) (id : Nat) (r : Request)
    (h : ∀ s ∈ t, s.state ≠ State.FREE) :
    compile_entry t id r = (t, Entry.rejected) := by
  unfold compile_entry
  simp only [get_free_none h]
  split_ifs <;> rfl

/-- Witness of C9: a pool of 32 CURRENT slots rejects a further compile. -/
theorem C9_pool_exhausted_witness :
    (List.replicate 32 (⟨1, State.CURRENT, ""⟩ : Slot)).length = 32 ∧
    compile_entry (List.replicate 32 ⟨1, State.CURRENT, ""⟩) 33 (sample_request 1 0)
      = (List.replicate 32 ⟨1, State.CURRENT, ""⟩, Entry.rejected) :=
  ⟨by simp, C9_pool_exhausted _ 33 (sample_request 1 0) (by
    intro s hs
    rw [List.eq_of_mem_replicate hs]
    decide)⟩

/-- C10, counterexample: a request with 16383 entries before the volatile
state and one volatile entry needs 16384 entries, and `compile_logic` does not
reject it: it enters its loop with slot 0 COMPILING, and once the build
succeeds it returns the logic object with slot 0 CURRENT. -/
theorem C10_volatile_overflow_accepted :
    (sample_request 16383 1).table_size ≥ 16384 ∧
    (compile_entry init 1 (sample_request 16383 1)).2 = Entry.entered 0 ∧
    ((compile_entry init 1 (sample_request 16383 1)).1[0]?).map Slot.state
      = some State.COMPILING ∧
    (finish_build (compile_entry init 1 (sample_request 16383 1)).1 1 0 true).2
      = Outcome.logic ∧
    ((finish_build (compile_entry init 1 (sample_request 16383 1)).1 1 0 true).1[0]?).map
      Slot.state = some State.CURRENT := by
  decide

/-- C10, amended: a request whose variable table needs 16384 or more entries
before the volatile state entries are appended is rejected before the
preemption step: `compile_logic` returns null, the table is the one before
the call, and the slot that `get_free` offered is FREE in it. -/
theorem C10_nv_overflow_rejected (t : Slots) (id : Nat) (r : Request)
    (h : r.nv_size ≥ 16384) :
    compile_entry t id r = (t, Entry.rejected) ∧
    ∀ k : Nat, get_free t = (k : Int) → (t[k]?).map Slot.state = some State.FREE := by
  constructor
  · unfold compile_entry
    simp only []
    split_ifs <;> rfl
  · intro k hk
    obtain ⟨s, h1, h2, _⟩ := get_free_eq_nat hk
    simp [h1, h2]

/-- Witness of the amended C10: 16384 entries without any volatile state. -/
theorem C10_nv_overflow_rejected_witness :
    (sample_request 16384 0).nv_size ≥ 16384 ∧
    compile_entry init 1 (sample_request 16384 0) = (init, Entry.rejected) :=
  ⟨by decide, (C10_nv_overflow_rejected init 1 (sample_request 16384 0) (by decide)).1⟩

/-! ## The promotion loop of `stop_compile` (claims C4, C5) -/

theorem promote_append (l : List Slot) (a : Slot) :
    promote (l ++ [a]) =
      if a.state = State.WAITING then l ++ [{ a with state := State.COMPILING }]
      else promote l ++ [a] := by
  simp only [promote, List.reverse_append, List.reverse_cons, List.reverse_nil, List.nil_append,
    List.singleton_append, promote_first]
  split_ifs <;> simp

theorem promote_cases (l : List Slot) :
    ((∀ s ∈ l, s.state ≠ State.WAITING) ∧ promote l = l) ∨
    ∃ (j : Nat) (s : Slot), l[j]? = some s ∧ s.state = State.WAITING ∧
      (∀ (i : Nat) (s' : Slot), j < i → l[i]? = some s' → s'.state ≠ State.WAITING) ∧
      promote l = l.set j { s with state := State.COMPILING } := by
  induction l using List.reverseRecOn with
  | nil => left; simp [promote, promote_first]
  | append_singleton l a ih =>
    rw [promote_append]
    by_cases ha : a.state = State.WAITING
    · right
      refine ⟨l.length, a, by simp, ha, ?_, ?_⟩
      · intro i s' hi hs'
        have : (l ++ [a])[i]? = none := by
          apply List.getElem?_eq_none
          simp; omega
        rw [this] at hs'
        exact Option.noConfusion hs'
      · simp [ha]
    · rcases ih with ⟨h1, h2⟩ | ⟨j, s, h1, h2, h3, h4⟩
      · left
        refine ⟨?_, by simp [ha, h2]⟩
        intro s hs
        rcases List.mem_append.mp hs with hs | hs
        · exact h1 s hs
        · simp at hs; subst hs; exact ha
      · right
        have hj : j < l.length := (List.getElem?_eq_some.mp h1).1
        refine ⟨j, s, ?_, h2, ?_, ?_⟩
        · rw [List.getElem?_append_left hj]; exact h1
        · intro i s' hi hs'
          by_cases hil : i < l.length
          · rw [List.getElem?_append_left hil] at hs'
            exact h3 i s' hi hs'
          · rw [List.getElem?_append_right (by omega)] at hs'
            have hz : i - l.length = 0 := by
              by_contra hne
              have : ([a] : List Slot)[i - l.length]? = none := by
                apply List.getElem?_eq_none
                simp; omega
              rw [this] at hs'
              exact Option.noConfusion hs'
            rw [hz] at hs'
            simp at hs'
            subst hs'
            exact ha
        · simp only [ha, if_false, h4]
          rw [List.set_append_left _ _ hj]

theorem stop_mark_of_ne {id : Nat} {s : Slot} (h : s.id ≠ id) : stop_mark id s = s := by
  simp [stop_mark, h]

theorem stop_mark_waiting {id : Nat} {s : Slot} :
    (stop_mark id s).state = State.WAITING ↔ s.state = State.WAITING ∧ s.id ≠ id := by
  rw [stop_mark_state]
  rcases s with ⟨sid, st, txt⟩
  cases st <;> by_cases h : sid = id <;> simp [h]

/-- The table after `stop_compile`: either every slot is just marked and no
promotion takes place, or the lead was stopped and the highest WAITING slot of
another requester is promoted. -/
theorem stop_compile_cases (t : Slots) (id : Nat) (force : Bool) :
    (stop_compile t id force = t.map (stop_mark id) ∧
      ¬ (need_new_lead id t = true ∧ ∃ s ∈ t, s.state = State.WAITING ∧ s.id ≠ id)) ∨
    (need_new_lead id t = true ∧
      ∃ (j : Nat) (s : Slot), t[j]? = some s ∧ s.state = State.WAITING ∧ s.id ≠ id ∧
        (∀ (i : Nat) (s' : Slot), j < i → t[i]? = some s' →
          ¬ (s'.state = State.WAITING ∧ s'.id ≠ id)) ∧
        stop_compile t id force
          = (t.map (stop_mark id)).set j { s with state := State.COMPILING }) := by
  by_cases hn : need_new_lead id t = true
  · have hs : stopped_flag id t = true := need_new_lead_stopped hn
    have hsc : stop_compile t id force = promote (t.map (stop_mark id)) := by
      simp [stop_compile, hs, hn]
    rcases promote_cases (t.map (stop_mark id)) with ⟨h1, h2⟩ | ⟨j, sm, h1, h2, h3, h4⟩
    · left
      refine ⟨by rw [hsc, h2], ?_⟩
      rintro ⟨_, s, hs, hw⟩
      exact h1 (stop_mark id s) (List.mem_map.mpr ⟨s, hs, rfl⟩) (stop_mark_waiting.mpr hw)
    · right
      refine ⟨hn, ?_⟩
      rw [List.getElem?_map] at h1
      cases hts : t[j]? with
      | none => rw [hts] at h1; exact Option.noConfusion h1
      | some s =>
        rw [hts] at h1
        simp only [Option.map_some', Option.some.injEq] at h1
        subst h1
        have hw := stop_mark_waiting.mp h2
        refine ⟨j, s, hts, hw.1, hw.2, ?_, ?_⟩
        · intro i s' hi hs' hw'
          exact h3 i (stop_mark id s') hi (by rw [List.getElem?_map, hs']; rfl)
            (stop_mark_waiting.mpr hw')
        · rw [hsc, h4, stop_mark_of_ne hw.2]
  · left
    refine ⟨?_, fun h => hn h.1⟩
    unfold stop_compile
    simp only []
    split_ifs <;> rfl

theorem stamped_run_slots_from (g : Stamped) (es : List Event) :
    (es.foldl Stamped.step g).slots = run g.slots es := by
  induction es generalizing g with
  | nil => rfl
  | cons e es ih => simp only [List.foldl_cons, run] at ih ⊢; rw [ih]; rfl

/-- The stamps are kept beside the table: the table of the stamped run is the
table of the run. -/
theorem stamped_run_slots (es : List Event) : (stamped_run es).slots = run init es :=
  stamped_run_slots_from _ es

/-- C4, counterexample: after the trace that reuses slot 0, slots 0, 1 and 2
are WAITING and slot 3 is the lead of requester 5.  Slot 0 is the one that was
registered last (event 6, against 2 and 3) and downgraded last (event 7,
against 3 and 6), yet `stop_compile(5)` promotes slot 2, the WAITING slot of
highest index, and leaves slot 0 WAITING. -/
theorem C4_promotion_not_lifo_after_reuse :
    (stamped_run reuse_trace).slots.map Slot.state
      = [State.WAITING, State.WAITING, State.WAITING, State.COMPILING]
        ++ List.replicate 28 State.FREE ∧
    need_new_lead 5 (stamped_run reuse_trace).slots = true ∧
    (stamped_run reuse_trace).registered.take 3 = [6, 2, 3] ∧
    (stamped_run reuse_trace).demoted.take 3 = [7, 3, 6] ∧
    (stop_compile (stamped_run reuse_trace).slots 5 true).map Slot.state
      = [State.WAITING, State.WAITING, State.COMPILING, State.STOPPED]
        ++ List.replicate 28 State.FREE := by
  decide

/-- C4, amended: when `stop_compile(id, force)` stops the COMPILING lead and
some slot of another requester is WAITING, the slot promoted to COMPILING is the
WAITING slot with the highest index, and every other slot is only marked (no
second promotion).  It is the WAITING slot that entered last for every stamping
of the slots that increases with the index over the WAITING slots. -/
theorem C4_promotes_highest_waiting (t : Slots) (id : Nat) (force : Bool) (j : Nat) (s : Slot)
    (hlead : need_new_lead id t = true)
    (hj : t[j]? = some s) (hw : s.state = State.WAITING) (hid : s.id ≠ id)
    (hmax : ∀ (i : Nat) (s' : Slot), j < i → t[i]? = some s' →
      ¬ (s'.state = State.WAITING ∧ s'.id ≠ id)) :
    (stop_compile t id force)[j]? = some { s with state := State.COMPILING } ∧
    (∀ (i : Nat) (s' : Slot), i ≠ j → t[i]? = some s' →
      (stop_compile t id force)[i]? = some (stop_mark id s')) ∧
    ∀ stamp : Nat → Nat,
      (∀ (a b : Nat) (sa sb : Slot), t[a]? = some sa → sa.state = State.WAITING → sa.id ≠ id →
        t[b]? = some sb → sb.state = State.WAITING → sb.id ≠ id → a < b → stamp a < stamp b) →
      ∀ (i : Nat) (s' : Slot), t[i]? = some s' → s'.state = State.WAITING → s'.id ≠ id →
        stamp i ≤ stamp j := by
  have hjlt : j < t.length := (List.getElem?_eq_some.mp hj).1
  rcases stop_compile_cases t id force with ⟨_, h2⟩ | ⟨_, j', s0, h1, h2, h3, h4, h5⟩
  · exact absurd ⟨hlead, s, List.getElem?_mem hj, hw, hid⟩ h2
  · have hjj : j' = j := by
      rcases Nat.lt_trichotomy j' j with hlt | heq | hgt
      · exact absurd ⟨hw, hid⟩ (h4 j s hlt hj)
      · exact heq
      · exact absurd ⟨h2, h3⟩ (hmax j' s0 hgt h1)
    subst hjj
    have hss : s0 = s := by rw [hj] at h1; exact (Option.some.inj h1).symm
    subst hss
    refine ⟨?_, ?_, ?_⟩
    · rw [h5, List.getElem?_set]
      simp [hjlt]
    · intro i s' hi hs'
      rw [h5, List.getElem?_set]
      simp [Ne.symm hi, hs']
    · intro stamp hmono i s' hi hwi hidi
      rcases Nat.lt_trichotomy i j' with hlt | heq | hgt
      · exact le_of_lt (hmono i j' s' s0 hi hwi hidi hj hw hid hlt)
      · rw [heq]
      · exact absurd ⟨hwi, hidi⟩ (hmax i s' hgt hi)

/-- Witness of the amended C4 on the table after the trace that reuses slot 0:
`stop_compile(5)` promotes slot 2. -/
theorem C4_promotes_highest_waiting_witness :
    need_new_lead 5 (run init reuse_trace) = true ∧
    (run init reuse_trace)[2]? = some ⟨3, State.WAITING, (sample_request 1 0).rewrite 2⟩ ∧
    (stop_compile (run init reuse_trace) 5 true)[2]?
      = some ⟨3, State.COMPILING, (sample_request 1 0).rewrite 2⟩ :=
  ⟨by decide, by rfl,
    (C4_promotes_highest_waiting (run init reuse_trace) 5 true 2
      ⟨3, State.WAITING, (sample_request 1 0).rewrite 2⟩ (by decide) (by rfl) rfl (by decide)
      (by
        intro i s' hi hs' hw'
        have hlen : i < (run init reuse_trace).length := (List.getElem?_eq_some.mp hs').1
        have hst : ((run init reuse_trace)[i]?).map Slot.state = some s'.state := by
          rw [hs']; rfl
        have hl : (run init reuse_trace).length = 32 := by simp [init]
        rw [hl] at hlen
        have hall : ∀ k : Fin 32, 2 < k.val →
            ((run init reuse_trace)[k.val]?).map Slot.state ≠ some State.WAITING := by
          decide
        exact hall ⟨i, hlen⟩ hi (by rw [hst, hw'.1]))).1⟩

/-- C5: `stop_compile(id, force)` keeps the size of the table and the requester
and text of every slot; it sets every COMPILING or WAITING slot of `id` to
STOPPED; FREE, STOPPED and CURRENT slots of `id` keep their state; a slot of
another requester keeps its state or is promoted from WAITING to COMPILING;
exactly one slot is promoted when a COMPILING slot of `id` was stopped and a
slot of another requester is WAITING, and none is promoted otherwise; and when
`id` owns no COMPILING or WAITING slot the table is unchanged. -/
theorem C5_stop_compile_frame (t : Slots) (id : Nat) (force : Bool) :
    (stop_compile t id force).length = t.length ∧
    (∀ (i : Nat) (s : Slot), t[i]? = some s →
      ∃ s', (stop_compile t id force)[i]? = some s' ∧ s'.id = s.id ∧ s'.text = s.text ∧
        (s.id = id → s.state = State.COMPILING ∨ s.state = State.WAITING →
          s'.state = State.STOPPED) ∧
        (s.id = id → s.state = State.FREE ∨ s.state = State.STOPPED ∨ s.state = State.CURRENT →
          s'.state = s.state) ∧
        (s.id ≠ id → s'.state = s.state ∨
          (s.state = State.WAITING ∧ s'.state = State.COMPILING))) ∧
    ((∃ s ∈ t, s.id = id ∧ s.state = State.COMPILING) →
      (∃ s ∈ t, s.id ≠ id ∧ s.state = State.WAITING) →
      ∃ j : Nat,
        (∃ s s', t[j]? = some s ∧ s.state = State.WAITING ∧
          (stop_compile t id force)[j]? = some s' ∧ s'.state = State.COMPILING) ∧
        ∀ (i : Nat) (s s' : Slot), t[i]? = some s → s.state = State.WAITING →
          (stop_compile t id force)[i]? = some s' → s'.state = State.COMPILING → i = j) ∧
    (¬ ((∃ s ∈ t, s.id = id ∧ s.state = State.COMPILING) ∧
        (∃ s ∈ t, s.id ≠ id ∧ s.state = State.WAITING)) →
      ∀ (i : Nat) (s s' : Slot), t[i]? = some s → s.id ≠ id →
        (stop_compile t id force)[i]? = some s' → s'.state = s.state) ∧
    ((∀ s ∈ t, s.id = id → s.state ≠ State.COMPILING ∧ s.state ≠ State.WAITING) →
      stop_compile t id force = t) := by
  have hmark : ∀ (s : Slot),
      (s.id = id → s.state = State.COMPILING ∨ s.state = State.WAITING →
        (stop_mark id s).state = State.STOPPED) ∧
      (s.id = id → s.state = State.FREE ∨ s.state = State.STOPPED ∨ s.state = State.CURRENT →
        (stop_mark id s).state = s.state) ∧
      (s.id ≠ id → (stop_mark id s).state = s.state) := by
    intro s
    rw [stop_mark_state]
    rcases s with ⟨sid, st, txt⟩
    cases st <;> by_cases h : sid = id <;> simp [h]
  refine ⟨length_stop_compile t id force, ?_, ?_, ?_, ?_⟩
  · intro i s hs
    rcases stop_compile_cases t id force with ⟨h1, _⟩ | ⟨_, j, s0, h1, h2, h3, _, h5⟩
    · refine ⟨stop_mark id s, by rw [h1, List.getElem?_map, hs]; rfl, stop_mark_id id s,
        stop_mark_text id s, (hmark s).1, (hmark s).2.1, fun h => Or.inl ((hmark s).2.2 h)⟩
    · by_cases hij : i = j
      · subst hij
        have hss : s0 = s := by rw [hs] at h1; exact (Option.some.inj h1).symm
        subst hss
        have hil : i < t.length := (List.getElem?_eq_some.mp hs).1
        refine ⟨{ s0 with state := State.COMPILING }, ?_, rfl, rfl, ?_, ?_, ?_⟩
        · rw [h5, List.getElem?_set]; simp [hil]
        · intro hid; exact absurd hid h3
        · intro hid; exact absurd hid h3
        · intro _; exact Or.inr ⟨h2, rfl⟩
      · refine ⟨stop_mark id s, ?_, stop_mark_id id s, stop_mark_text id s, (hmark s).1,
          (hmark s).2.1, fun h => Or.inl ((hmark s).2.2 h)⟩
        rw [h5, List.getElem?_set]
        simp [Ne.symm hij, hs]
  · intro hc hwait
    rcases stop_compile_cases t id force with ⟨_, h2⟩ | ⟨_, j, s0, h1, h2, h3, h4, h5⟩
    · exfalso
      apply h2
      obtain ⟨s, hs, hsw⟩ := hwait
      exact ⟨need_new_lead_eq_true.mpr hc, s, hs, hsw.2, hsw.1⟩
    · have hjl : j < t.length := (List.getElem?_eq_some.mp h1).1
      refine ⟨j, ⟨s0, { s0 with state := State.COMPILING }, h1, h2, ?_, rfl⟩, ?_⟩
      · rw [h5, List.getElem?_set]; simp [hjl]
      · intro i s s' hs hw hs' hc'
        by_contra hij
        rw [h5, List.getElem?_set] at hs'
        simp only [Ne.symm hij, if_false, List.getElem?_map, hs, Option.map_some',
          Option.some.injEq] at hs'
        subst hs'
        rw [stop_mark_state, hw] at hc'
        split_ifs at hc'
  · intro hno i s s' hs hid hs'
    rcases stop_compile_cases t id force with ⟨h1, _⟩ | ⟨hn, j, s0, h1, h2, h3, _, _⟩
    · rw [h1, List.getElem?_map, hs] at hs'
      simp only [Option.map_some', Option.some.injEq] at hs'
      subst hs'
      exact (hmark s).2.2 hid
    · exact absurd ⟨need_new_lead_eq_true.mp hn, s0, List.getElem?_mem h1, h3, h2⟩ hno
  · intro hnone
    have hflag : stopped_flag id t = false := by
      cases hf : stopped_flag id t with
      | false => rfl
      | true =>
        obtain ⟨s, hs, h1, h2⟩ := stopped_flag_eq_true hf
        rcases h2 with h2 | h2
        · exact absurd h2 (hnone s hs h1).1
        · exact absurd h2 (hnone s hs h1).2
    simp [stop_compile, hflag, map_stop_mark_of_not_stopped hflag]

/-! ## A slot held by a caller, under the actions of the other callers (claims C6, C7) -/

theorem compile_entry_cases (t : Slots) (id : Nat) (r : Request) :
    compile_entry t id r = (t, Entry.rejected) ∨
    ∃ k : Nat, get_free t = (k : Int) ∧
      compile_entry t id r = (preempt t id k (r.rewrite k), Entry.entered k) := by
  cases h : (compile_entry t id r).2 with
  | rejected =>
    left
    unfold compile_entry at h ⊢
    simp only [] at h ⊢
    split_ifs at h ⊢ <;> rfl
  | entered k =>
    right
    have hh : compile_entry t id r = ((compile_entry t id r).1, Entry.entered k) := by
      rw [← h]
    obtain ⟨h1, h2⟩ := compile_entry_entered hh
    exact ⟨k, h1, by rw [hh, h2]⟩

theorem getElem?_stop_compile_own {t : Slots} {id k : Nat} {s : Slot} (force : Bool)
    (hk : t[k]? = some s) (hid : s.id = id) :
    (stop_compile t id force)[k]? = some (stop_mark id s) := by
  rcases stop_compile_cases t id force with ⟨h1, _⟩ | ⟨_, j, s0, h1, _, h3, _, h5⟩
  · rw [h1, List.getElem?_map, hk]; rfl
  · have hjk : j ≠ k := by
      rintro rfl
      rw [hk] at h1
      exact h3 (by rw [← Option.some.inj h1]; exact hid)
    rw [h5, List.getElem?_set]
    simp [hjk, hk]

theorem getElem?_stop_compile_state {t : Slots} {k : Nat} {s : Slot} (id : Nat) (force : Bool)
    (hk : t[k]? = some s) :
    ∃ s', (stop_compile t id force)[k]? = some s' ∧ s'.id = s.id ∧ s'.text = s.text ∧
      (s'.state = (stop_mark id s).state ∨
        (s.state = State.WAITING ∧ s'.state = State.COMPILING)) := by
  rcases stop_compile_cases t id force with ⟨h1, _⟩ | ⟨_, j, s0, h1, h2, _, _, h5⟩
  · exact ⟨stop_mark id s, by rw [h1, List.getElem?_map, hk]; rfl, stop_mark_id id s,
      stop_mark_text id s, Or.inl rfl⟩
  · by_cases hjk : j = k
    · subst hjk
      have hss : s0 = s := by rw [hk] at h1; exact (Option.some.inj h1).symm
      subst hss
      have hjl : j < t.length := (List.getElem?_eq_some.mp hk).1
      exact ⟨{ s0 with state := State.COMPILING }, by rw [h5, List.getElem?_set]; simp [hjl],
        rfl, rfl, Or.inr ⟨h2, rfl⟩⟩
    · refine ⟨stop_mark id s, ?_, stop_mark_id id s, stop_mark_text id s, Or.inl rfl⟩
      rw [h5, List.getElem?_set]
      simp [hjk, hk]

/-- An action of another caller leaves a held (non-FREE) slot held by the same
requester with the same text, and leaves a STOPPED slot STOPPED and a CURRENT
slot CURRENT. -/
theorem step_keeps_held {t : Slots} {k : Nat} {s : Slot} (e : Event)
    (he : Event.own k e = false) (hk : t[k]? = some s) (hs : s.state ≠ State.FREE) :
    ∃ s', (step t e)[k]? = some s' ∧ s'.id = s.id ∧ s'.text = s.text ∧
      s'.state ≠ State.FREE ∧ (s.state = State.STOPPED → s'.state = State.STOPPED) ∧
      (s.state = State.CURRENT → s'.state = State.CURRENT) := by
  cases e with
  | compile id r =>
    simp only [step]
    rcases compile_entry_cases t id r with h | ⟨k', h1, h2⟩
    · rw [h]
      exact ⟨s, hk, rfl, rfl, hs, fun h => h, fun h => h⟩
    · rw [h2]
      obtain ⟨s0, hs0, hfree, _⟩ := get_free_eq_nat h1
      have hkk : k ≠ k' := by
        rintro rfl
        rw [hk] at hs0
        exact hs (by rw [Option.some.inj hs0]; exact hfree)
      refine ⟨demote id s, ?_, demote_id id s, demote_text id s, ?_, ?_, ?_⟩
      · show (preempt t id k' (r.rewrite k'))[k]? = _
        rw [getElem?_preempt_ne t id hkk, hk]; rfl
      · rw [demote_state]
        rcases s with ⟨sid, st, txt⟩
        cases st <;> by_cases h : sid = id <;> simp_all
      · intro h; rw [demote_state, h]
      · intro h; rw [demote_state, h]
  | built =>
    simp only [step]
    refine ⟨_, by rw [getElem?_update, hk]; rfl, ?_, ?_, ?_, ?_, ?_⟩ <;>
      (rcases s with ⟨sid, st, txt⟩; cases st <;> simp_all)
  | failed id =>
    simp only [step]
    obtain ⟨s', h1, h2, h3, h4⟩ := getElem?_stop_compile_state id false hk
    refine ⟨s', h1, h2, h3, ?_, ?_, ?_⟩ <;>
      (rw [stop_mark_state] at h4
       rcases s with ⟨sid, st, txt⟩
       rcases h4 with h4 | ⟨h4, h5⟩
       · cases st <;> by_cases h : sid = id <;> simp_all
       · simp_all)
  | stop id =>
    simp only [step]
    obtain ⟨s', h1, h2, h3, h4⟩ := getElem?_stop_compile_state id true hk
    refine ⟨s', h1, h2, h3, ?_, ?_, ?_⟩ <;>
      (rw [stop_mark_state] at h4
       rcases s with ⟨sid, st, txt⟩
       rcases h4 with h4 | ⟨h4, h5⟩
       · cases st <;> by_cases h : sid = id <;> simp_all
       · simp_all)
  | free k' =>
    have hkk : k' ≠ k := by simpa [Event.own] using he
    refine ⟨s, ?_, rfl, rfl, hs, fun h => h, fun h => h⟩
    simp only [step]
    split
    · rename_i s0 hs0
      split_ifs with hst
      · simp [loop_iter, hs0, hst, getElem?_set_state, hkk, hk]
      · exact hk
    · exact hk
  | release k' =>
    have hkk : k' ≠ k := by simpa [Event.own] using he
    refine ⟨s, ?_, rfl, rfl, hs, fun h => h, fun h => h⟩
    simp only [step, release]
    split
    · split_ifs
      · simp [getElem?_set_state, hkk, hk]
      · simpa using hk
    · simpa using hk

theorem run_keeps_held {t : Slots} {k : Nat} {s : Slot} (es : List Event)
    (he : ∀ e ∈ es, Event.own k e = false) (hk : t[k]? = some s) (hs : s.state ≠ State.FREE) :
    ∃ s', (run t es)[k]? = some s' ∧ s'.id = s.id ∧ s'.text = s.text ∧
      s'.state ≠ State.FREE ∧ (s.state = State.STOPPED → s'.state = State.STOPPED) ∧
      (s.state = State.CURRENT → s'.state = State.CURRENT) := by
  induction es generalizing t s with
  | nil => exact ⟨s, hk, rfl, rfl, hs, fun h => h, fun h => h⟩
  | cons e es ih =>
    obtain ⟨s1, h1, h2, h3, h4, h5, h6⟩ :=
      step_keeps_held e (he e (List.mem_cons_self e es)) hk hs
    obtain ⟨s2, g1, g2, g3, g4, g5, g6⟩ :=
      ih (fun e' he' => he e' (List.mem_cons_of_mem e he')) h1 h4
    refine ⟨s2, ?_, by rw [g2, h2], by rw [g3, h3], g4, fun h => g5 (h5 h), fun h => g6 (h6 h)⟩
    simpa [run] using g1

theorem countP_set_of_zero {α : Type} (p : α → Bool) (l : List α) (k : Nat) (a : α)
    (h0 : l.countP p = 0) (hk : k < l.length) (ha : p a = true) :
    (l.set k a).countP p = 1 := by
  induction l generalizing k with
  | nil => simp at hk
  | cons b rest ih =>
    rw [List.countP_cons] at h0
    cases k with
    | zero =>
      simp only [List.set_cons_zero, List.countP_cons, ha, if_true]
      omega
    | succ k =>
      simp only [List.set_cons_succ, List.countP_cons]
      have := ih k (by omega) (by simpa using hk)
      omega

theorem compiling_count_preempt {t : Slots} {k : Nat} (hk : k < t.length) (id : Nat)
    (txt : String) : compiling_count (preempt t id k txt) = 1 := by
  have h0 := compiling_count_map_demote t id
  simp only [compiling_count] at h0 ⊢
  exact countP_set_of_zero _ _ k _ h0 (by simpa using hk) (by simp)

theorem loop_iter_stopped {t : Slots} {k : Nat} {s : Slot} (hk : t[k]? = some s)
    (hs : s.state = State.STOPPED) :
    loop_iter t k = (set_state t k State.FREE, Outcome.null) := by
  simp [loop_iter, hk, hs]

theorem set_state_self {t : Slots} {k : Nat} {s : Slot} (hk : t[k]? = some s) (st : State) :
    ((set_state t k st)[k]?).map Slot.state = some st := by
  simp [getElem?_set_state, hk]

/-- C6, counterexample: requester 1 compiles on slot 0 and its build runs;
requester 2 compiles on slot 1 and its build succeeds, which makes slot 0
CURRENT; then the build of requester 1 returns failure.  The call of
requester 1 returns the logic object, not null, and its slot is CURRENT, not
FREE. -/
theorem C6_failed_build_returns_logic :
    (compile_entry init 1 (sample_request 1 0)).2 = Entry.entered 0 ∧
    (finish_build
      (run (compile_entry init 1 (sample_request 1 0)).1
        [Event.compile 2 (sample_request 1 0), Event.built]) 1 0 false).2 = Outcome.logic ∧
    ((finish_build
      (run (compile_entry init 1 (sample_request 1 0)).1
        [Event.compile 2 (sample_request 1 0), Event.built]) 1 0 false).1[0]?).map Slot.state
      = some State.CURRENT := by
  decide

/-- C6, amended: a caller `id` entered the loop with slot `k`, and `es` is any
sequence of actions of the callers (compiles, build results, stops, frees and
releases of other slots) up to the moment its build returns failure.  Its slot
is then still its own and not FREE.  If the slot has not been made CURRENT in
the meantime, the call returns null and the slot is FREE on return; if it has,
the call returns the logic object and the slot stays CURRENT. -/
theorem C6_build_failure (t t1 : Slots) (id k : Nat) (r : Request) (es : List Event)
    (hacq : compile_entry t id r = (t1, Entry.entered k))
    (henv : ∀ e ∈ es, Event.own k e = false) :
    ∃ s, (run t1 es)[k]? = some s ∧ s.id = id ∧ s.state ≠ State.FREE ∧
      (s.state ≠ State.CURRENT →
        (finish_build (run t1 es) id k false).2 = Outcome.null ∧
        ((finish_build (run t1 es) id k false).1[k]?).map Slot.state = some State.FREE) ∧
      (s.state = State.CURRENT →
        (finish_build (run t1 es) id k false).2 = Outcome.logic ∧
        ((finish_build (run t1 es) id k false).1[k]?).map Slot.state = some State.CURRENT) := by
  obtain ⟨hfree, rfl⟩ := compile_entry_entered hacq
  obtain ⟨s0, hs0, _, _⟩ := get_free_eq_nat hfree
  have hk : k < t.length := (List.getElem?_eq_some.mp hs0).1
  obtain ⟨s, h1, h2, _, h4, _, _⟩ :=
    run_keeps_held es henv (getElem?_preempt_self hk id (r.rewrite k)) (by simp)
  have hown := getElem?_stop_compile_own false h1 h2
  refine ⟨s, h1, h2, h4, ?_, ?_⟩
  · intro hnc
    have hst : (stop_mark id s).state = State.STOPPED := by
      rw [stop_mark_state]
      simp only [] at h2
      rcases s with ⟨sid, st, txt⟩
      cases st <;> simp_all
    have hfb : finish_build (run (preempt t id k (r.rewrite k)) es) id k false
        = (set_state (stop_compile (run (preempt t id k (r.rewrite k)) es) id false) k
            State.FREE, Outcome.null) := by
      simp only [finish_build, after_build, Bool.false_eq_true, if_false]
      exact loop_iter_stopped hown hst
    rw [hfb]
    exact ⟨rfl, set_state_self hown State.FREE⟩
  · intro hc
    have hst : stop_mark id s = s := by
      rcases s with ⟨sid, st, txt⟩
      simp only [] at hc
      subst hc
      simp [stop_mark]
    rw [hst] at hown
    have hfb : finish_build (run (preempt t id k (r.rewrite k)) es) id k false
        = (stop_compile (run (preempt t id k (r.rewrite k)) es) id false, Outcome.logic) := by
      simp [finish_build, after_build, loop_iter, hown, hc]
    rw [hfb]
    exact ⟨rfl, by simp [hown, hc]⟩

/-- Witness of the amended C6: requester 1 compiles on slot 0, requester 2
compiles on slot 1, and the build of requester 1 returns failure while slot 0
is WAITING: the call returns null and slot 0 is FREE. -/
theorem C6_build_failure_witness :
    compile_entry init 1 (sample_request 1 0)
      = (preempt init 1 0 ((sample_request 1 0).rewrite 0), Entry.entered 0) ∧
    (finish_build (run (preempt init 1 0 ((sample_request 1 0).rewrite 0))
      [Event.compile 2 (sample_request 1 0)]) 1 0 false).2 = Outcome.null := by
  refine ⟨by rfl, ?_⟩
  obtain ⟨s, h1, _, _, h3, _⟩ := C6_build_failure init
    (preempt init 1 0 ((sample_request 1 0).rewrite 0)) 1 0 (sample_request 1 0)
    [Event.compile 2 (sample_request 1 0)] (by rfl) (by
      intro e he
      simp only [List.mem_singleton] at he
      subst he
      rfl)
  have hs : (run (preempt init 1 0 ((sample_request 1 0).rewrite 0))
      [Event.compile 2 (sample_request 1 0)])[0]?
      = some ⟨1, State.WAITING, (sample_request 1 0).rewrite 0⟩ := by rfl
  rw [hs] at h1
  have : s.state = State.WAITING := by rw [← Option.some.inj h1]
  exact (h3 (by rw [this]; decide)).1

/-- C7: requester `id` holds slot `j`, COMPILING or WAITING, and issues a second
compile that acquires slot `k`.  After the preemption step of the second call
slot `j` is STOPPED and slot `k`, of requester `id`, is the one COMPILING slot.
Whatever the callers do next (`es`, without the first call's own free of
`j`), slot `j` is still STOPPED when the first call looks at it: coming back
from its wait, or from its build with either result, it frees slot `j` and
returns null. -/
theorem C7_same_requester_preempts (t t1 : Slots) (id j k : Nat) (s : Slot) (r : Request)
    (es : List Event)
    (hj : t[j]? = some s) (hid : s.id = id)
    (hst : s.state = State.COMPILING ∨ s.state = State.WAITING)
    (hacq : compile_entry t id r = (t1, Entry.entered k))
    (henv : ∀ e ∈ es, Event.own j e = false) :
    (t1[j]?).map Slot.state = some State.STOPPED ∧
    t1[k]? = some ⟨id, State.COMPILING, r.rewrite k⟩ ∧ compiling_count t1 = 1 ∧
    ((run t1 es)[j]?).map Slot.state = some State.STOPPED ∧
    loop_iter (run t1 es) j = (set_state (run t1 es) j State.FREE, Outcome.null) ∧
    ((set_state (run t1 es) j State.FREE)[j]?).map Slot.state = some State.FREE ∧
    ∀ ok : Bool, (finish_build (run t1 es) id j ok).2 = Outcome.null ∧
      ((finish_build (run t1 es) id j ok).1[j]?).map Slot.state = some State.FREE := by
  obtain ⟨hfree, rfl⟩ := compile_entry_entered hacq
  obtain ⟨s0, hs0, hs0free, _⟩ := get_free_eq_nat hfree
  have hk : k < t.length := (List.getElem?_eq_some.mp hs0).1
  have hjk : j ≠ k := by
    rintro rfl
    rw [hj] at hs0
    have : s.state = State.FREE := by rw [Option.some.inj hs0]; exact hs0free
    rcases hst with h | h <;> rw [h] at this <;> exact State.noConfusion this
  have hdem : (demote id s).state = State.STOPPED := by
    rw [demote_state]
    rcases hst with h | h <;> rw [h] <;> simp [hid]
  have hj1 : (preempt t id k (r.rewrite k))[j]? = some (demote id s) := by
    rw [getElem?_preempt_ne t id hjk, hj]; rfl
  obtain ⟨s2, g1, g2, _, _, g5, _⟩ :=
    run_keeps_held es henv hj1 (by rw [hdem]; simp)
  have g6 : s2.state = State.STOPPED := g5 hdem
  have g7 : s2.id = id := by rw [g2, demote_id, hid]
  refine ⟨by rw [hj1]; simp [hdem], getElem?_preempt_self hk id _,
    compiling_count_preempt hk id _, by rw [g1]; simp [g6], loop_iter_stopped g1 g6,
    set_state_self g1 State.FREE, ?_⟩
  intro ok
  have hafter : ∃ s3, (after_build (run (preempt t id k (r.rewrite k)) es) id ok)[j]? = some s3 ∧
      s3.state = State.STOPPED := by
    cases ok with
    | true =>
      refine ⟨_, by simp only [after_build, if_true]; rw [getElem?_update, g1]; rfl, ?_⟩
      simp [g6]
    | false =>
      refine ⟨stop_mark id s2, ?_, ?_⟩
      · simp only [after_build, Bool.false_eq_true, if_false]
        exact getElem?_stop_compile_own false g1 g7
      · rw [stop_mark_state, g6]; simp
  obtain ⟨s3, h31, h32⟩ := hafter
  simp only [finish_build]
  rw [loop_iter_stopped h31 h32]
  exact ⟨rfl, set_state_self h31 State.FREE⟩

/-- Witness of C7: requester 1 compiles on slot 0 and compiles again, on slot
1, while its first build runs; requester 2 then compiles as well.  The first
call finds slot 0 STOPPED. -/
theorem C7_same_requester_preempts_witness :
    (compile_entry init 1 (sample_request 1 0)).1[0]?
      = some ⟨1, State.COMPILING, (sample_request 1 0).rewrite 0⟩ ∧
    compile_entry (compile_entry init 1 (sample_request 1 0)).1 1 (sample_request 2 0)
      = (preempt (compile_entry init 1 (sample_request 1 0)).1 1 1
          ((sample_request 2 0).rewrite 1), Entry.entered 1) ∧
    ((run (preempt (compile_entry init 1 (sample_request 1 0)).1 1 1
          ((sample_request 2 0).rewrite 1))
        [Event.compile 2 (sample_request 1 0)])[0]?).map Slot.state = some State.STOPPED :=
  ⟨by rfl, by rfl,
    (C7_same_requester_preempts (compile_entry init 1 (sample_request 1 0)).1
      (preempt (compile_entry init 1 (sample_request 1 0)).1 1 1
        ((sample_request 2 0).rewrite 1)) 1 0 1
      ⟨1, State.COMPILING, (sample_request 1 0).rewrite 0⟩ (sample_request 2 0)
      [Event.compile 2 (sample_request 1 0)] (by rfl) rfl (Or.inl rfl) (by rfl) (by
        intro e he
        simp only [List.mem_singleton] at he
        subst he
        rfl)).2.2.2.1⟩

/-! ## Release and the composite text (claims C12, C13) -/

/-- C12: on a table whose slot `s` is CURRENT, `release(s)` passes its
assertion, sets slot `s` to FREE (requester and text kept), leaves every other
slot as it was, and the next `get_free` returns an index that is at most
`s`. -/
theorem C12_release_frees (t : Slots) (s : Nat) (sl : Slot)
    (hs : t[s]? = some sl) (hc : sl.state = State.CURRENT) :
    release t s = some (set_state t s State.FREE) ∧
    (set_state t s State.FREE)[s]? = some { sl with state := State.FREE } ∧
    (∀ i : Nat, i ≠ s → (set_state t s State.FREE)[i]? = t[i]?) ∧
    (set_state t s State.FREE).length = t.length ∧
    ∃ k : Nat, get_free (set_state t s State.FREE) = (k : Int) ∧ k ≤ s := by
  have hself : (set_state t s State.FREE)[s]? = some { sl with state := State.FREE } := by
    simp [getElem?_set_state, hs]
  refine ⟨by simp [release, hs, hc], hself, ?_, length_set_state t s State.FREE, ?_⟩
  · intro i hi
    simp [getElem?_set_state, Ne.symm hi]
  · rcases get_free_cases (set_state t s State.FREE) with ⟨_, h2⟩ | ⟨k, s', h1, _, _, h4⟩
    · exact absurd rfl (h2 _ (List.getElem?_mem hself))
    · refine ⟨k, h1, ?_⟩
      by_contra hlt
      exact h4 s (by omega) _ hself rfl

/-- Witness of C12: after a compile whose build succeeded, slot 0 is CURRENT;
its release frees it and the next acquisition returns slot 0. -/
theorem C12_release_frees_witness :
    (run init [Event.compile 1 (sample_request 1 0), Event.built])[0]?
      = some ⟨1, State.CURRENT, (sample_request 1 0).rewrite 0⟩ ∧
    ∃ k : Nat,
      get_free (set_state (run init [Event.compile 1 (sample_request 1 0), Event.built]) 0
        State.FREE) = (k : Int) ∧ k ≤ 0 :=
  ⟨by rfl, (C12_release_frees (run init [Event.compile 1 (sample_request 1 0), Event.built]) 0
    ⟨1, State.CURRENT, (sample_request 1 0).rewrite 0⟩ (by rfl) rfl).2.2.2.2⟩

theorem map_insert_of_lt {α : Type} (k : Nat) (v : α) (m : KeyMap α)
    (h : ∀ p ∈ m, p.1 < k) : map_insert k v m = m ++ [(k, v)] := by
  induction m with
  | nil => rfl
  | cons p rest ih =>
    have hp : p.1 < k := h p (List.mem_cons_self p rest)
    have h1 : ¬ k < p.1 := by omega
    have h2 : ¬ k = p.1 := by omega
    simp only [map_insert, h1, h2, if_false, List.cons_append]
    rw [ih (fun q hq => h q (List.mem_cons_of_mem p hq))]

theorem text_map_from_eq (l : List Slot) (i : Nat) (m : KeyMap String)
    (h : ∀ p ∈ m, p.1 < i) :
    text_map_from i m l =
      m ++ ((l.enumFrom i).filter fun p => p.2.state ≠ State.FREE).map
        fun p => (p.1, p.2.text) := by
  induction l generalizing i m with
  | nil => simp [text_map_from]
  | cons s rest ih =>
    simp only [text_map_from, List.enumFrom_cons]
    by_cases hs : s.state = State.FREE
    · have := ih (i + 1) m (fun p hp => Nat.lt_succ_of_lt (h p hp))
      simp only [hs, ne_eq, not_true_eq_false, if_false] at this ⊢
      rw [this]
      simp [List.filter_cons, hs]
    · have hm := map_insert_of_lt i s.text m h
      have := ih (i + 1) (m ++ [(i, s.text)]) (by
        intro p hp
        rcases List.mem_append.mp hp with hp | hp
        · exact Nat.lt_succ_of_lt (h p hp)
        · simp at hp; subst hp; exact Nat.lt_succ_self i)
      simp only [ne_eq, hs, not_false_eq_true, if_true, hm]
      rw [this]
      simp [List.filter_cons, hs]

theorem text_map_eq_occupied (t : Slots) : text_map t = occupied t := by
  have := text_map_from_eq t 0 [] (by simp)
  simpa [text_map, occupied, List.enum] using this

theorem occupied_keys_from (l : List Slot) (i : Nat) :
    ((((l.enumFrom i).filter fun p => p.2.state ≠ State.FREE).map
        fun p => (p.1, p.2.text)).map Prod.fst).Pairwise (· < ·) ∧
    ∀ k ∈ (((l.enumFrom i).filter fun p => p.2.state ≠ State.FREE).map
        fun p => (p.1, p.2.text)).map Prod.fst, i ≤ k := by
  induction l generalizing i with
  | nil => simp
  | cons s rest ih =>
    obtain ⟨h1, h2⟩ := ih (i + 1)
    simp only [List.enumFrom_cons, List.filter_cons]
    split_ifs with hs
    · simp only [List.map_cons, List.pairwise_cons, List.mem_cons]
      refine ⟨⟨fun k hk => ?_, h1⟩, ?_⟩
      · have := h2 k hk; omega
      · rintro k (rfl | hk)
        · exact le_refl _
        · have := h2 k hk; omega
    · exact ⟨h1, fun k hk => by have := h2 k hk; omega⟩

theorem mem_occupied (t : Slots) (i : Nat) (txt : String) :
    (i, txt) ∈ occupied t ↔ ∃ s, t[i]? = some s ∧ s.state ≠ State.FREE ∧ s.text = txt := by
  simp only [occupied, List.mem_map, List.mem_filter, Prod.mk.injEq, Prod.exists]
  constructor
  · rintro ⟨a, s, ⟨hmem, hst⟩, rfl, rfl⟩
    exact ⟨s, List.mk_mem_enum_iff_getElem?.mp hmem, by simpa using hst, rfl⟩
  · rintro ⟨s, hs, hst, rfl⟩
    exact ⟨i, s, ⟨List.mk_mem_enum_iff_getElem?.mpr hs, by simpa using hst⟩, rfl, rfl⟩

theorem occupied_from_congr (l l' : List Slot) (i : Nat) (hlen : l'.length = l.length)
    (h : ∀ (j : Nat) (s s' : Slot), l[j]? = some s → l'[j]? = some s' →
      (s'.state = State.FREE ↔ s.state = State.FREE) ∧
      (s.state ≠ State.FREE → s'.text = s.text)) :
    (((l'.enumFrom i).filter fun p => p.2.state ≠ State.FREE).map fun p => (p.1, p.2.text))
      = (((l.enumFrom i).filter fun p => p.2.state ≠ State.FREE).map
          fun p => (p.1, p.2.text)) := by
  induction l generalizing l' i with
  | nil =>
    have : l' = [] := List.length_eq_zero.mp (by simpa using hlen)
    subst this
    rfl
  | cons s rest ih =>
    cases l' with
    | nil => simp at hlen
    | cons s' rest' =>
      have h0 := h 0 s s' (by simp) (by simp)
      have hrest := ih rest' (i + 1) (by simpa using hlen) (fun j a a' ha ha' =>
        h (j + 1) a a' (by simpa using ha) (by simpa using ha'))
      simp only [List.enumFrom_cons, List.filter_cons]
      by_cases hs : s.state = State.FREE
      · have hs' : s'.state = State.FREE := h0.1.mpr hs
        simp only [hs, hs', ne_eq, not_true_eq_false, decide_False, Bool.false_eq_true, if_false]
        exact hrest
      · have hs' : ¬ s'.state = State.FREE := fun hc => hs (h0.1.mp hc)
        simp only [hs, hs', ne_eq, not_false_eq_true, decide_True, if_true, List.map_cons,
          h0.2 hs]
        rw [hrest]

theorem count_num_module_declarations (m : KeyMap String) (i : Nat) :
    (module_declarations m).count (Tok.num i) = 0 := by
  rw [List.count_eq_zero]
  simp [module_declarations]

theorem count_num_shell_head (i : Nat) : shell_head.count (Tok.num i) = 0 := by
  rw [List.count_eq_zero]
  simp [shell_head, line]

theorem count_num_shell_tail (i : Nat) : shell_tail.count (Tok.num i) = 0 := by
  rw [List.count_eq_zero]
  simp [shell_tail, line]

theorem count_num_branch (k i : Nat) :
    (branch k).count (Tok.num i) = if k = i then 2 else 0 := by
  by_cases h : k = i
  · subst h
    simp [branch, line, List.count_cons]
  · simp [branch, line, List.count_cons, h]

theorem count_num_branches (m : KeyMap String) (i : Nat)
    (hm : (m.map Prod.fst).Pairwise (· < ·)) :
    (i ∈ m.map Prod.fst → (branches m).count (Tok.num i) = 2) ∧
    (i ∉ m.map Prod.fst → (branches m).count (Tok.num i) = 0) := by
  induction m with
  | nil => simp [branches]
  | cons p rest ih =>
    simp only [List.map_cons, List.pairwise_cons] at hm
    obtain ⟨ih1, ih2⟩ := ih hm.2
    have hcons : (branches (p :: rest)).count (Tok.num i)
        = (branch p.1).count (Tok.num i) + (branches rest).count (Tok.num i) := by
      simp [branches, List.count_append]
    rw [hcons, count_num_branch]
    constructor
    · intro hi
      simp only [List.map_cons, List.mem_cons] at hi
      rcases hi with rfl | hi
      · have hnot : p.1 ∉ rest.map Prod.fst := fun hc => absurd (hm.1 p.1 hc) (lt_irrefl _)
        simp [ih2 hnot]
      · have hne : p.1 ≠ i := fun hc => absurd (hm.1 i hi) (by omega)
        simp [hne, ih1 hi]
    · intro hi
      simp only [List.map_cons, List.mem_cons, not_or] at hi
      simp [Ne.symm hi.1, ih2 hi.2]

/-- C13: the map `text` of `get_text` holds exactly the slots that are not
FREE, each once, with its index as key and its text as value, in strictly
ascending index order.  The output is the text of each of them in that order
(each followed by an empty line), then the top-level module `program_logic`
up to the line `generate`, written out in full below, then for each of them in
the same order the branch `if (app_num == i) begin M i m ( ... ); end`, then
`endgenerate` and `endmodule`.  The index `i` is written
twice (in `app_num == i` and in `M i`) when slot `i` is not FREE and never
otherwise; and two tables of the same size that agree on which slots are FREE
and on the texts of the others give the same output. -/
theorem C13_get_text (t : Slots) :
    text_map t = occupied t ∧
    ((occupied t).map Prod.fst).Pairwise (· < ·) ∧
    (∀ (i : Nat) (txt : String),
      (i, txt) ∈ occupied t ↔ ∃ s, t[i]? = some s ∧ s.state ≠ State.FREE ∧ s.text = txt) ∧
    get_text t =
      ((occupied t).flatMap fun p => [Tok.str p.2, Tok.endl, Tok.endl]) ++
      [
        Tok.str "module program_logic(", Tok.endl, Tok.tab, Tok.str "input wire clk,", Tok.endl,
        Tok.str "input wire reset,", Tok.endl, Tok.endl,
        Tok.str "input wire         softreg_req_valid,", Tok.endl,
        Tok.str "input wire         softreg_req_isWrite,", Tok.endl,
        Tok.str "input wire[31:0]   softreg_req_addr,", Tok.endl,
        Tok.str "input wire[63:0]   softreg_req_data,", Tok.endl, Tok.endl,
        Tok.str "output wire        softreg_resp_valid,", Tok.endl,
        Tok.str "output wire[63:0]  softreg_resp_data", Tok.endl, Tok.untab, Tok.str ");",
        Tok.endl, Tok.endl, Tok.tab, Tok.str "parameter app_num = 0;", Tok.endl, Tok.endl,
        Tok.str "// Register module signals", Tok.endl, Tok.str "reg        valid_in;", Tok.endl,
        Tok.str "reg        write_in;", Tok.endl, Tok.str "reg        read_in;", Tok.endl,
        Tok.str "reg[13:0]  addr_in;", Tok.endl, Tok.str "reg[63:0]  data_in;", Tok.endl,
        Tok.endl, Tok.str "wire       valid_out;", Tok.endl, Tok.str "wire[63:0] data_out;",
        Tok.endl, Tok.str "reg        valid_out_reg;", Tok.endl,
        Tok.str "reg[63:0]  data_out_reg;", Tok.endl, Tok.endl,
        Tok.str "always @(posedge clk) begin", Tok.endl, Tok.tab, Tok.str "if (reset) begin",
        Tok.endl, Tok.tab, Tok.str "valid_in <= 1'b0;", Tok.endl, Tok.str "write_in <= 1'b0;",
        Tok.endl, Tok.str "read_in <= 1'b0;", Tok.endl, Tok.str "addr_in <= 14'b0;", Tok.endl,
        Tok.str "data_in <= 64'b0;", Tok.endl, Tok.untab, Tok.str "end else begin", Tok.endl,
        Tok.tab, Tok.str "valid_in <= softreg_req_valid;", Tok.endl,
        Tok.str "write_in <= softreg_req_valid & softreg_req_isWrite;", Tok.endl,
        Tok.str "read_in <= softreg_req_valid & ~softreg_req_isWrite;", Tok.endl,
        Tok.str "addr_in <= softreg_req_addr[16:3];", Tok.endl,
        Tok.str "data_in <= softreg_req_data;", Tok.endl, Tok.untab, Tok.str "end", Tok.endl,
        Tok.endl, Tok.str "if (reset) begin", Tok.endl, Tok.tab,
        Tok.str "valid_out_reg <= 1'b0;", Tok.endl, Tok.str "data_out_reg <= 64'b0;", Tok.endl,
        Tok.untab, Tok.str "end else begin", Tok.endl, Tok.tab,
        Tok.str "valid_out_reg <= valid_out;", Tok.endl, Tok.str "data_out_reg <= data_out;",
        Tok.endl, Tok.untab, Tok.str "end", Tok.endl, Tok.untab, Tok.str "end", Tok.endl,
        Tok.endl, Tok.str "assign softreg_resp_valid = valid_out_reg;", Tok.endl,
        Tok.str "assign softreg_resp_data = data_out_reg;", Tok.endl, Tok.endl,
        Tok.str "// Module Instantiations:", Tok.endl, Tok.str "generate", Tok.endl] ++
      ((occupied t).flatMap fun p =>
        [
          Tok.str "if (app_num == ", Tok.num p.1, Tok.str ") begin", Tok.endl, Tok.tab,
          Tok.str "M", Tok.num p.1, Tok.str " m (", Tok.endl, Tok.tab, Tok.str ".__clk(clk),",
          Tok.endl, Tok.str ".__in_read(write_in),", Tok.endl, Tok.str ".__in_vid(addr_in),",
          Tok.endl, Tok.str ".__in_data(data_in),", Tok.endl, Tok.str ".__in_valid(valid_in),",
          Tok.endl, Tok.str ".__out_data(data_out),", Tok.endl,
          Tok.str ".__out_valid(valid_out)", Tok.endl, Tok.untab, Tok.str ");", Tok.endl,
          Tok.untab, Tok.str "end", Tok.endl]) ++
      [
        Tok.str "endgenerate", Tok.endl, Tok.untab, Tok.str "endmodule"] ∧
    (∀ i : Nat, (∃ s, t[i]? = some s ∧ s.state ≠ State.FREE) →
      (get_text t).count (Tok.num i) = 2) ∧
    (∀ i : Nat, ¬ (∃ s, t[i]? = some s ∧ s.state ≠ State.FREE) →
      (get_text t).count (Tok.num i) = 0) ∧
    ∀ t' : Slots, t'.length = t.length →
      (∀ (j : Nat) (s s' : Slot), t[j]? = some s → t'[j]? = some s' →
        (s'.state = State.FREE ↔ s.state = State.FREE) ∧
        (s.state ≠ State.FREE → s'.text = s.text)) →
      get_text t' = get_text t := by
  have hkeys : ((occupied t).map Prod.fst).Pairwise (· < ·) := by
    have := (occupied_keys_from t 0).1
    simpa [occupied, List.enum] using this
  have hmemkeys : ∀ i : Nat, i ∈ (occupied t).map Prod.fst ↔
      ∃ s, t[i]? = some s ∧ s.state ≠ State.FREE := by
    intro i
    constructor
    · intro hi
      obtain ⟨p, hp, rfl⟩ := List.mem_map.mp hi
      obtain ⟨s, h1, h2, _⟩ := (mem_occupied t p.1 p.2).mp hp
      exact ⟨s, h1, h2⟩
    · rintro ⟨s, h1, h2⟩
      exact List.mem_map.mpr ⟨(i, s.text), (mem_occupied t i s.text).mpr ⟨s, h1, h2, rfl⟩, rfl⟩
  have hcount : ∀ i : Nat, (get_text t).count (Tok.num i)
      = (branches (occupied t)).count (Tok.num i) := by
    intro i
    simp only [get_text, text_map_eq_occupied, List.count_append,
      count_num_module_declarations, count_num_shell_head, count_num_shell_tail]
    omega
  refine ⟨text_map_eq_occupied t, hkeys, mem_occupied t, ?_, ?_, ?_, ?_⟩
  · simp only [get_text, text_map_eq_occupied, module_declarations, branches]
    rfl
  · intro i hi
    rw [hcount]
    exact (count_num_branches (occupied t) i hkeys).1 ((hmemkeys i).mpr hi)
  · intro i hi
    rw [hcount]
    exact (count_num_branches (occupied t) i hkeys).2 (fun hc => hi ((hmemkeys i).mp hc))
  · intro t' hlen h
    have := occupied_from_congr t t' 0 hlen h
    simp only [get_text, text_map_eq_occupied, occupied, List.enum]
    rw [this]

/-! ## The order of the variable table (claim C14) -/

theorem map_insert_sorted {α : Type} (k : Nat) (v : α) (m : KeyMap α)
    (hm : m.Pairwise fun p q => p.1 < q.1) :
    (map_insert k v m).Pairwise (fun p q => p.1 < q.1) ∧
    ∀ p, p ∈ map_insert k v m ↔ p ∈ m ∨ (p = (k, v) ∧ ∀ q ∈ m, q.1 ≠ k) := by
  induction m with
  | nil => simp [map_insert]
  | cons a rest ih =>
    rw [List.pairwise_cons] at hm
    obtain ⟨ih1, ih2⟩ := ih hm.2
    unfold map_insert
    split_ifs with h1 h2
    · refine ⟨?_, ?_⟩
      · rw [List.pairwise_cons]
        refine ⟨?_, List.pairwise_cons.mpr hm⟩
        intro q hq
        rcases List.mem_cons.mp hq with rfl | hq
        · exact h1
        · exact lt_trans h1 (hm.1 q hq)
      · intro p
        simp only [List.mem_cons]
        constructor
        · rintro (rfl | h | h)
          · right
            refine ⟨rfl, ?_⟩
            intro q hq
            rcases hq with rfl | hq
            · omega
            · have := hm.1 q hq; omega
          · exact Or.inl (Or.inl h)
          · exact Or.inl (Or.inr h)
        · rintro ((h | h) | ⟨h, _⟩)
          · exact Or.inr (Or.inl h)
          · exact Or.inr (Or.inr h)
          · exact Or.inl h
    · refine ⟨List.pairwise_cons.mpr hm, ?_⟩
      intro p
      constructor
      · exact fun h => Or.inl h
      · rintro (h | ⟨_, h⟩)
        · exact h
        · exact absurd h2.symm (h a (List.mem_cons_self a rest))
    · refine ⟨?_, ?_⟩
      · rw [List.pairwise_cons]
        refine ⟨?_, ih1⟩
        intro q hq
        rcases (ih2 q).mp hq with hq | ⟨rfl, _⟩
        · exact hm.1 q hq
        · show a.1 < k
          omega
      · intro p
        simp only [List.mem_cons, ih2 p]
        constructor
        · rintro (h | h | ⟨h, h'⟩)
          · exact Or.inl (Or.inl h)
          · exact Or.inl (Or.inr h)
          · right
            refine ⟨h, ?_⟩
            intro q hq
            rcases hq with rfl | hq
            · exact fun hc => h2 hc.symm
            · exact h' q hq
        · rintro ((h | h) | ⟨h, h'⟩)
          · exact Or.inl h
          · exact Or.inr (Or.inl h)
          · exact Or.inr (Or.inr ⟨h, fun q hq => h' q (Or.inr hq)⟩)

theorem vid_map_append {Ident : Type} (to_vid : Ident → Nat) (xs : List Ident) (x : Ident) :
    vid_map to_vid (xs ++ [x]) = map_insert (to_vid x) x (vid_map to_vid xs) := by
  simp [vid_map]

/-- The map built from a set whose members have distinct keys: it is in
strictly ascending key order and holds exactly the members under their keys. -/
theorem vid_map_spec {Ident : Type} (to_vid : Ident → Nat) (xs : List Ident)
    (hinj : ∀ a ∈ xs, ∀ b ∈ xs, to_vid a = to_vid b → a = b) :
    (vid_map to_vid xs).Pairwise (fun p q => p.1 < q.1) ∧
    ∀ p, p ∈ vid_map to_vid xs ↔ ∃ x ∈ xs, p = (to_vid x, x) := by
  induction xs using List.reverseRecOn with
  | nil => simp [vid_map]
  | append_singleton xs x ih =>
    have hinj' : ∀ a ∈ xs, ∀ b ∈ xs, to_vid a = to_vid b → a = b :=
      fun a ha b hb => hinj a (List.mem_append_left _ ha) b (List.mem_append_left _ hb)
    obtain ⟨ih1, ih2⟩ := ih hinj'
    obtain ⟨h1, h2⟩ := map_insert_sorted (to_vid x) x (vid_map to_vid xs) ih1
    rw [vid_map_append]
    refine ⟨h1, ?_⟩
    intro p
    rw [h2 p, ih2 p]
    constructor
    · rintro (⟨y, hy, rfl⟩ | ⟨rfl, _⟩)
      · exact ⟨y, List.mem_append_left _ hy, rfl⟩
      · exact ⟨x, by simp, rfl⟩
    · rintro ⟨y, hy, rfl⟩
      rcases List.mem_append.mp hy with hy | hy
      · exact Or.inl ⟨y, hy, rfl⟩
      · simp only [List.mem_singleton] at hy
        subst hy
        by_cases hex : ∃ z ∈ xs, to_vid z = to_vid y
        · obtain ⟨z, hz, hzy⟩ := hex
          have : z = y := hinj z (List.mem_append_left _ hz) y (by simp) hzy
          subst this
          exact Or.inl ⟨z, hz, rfl⟩
        · right
          refine ⟨rfl, ?_⟩
          intro q hq hk
          obtain ⟨z, hz, rfl⟩ := (ih2 q).mp hq
          exact hex ⟨z, hz, hk⟩

theorem keymap_ext {α : Type} (l₁ l₂ : KeyMap α)
    (h₁ : l₁.Pairwise fun p q => p.1 < q.1) (h₂ : l₂.Pairwise fun p q => p.1 < q.1)
    (h : ∀ p, p ∈ l₁ ↔ p ∈ l₂) : l₁ = l₂ := by
  induction l₁ generalizing l₂ with
  | nil =>
    cases l₂ with
    | nil => rfl
    | cons b r => exact absurd ((h b).mpr (List.mem_cons_self b r)) (List.not_mem_nil b)
  | cons a r₁ ih =>
    cases l₂ with
    | nil => exact absurd ((h a).mp (List.mem_cons_self a r₁)) (List.not_mem_nil a)
    | cons b r₂ =>
      rw [List.pairwise_cons] at h₁ h₂
      have hab : a = b := by
        rcases List.mem_cons.mp ((h a).mp (List.mem_cons_self a r₁)) with hab | ha
        · exact hab
        · rcases List.mem_cons.mp ((h b).mpr (List.mem_cons_self b r₂)) with hba | hb
          · exact hba.symm
          · have := h₂.1 a ha
            have := h₁.1 b hb
            omega
      subst hab
      have hrest : ∀ p, p ∈ r₁ ↔ p ∈ r₂ := by
        intro p
        constructor
        · intro hp
          rcases List.mem_cons.mp ((h p).mp (List.mem_cons_of_mem a hp)) with rfl | hp'
          · exact absurd (h₁.1 p hp) (lt_irrefl _)
          · exact hp'
        · intro hp
          rcases List.mem_cons.mp ((h p).mpr (List.mem_cons_of_mem a hp)) with rfl | hp'
          · exact absurd (h₂.1 p hp) (lt_irrefl _)
          · exact hp'
      rw [ih r₂ h₁.2 h₂.2 hrest]

theorem vid_map_congr {Ident : Type} (to_vid : Ident → Nat) (xs ys : List Ident)
    (hinj : ∀ a ∈ xs, ∀ b ∈ xs, to_vid a = to_vid b → a = b)
    (h : ∀ a, a ∈ xs ↔ a ∈ ys) : vid_map to_vid xs = vid_map to_vid ys := by
  have hinj' : ∀ a ∈ ys, ∀ b ∈ ys, to_vid a = to_vid b → a = b :=
    fun a ha b hb => hinj a ((h a).mpr ha) b ((h b).mpr hb)
  obtain ⟨h1, h2⟩ := vid_map_spec to_vid xs hinj
  obtain ⟨g1, g2⟩ := vid_map_spec to_vid ys hinj'
  apply keymap_ext _ _ h1 g1
  intro p
  rw [h2 p, g2 p]
  constructor
  · rintro ⟨x, hx, rfl⟩; exact ⟨x, (h x).mp hx, rfl⟩
  · rintro ⟨x, hx, rfl⟩; exact ⟨x, (h x).mpr hx, rfl⟩

theorem stateful_maps_eq {Ident : Type} (to_vid : Ident → Nat) (is_volatile : Ident → Bool)
    (xs : List Ident) :
    stateful_maps to_vid is_volatile xs =
      (vid_map to_vid (xs.filter fun s => !is_volatile s),
       vid_map to_vid (xs.filter fun s => is_volatile s)) := by
  induction xs using List.reverseRecOn with
  | nil => rfl
  | append_singleton xs x ih =>
    have hstep : stateful_maps to_vid is_volatile (xs ++ [x]) =
        if is_volatile x then
          ((stateful_maps to_vid is_volatile xs).1,
            map_insert (to_vid x) x (stateful_maps to_vid is_volatile xs).2)
        else
          (map_insert (to_vid x) x (stateful_maps to_vid is_volatile xs).1,
            (stateful_maps to_vid is_volatile xs).2) := by
      simp [stateful_maps]
    rw [hstep, ih]
    by_cases hv : is_volatile x = true
    · simp [hv, List.filter_append, vid_map_append]
    · simp [hv, List.filter_append, vid_map_append]

/-- C14: `to_vid` gives the members of each of the sets `inputs()`,
`stateful()` and `outputs()` distinct ids.  Then the registrations made by
`compile_logic` are the same for every two iteration orders of the same sets
(`inputs` and `inputs'` and so on have the same members).  They are: the
inputs in strictly ascending id order, the state that is not volatile in
strictly ascending id order, the outputs in strictly ascending id order, the
tasks, and then, when the size check passes, the volatile state in strictly
ascending id order. -/
theorem C14_registration_order {Ident : Type} (to_vid : Ident → Nat)
    (is_volatile : Ident → Bool) (table_size : List (Registration Ident) → Nat)
    (inputs inputs' stateful stateful' outputs outputs' : List Ident)
    (hinj_i : ∀ a ∈ inputs, ∀ b ∈ inputs, to_vid a = to_vid b → a = b)
    (hinj_s : ∀ a ∈ stateful, ∀ b ∈ stateful, to_vid a = to_vid b → a = b)
    (hinj_o : ∀ a ∈ outputs, ∀ b ∈ outputs, to_vid a = to_vid b → a = b)
    (hi : ∀ a, a ∈ inputs ↔ a ∈ inputs') (hs : ∀ a, a ∈ stateful ↔ a ∈ stateful')
    (ho : ∀ a, a ∈ outputs ↔ a ∈ outputs') :
    registrations to_vid is_volatile table_size inputs stateful outputs
      = registrations to_vid is_volatile table_size inputs' stateful' outputs' ∧
    ∃ is ss os ssv : KeyMap Ident,
      is.Pairwise (fun p q => p.1 < q.1) ∧
      (∀ p, p ∈ is ↔ ∃ x ∈ inputs, p = (to_vid x, x)) ∧
      ss.Pairwise (fun p q => p.1 < q.1) ∧
      (∀ p, p ∈ ss ↔ ∃ x ∈ stateful, is_volatile x = false ∧ p = (to_vid x, x)) ∧
      os.Pairwise (fun p q => p.1 < q.1) ∧
      (∀ p, p ∈ os ↔ ∃ x ∈ outputs, p = (to_vid x, x)) ∧
      ssv.Pairwise (fun p q => p.1 < q.1) ∧
      (∀ p, p ∈ ssv ↔ ∃ x ∈ stateful, is_volatile x = true ∧ p = (to_vid x, x)) ∧
      nv_registrations to_vid is_volatile inputs stateful outputs
        = is.map (fun i => Registration.set_input i.2 i.1) ++
          ss.map (fun s => Registration.set_state false s.2 s.1) ++
          os.map (fun o => Registration.set_output o.2 o.1) ++
          [Registration.index_tasks] ∧
      (table_size (nv_registrations to_vid is_volatile inputs stateful outputs) ≥ 0x4000 →
        registrations to_vid is_volatile table_size inputs stateful outputs
          = nv_registrations to_vid is_volatile inputs stateful outputs) ∧
      (table_size (nv_registrations to_vid is_volatile inputs stateful outputs) < 0x4000 →
        registrations to_vid is_volatile table_size inputs stateful outputs
          = nv_registrations to_vid is_volatile inputs stateful outputs ++
            ssv.map (fun s => Registration.set_state true s.2 s.1)) := by
  have hfilter : ∀ (f : Ident → Bool) (a : Ident),
      a ∈ stateful.filter f ↔ a ∈ stateful'.filter f := by
    intro f a
    simp only [List.mem_filter, hs a]
  have hinj_f : ∀ (f : Ident → Bool), ∀ a ∈ stateful.filter f, ∀ b ∈ stateful.filter f,
      to_vid a = to_vid b → a = b :=
    fun f a ha b hb => hinj_s a (List.mem_of_mem_filter ha) b (List.mem_of_mem_filter hb)
  have e1 := vid_map_congr to_vid inputs inputs' hinj_i hi
  have e2 := vid_map_congr to_vid outputs outputs' hinj_o ho
  have e3 := vid_map_congr to_vid _ _ (hinj_f fun s => !is_volatile s)
    (hfilter fun s => !is_volatile s)
  have e4 := vid_map_congr to_vid _ _ (hinj_f fun s => is_volatile s)
    (hfilter fun s => is_volatile s)
  have hnv : nv_registrations to_vid is_volatile inputs stateful outputs
      = nv_registrations to_vid is_volatile inputs' stateful' outputs' := by
    simp only [nv_registrations, stateful_maps_eq, e1, e2, e3]
  constructor
  · simp only [registrations, hnv, stateful_maps_eq, e4]
  · obtain ⟨a1, a2⟩ := vid_map_spec to_vid inputs hinj_i
    obtain ⟨b1, b2⟩ := vid_map_spec to_vid _ (hinj_f fun s => !is_volatile s)
    obtain ⟨c1, c2⟩ := vid_map_spec to_vid outputs hinj_o
    obtain ⟨d1, d2⟩ := vid_map_spec to_vid _ (hinj_f fun s => is_volatile s)
    refine ⟨vid_map to_vid inputs, vid_map to_vid (stateful.filter fun s => !is_volatile s),
      vid_map to_vid outputs, vid_map to_vid (stateful.filter fun s => is_volatile s),
      a1, a2, b1, ?_, c1, c2, d1, ?_, ?_, ?_, ?_⟩
    · intro p
      rw [b2 p]
      simp only [List.mem_filter, Bool.not_eq_true', and_assoc]
    · intro p
      rw [d2 p]
      simp only [List.mem_filter, and_assoc]
    · simp only [nv_registrations, stateful_maps_eq]
    · intro h
      simp only [registrations, stateful_maps_eq] at h ⊢
      rw [if_pos h]
    · intro h
      simp only [registrations, stateful_maps_eq] at h ⊢
      rw [if_neg (by omega)]

/-- Witness of C14 with identifiers that are their own ids, the ids from 10 on
volatile, and a table with one entry for each registration: two iteration orders
of the same sets give the same registrations. -/
theorem C14_registration_order_witness :
    registrations (fun x : Nat => x) (fun x => decide (10 ≤ x)) List.length
        [3, 1, 2] [20, 5, 11] [7, 6]
      = registrations (fun x : Nat => x) (fun x => decide (10 ≤ x)) List.length
        [1, 2, 3] [11, 20, 5] [6, 7] :=
  (C14_registration_order (fun x : Nat => x) (fun x => decide (10 ≤ x)) List.length
    [3, 1, 2] [1, 2, 3] [20, 5, 11] [11, 20, 5] [7, 6] [6, 7]
    (fun _ _ _ _ h => h) (fun _ _ _ _ h => h) (fun _ _ _ _ h => h)
    (by intro a; simp; tauto) (by intro a; simp; tauto) (by intro a; simp; tauto)).1

end Cascade.Aos

namespace Cascade.Runtime

/-! ## Versions of a module (claim C15) -/

theorem version_compile_and_replace_pass (n : Node) (md : ModuleDeclaration)
    (version pass : Nat) (e : Option Engine) :
    (compile_and_replace_pass n md version pass e).version = n.version ∧
    (compile_and_replace_pass n md version pass e).captured = n.captured := by
  unfold compile_and_replace_pass
  simp only []
  split_ifs <;> (try split) <;> (try split) <;> exact ⟨rfl, rfl⟩

theorem version_run_completion (n : Node) (c : Completion) :
    (run_completion n c).version = n.version ∧ (run_completion n c).captured = n.captured ∧
    (run_completion n c).asynchronous = n.asynchronous ∧
    (run_completion n c).interrupts = n.interrupts ∧
    (run_completion n c).fatals = n.fatals := by
  unfold run_completion
  split
  · exact ⟨rfl, rfl, rfl, rfl, rfl⟩
  · split_ifs <;> exact ⟨rfl, rfl, rfl, rfl, rfl⟩

theorem version_compile_and_replace (n : Node) (md : ModuleDeclaration) (e : Option Engine) :
    (compile_and_replace n md e).version = n.version + 1 ∧
    (compile_and_replace n md e).captured = n.captured ++ [n.version + 1] := by
  unfold compile_and_replace
  exact version_compile_and_replace_pass _ md _ 1 e

theorem version_step (n : Node) (ev : Event) :
    ((∃ md e, ev = Event.recompile md e) →
      (step n ev).version = n.version + 1 ∧
      (step n ev).captured = n.captured ++ [n.version + 1]) ∧
    ((¬ ∃ md e, ev = Event.recompile md e) →
      (step n ev).version = n.version ∧ (step n ev).captured = n.captured) := by
  cases ev with
  | recompile md e =>
    exact ⟨fun _ => version_compile_and_replace n md e, fun h => absurd ⟨md, e, rfl⟩ h⟩
  | asynchronous i e =>
    refine ⟨fun ⟨_, _, h⟩ => Event.noConfusion h, fun _ => ?_⟩
    simp only [step]
    split
    · exact version_compile_and_replace_pass _ _ _ _ _
    · exact ⟨rfl, rfl⟩
  | interrupt i =>
    refine ⟨fun ⟨_, _, h⟩ => Event.noConfusion h, fun _ => ?_⟩
    simp only [step]
    split
    · exact ⟨(version_run_completion _ _).1, (version_run_completion _ _).2.1⟩
    · exact ⟨rfl, rfl⟩
  | alternate i =>
    exact ⟨fun ⟨_, _, h⟩ => Event.noConfusion h, fun _ => ⟨rfl, rfl⟩⟩

theorem captured_run (n : Node) (es : List Event)
    (h : n.captured = List.range' 1 n.version) :
    (run n es).captured = List.range' 1 (run n es).version ∧ n.version ≤ (run n es).version := by
  induction es generalizing n with
  | nil => exact ⟨h, le_refl _⟩
  | cons ev es ih =>
    have hstep : (step n ev).captured = List.range' 1 (step n ev).version ∧
        n.version ≤ (step n ev).version := by
      by_cases hr : ∃ md e, ev = Event.recompile md e
      · obtain ⟨h1, h2⟩ := (version_step n ev).1 hr
        rw [h1, h2, h, List.range'_1_concat, Nat.add_comm 1 n.version]
        exact ⟨rfl, Nat.le_succ _⟩
      · obtain ⟨h1, h2⟩ := (version_step n ev).2 hr
        rw [h1, h2]
        exact ⟨h, le_refl _⟩
    obtain ⟨g1, g2⟩ := ih (step n ev) hstep.1
    exact ⟨by simpa [run] using g1, le_trans hstep.2 (by simpa [run] using g2)⟩

/-- C15: a node is constructed with version 0; every call of
`compile_and_replace(ignore)` raises the version by exactly one, for every
module and every result of the compile, and captures the new value; no other
action changes the version.  So after any sequence of actions the captured
versions are 1, 2, ..., up to the live version: strictly increasing and
without repetition. -/
theorem C15_version_increases (stub : Engine) (es : List Event) :
    (construct stub).version = 0 ∧
    (∀ (n : Node) (md : ModuleDeclaration) (e : Option Engine),
      (compile_and_replace n md e).version = n.version + 1) ∧
    (∀ (n : Node) (i : Nat) (e : Option Engine),
      (step n (Event.asynchronous i e)).version = n.version ∧
      (step n (Event.interrupt i)).version = n.version ∧
      (step n (Event.alternate i)).version = n.version) ∧
    (run (construct stub) es).captured = List.range' 1 (run (construct stub) es).version ∧
    (run (construct stub) es).captured.Pairwise (· < ·) ∧
    (run (construct stub) es).captured.Nodup := by
  have hcap := (captured_run (construct stub) es rfl).1
  refine ⟨rfl, fun n md e => (version_compile_and_replace n md e).1, ?_, hcap, ?_, ?_⟩
  · intro n i e
    exact ⟨((version_step n _).2 (fun ⟨_, _, h⟩ => Event.noConfusion h)).1,
      ((version_step n _).2 (fun ⟨_, _, h⟩ => Event.noConfusion h)).1,
      ((version_step n _).2 (fun ⟨_, _, h⟩ => Event.noConfusion h)).1⟩
  · rw [hcap]
    exact List.pairwise_lt_range' 1 _
  · rw [hcap]
    exact List.nodup_range' 1 _

/-! ## One pass of `compile_and_replace`, field by field -/

theorem secondary_isSome (md : ModuleDeclaration) : (secondary md).isSome = jit md := by
  unfold secondary
  split_ifs with h <;> simp [h]

/-- A pass after the first: the node as it is left. -/
theorem compile_and_replace_pass_later (n : Node) (md : ModuleDeclaration)
    (version pass : Nat) (e : Option Engine) (hp : pass ≠ 1) :
    compile_and_replace_pass n md version pass e =
      { n with
        interrupts := n.interrupts ++ [⟨version, pass, e⟩]
        asynchronous := n.asynchronous ++ queued md version pass n.engine e } := by
  have hj := secondary_isSome md
  cases hs : secondary md with
  | none =>
    rw [hs] at hj
    have hj' : jit md = false := by simpa using hj.symm
    simp [compile_and_replace_pass, queued, hp, hs, hj']
  | some m2 =>
    rw [hs] at hj
    have hj' : jit md = true := by simpa using hj.symm
    by_cases hq : (!n.engine.is_stub && e.isSome) = true
    · simp [compile_and_replace_pass, queued, hp, hs, hj', hq]
    · simp only [Bool.not_eq_true] at hq
      simp [compile_and_replace_pass, queued, hp, hs, hj', hq]

/-- The first pass of a `logic` module whose first target is not `sw`. -/
theorem compile_and_replace_pass_first_target (n : Node) (md : ModuleDeclaration)
    (version : Nat) (e : Option Engine)
    (h : md.std = "logic" ∧ (primary md).target ≠ "sw") :
    compile_and_replace_pass n md version 1 e =
      { n with
        fatals := n.fatals ++ ["Pass 1 compilation for logic must target software!"] } := by
  simp [compile_and_replace_pass, h.1, h.2]

/-- The first pass when the compile returns no engine. -/
theorem compile_and_replace_pass_first_none (n : Node) (md : ModuleDeclaration)
    (version : Nat) (h : ¬ (md.std = "logic" ∧ (primary md).target ≠ "sw")) :
    compile_and_replace_pass n md version 1 none =
      { n with fatals := n.fatals ++ ["Unable to complete pass 1 compilation!"] } := by
  have h' : ¬ (md.std = "logic" ∧ ¬ (primary md).target = "sw") := h
  simp [compile_and_replace_pass, h']

/-- The first pass when the compile returns an engine. -/
theorem compile_and_replace_pass_first_some (n : Node) (md : ModuleDeclaration)
    (version : Nat) (e1 : Engine) (h : ¬ (md.std = "logic" ∧ (primary md).target ≠ "sw")) :
    compile_and_replace_pass n md version 1 (some e1) =
      { n with
        engine := n.engine.replace_with e1
        stdinfo := n.stdinfo ++
          [if (n.engine.replace_with e1).is_stub then "Deferring" else "Finished"]
        installs := n.installs ++ [(version, 1)]
        asynchronous := n.asynchronous ++
          queued md version 1 (n.engine.replace_with e1) (some e1) } := by
  have h' : ¬ (md.std = "logic" ∧ ¬ (primary md).target = "sw") := h
  have hj := secondary_isSome md
  cases hs : secondary md with
  | none =>
    rw [hs] at hj
    have hj' : jit md = false := by simpa using hj.symm
    simp [compile_and_replace_pass, queued, hs, hj', h']
  | some m2 =>
    rw [hs] at hj
    have hj' : jit md = true := by simpa using hj.symm
    by_cases hq : (n.engine.replace_with e1).is_stub = true
    · simp [compile_and_replace_pass, queued, hs, hj', hq, h']
    · simp only [Bool.not_eq_true] at hq
      simp [compile_and_replace_pass, queued, hs, hj', hq, h']

theorem version_of_mem_queued {md : ModuleDeclaration} {version pass : Nat} {eng : Engine}
    {e : Option Engine} {t : Task} (h : t ∈ queued md version pass eng e) :
    t.version = version ∧ t.pass = pass := by
  unfold queued at h
  split at h
  · split_ifs at h
    · simp only [List.mem_singleton] at h
      subst h
      exact ⟨rfl, rfl⟩
    · exact absurd h (List.not_mem_nil t)
  · exact absurd h (List.not_mem_nil t)

/-! ## Installed versions (claim C16) -/

theorem pairwise_le_concat (l : List (Nat × Nat)) (v p : Nat)
    (h : (l.map Prod.fst).Pairwise (· ≤ ·)) (hv : ∀ q ∈ l, q.1 ≤ v) :
    ((l ++ [(v, p)]).map Prod.fst).Pairwise (· ≤ ·) := by
  rw [List.map_append, List.pairwise_append]
  refine ⟨h, by simp, ?_⟩
  intro a ha b hb
  obtain ⟨q, hq, rfl⟩ := List.mem_map.mp ha
  simp only [List.map_cons, List.map_nil, List.mem_singleton] at hb
  subst hb
  exact hv q hq

theorem consistent_compile_and_replace_pass (n : Node) (md : ModuleDeclaration)
    (version pass : Nat) (e : Option Engine) (h : Consistent n)
    (hv : version ≤ n.version) (hp : pass = 1 → version = n.version) (hp1 : 1 ≤ pass) :
    Consistent (compile_and_replace_pass n md version pass e) := by
  obtain ⟨h1, h2, h3, h4⟩ := h
  have hint : ∀ c ∈ n.interrupts ++ [(⟨version, pass, e⟩ : Completion)],
      c.version ≤ n.version := by
    intro c hc
    rcases List.mem_append.mp hc with hc | hc
    · exact h2 c hc
    · simp only [List.mem_singleton] at hc
      subst hc
      exact hv
  have hinst : ∀ q ∈ n.installs ++ [(version, pass)], q.1 ≤ n.version := by
    intro q hq
    rcases List.mem_append.mp hq with hq | hq
    · exact h3 q hq
    · simp only [List.mem_singleton] at hq
      subst hq
      exact hv
  have hq : ∀ (eng : Engine), ∀ t ∈ n.asynchronous ++ queued md version pass eng e,
      t.version ≤ n.version ∧ 1 ≤ t.pass := by
    intro eng t ht
    rcases List.mem_append.mp ht with ht | ht
    · exact h1 t ht
    · rw [(version_of_mem_queued ht).1, (version_of_mem_queued ht).2]; exact ⟨hv, hp1⟩
  by_cases hpass : pass = 1
  · subst hpass
    have hpw := pairwise_le_concat n.installs version 1 h4 (by rw [hp rfl]; exact h3)
    by_cases ht : md.std = "logic" ∧ (primary md).target ≠ "sw"
    · rw [compile_and_replace_pass_first_target n md version e ht]
      exact ⟨h1, h2, h3, h4⟩
    · cases e with
      | none =>
        rw [compile_and_replace_pass_first_none n md version ht]
        exact ⟨h1, h2, h3, h4⟩
      | some e1 =>
        rw [compile_and_replace_pass_first_some n md version e1 ht]
        exact ⟨hq _, h2, hinst, hpw⟩
  · rw [compile_and_replace_pass_later n md version pass e hpass]
    exact ⟨hq _, hint, h3, h4⟩

theorem consistent_run_completion (n : Node) (c : Completion) (h : Consistent n)
    (hc : c.version ≤ n.version) : Consistent (run_completion n c) := by
  obtain ⟨h1, h2, h3, h4⟩ := h
  unfold run_completion
  split
  · exact ⟨h1, h2, h3, h4⟩
  · split_ifs with hlt
    · exact ⟨h1, h2, h3, h4⟩
    · have hge : n.version ≤ c.version := Nat.le_of_not_lt hlt
      refine ⟨h1, h2, ?_, pairwise_le_concat n.installs c.version c.pass h4
        (fun q hq => le_trans (h3 q hq) hge)⟩
      intro q hq
      rcases List.mem_append.mp hq with hq | hq
      · exact h3 q hq
      · simp only [List.mem_singleton] at hq
        subst hq
        exact hc

theorem consistent_step (n : Node) (ev : Event) (h : Consistent n) : Consistent (step n ev) := by
  obtain ⟨h1, h2, h3, h4⟩ := h
  cases ev with
  | recompile md e =>
    simp only [step, compile_and_replace]
    exact consistent_compile_and_replace_pass _ md _ 1 e
      ⟨fun t ht => ⟨Nat.le_succ_of_le (h1 t ht).1, (h1 t ht).2⟩,
        fun c hc => Nat.le_succ_of_le (h2 c hc), fun q hq => Nat.le_succ_of_le (h3 q hq), h4⟩
      (le_refl _) (fun _ => rfl) (le_refl _)
  | asynchronous i e =>
    simp only [step]
    split
    · rename_i t ht
      have hmem := h1 t (List.getElem?_mem ht)
      exact consistent_compile_and_replace_pass
        { n with asynchronous := n.asynchronous.eraseIdx i } t.md2 t.version (t.pass + 1) e
        ⟨fun t' ht' => h1 t' (List.mem_of_mem_eraseIdx ht'), h2, h3, h4⟩
        hmem.1 (fun hc => by omega) (by omega)
    · exact ⟨h1, h2, h3, h4⟩
  | interrupt i =>
    simp only [step]
    split
    · rename_i c hc
      exact consistent_run_completion { n with interrupts := n.interrupts.eraseIdx i } c
        ⟨h1, fun c' hc' => h2 c' (List.mem_of_mem_eraseIdx hc'), h3, h4⟩
        (h2 c (List.getElem?_mem hc))
    · exact ⟨h1, h2, h3, h4⟩
  | alternate i =>
    exact ⟨h1, fun c' hc' => h2 c' (List.mem_of_mem_eraseIdx hc'), h3, h4⟩

theorem consistent_run (n : Node) (es : List Event) (h : Consistent n) :
    Consistent (run n es) := by
  induction es generalizing n with
  | nil => exact h
  | cons ev es ih => exact ih (step n ev) (consistent_step n ev h)

theorem consistent_construct (stub : Engine) : Consistent (construct stub) := by
  simp [Consistent, construct]

/-- C16: for every sequence of recompiles of a module, interleaved in any way
with its queued asynchronous passes and with its queued completions, taken in
any order, the versions of the engines installed by `replace_with` never go
down, and none is above the live version. -/
theorem C16_installed_versions_monotone (stub : Engine) (es : List Event) :
    ((run (construct stub) es).installs.map Prod.fst).Pairwise (· ≤ ·) ∧
    ∀ p ∈ (run (construct stub) es).installs, p.1 ≤ (run (construct stub) es).version := by
  obtain ⟨_, _, h3, h4⟩ := consistent_run (construct stub) es (consistent_construct stub)
  exact ⟨h4, h3⟩

/-! ## Completions, later passes and the first pass (claims C17 to C20) -/

/-- C17: when the completion of a pass after the first, captured at version
`v` with result `e`, runs on the node: if the live version is greater than `v`
or the compile produced nothing, the attempt is aborted and the engine and the
record of installs are as before; otherwise the engine is replaced by the new
result and the install is recorded.  So the attempt is discarded exactly when
the live version is greater than `v` or there is no result. -/
theorem C17_completion_discarded_iff (n : Node) (c : Completion) :
    ((c.version < n.version ∨ c.e = none) →
      (run_completion n c).engine = n.engine ∧
      (run_completion n c).installs = n.installs ∧
      (run_completion n c).stdinfo = n.stdinfo ++ ["Aborted"]) ∧
    (∀ e : Engine, ¬ c.version < n.version → c.e = some e →
      (run_completion n c).engine = n.engine.replace_with e ∧
      (run_completion n c).installs = n.installs ++ [(c.version, c.pass)] ∧
      (run_completion n c).stdinfo = n.stdinfo ++ ["Finished"]) ∧
    ((run_completion n c).installs = n.installs ↔ (c.version < n.version ∨ c.e = none)) ∧
    ((run_completion n c).stdinfo = n.stdinfo ++ ["Aborted"] ↔
      (c.version < n.version ∨ c.e = none)) := by
  rcases c with ⟨v, p, e⟩
  cases e with
  | none => simp [run_completion]
  | some e =>
    by_cases h : v < n.version
    · simp [run_completion, h]
    · simp [run_completion, h]

/-- C18, counterexample: the module with three passes is recompiled twice, so
the live version is 2 while the second pass captured at version 1 is still
queued.  That pass runs and its compile succeeds: a third pass for version 1
is queued all the same, and the completion of the second pass is aborted when
it runs (the engine stays the software engine of version 2). -/
theorem C18_stale_pass_still_enqueues :
    (run (construct stub_engine)
      [Event.recompile three_pass_module (some sw_engine),
       Event.recompile three_pass_module (some sw_engine)]).version = 2 ∧
    (run (construct stub_engine)
      [Event.recompile three_pass_module (some sw_engine),
       Event.recompile three_pass_module (some sw_engine)]).asynchronous.map
        (fun t => (t.version, t.pass)) = [(1, 1), (2, 1)] ∧
    (run (construct stub_engine)
      [Event.recompile three_pass_module (some sw_engine),
       Event.recompile three_pass_module (some sw_engine),
       Event.asynchronous 0 (some hw_engine)]).asynchronous.map
        (fun t => (t.version, t.pass)) = [(2, 1), (1, 2)] ∧
    (run (construct stub_engine)
      [Event.recompile three_pass_module (some sw_engine),
       Event.recompile three_pass_module (some sw_engine),
       Event.asynchronous 0 (some hw_engine)]).interrupts = [⟨1, 2, some hw_engine⟩] ∧
    (run (construct stub_engine)
      [Event.recompile three_pass_module (some sw_engine),
       Event.recompile three_pass_module (some sw_engine),
       Event.asynchronous 0 (some hw_engine), Event.interrupt 0]).engine = sw_engine ∧
    (run (construct stub_engine)
      [Event.recompile three_pass_module (some sw_engine),
       Event.recompile three_pass_module (some sw_engine),
       Event.asynchronous 0 (some hw_engine), Event.interrupt 0]).stdinfo
      = ["Finished", "Finished", "Aborted"] := by
  decide

/-- C18, amended: a pass after the first, captured at version `v`, queues a
further asynchronous pass for `v` exactly when the module is `logic` with a
separator left in its target or location, the engine installed on the node is
not a stub, and its compile produced an engine.  The live version of the node
is not read: the queue is the same whatever the live version is. -/
theorem C18_next_pass_enqueued (n : Node) (md : ModuleDeclaration) (v pass : Nat)
    (e : Option Engine) (hp : 2 ≤ pass) :
    ((jit md = true ∧ n.engine.is_stub = false ∧ e.isSome = true) →
      ∃ m2, secondary md = some m2 ∧
        (compile_and_replace_pass n md v pass e).asynchronous
          = n.asynchronous ++ [⟨m2, v, pass⟩]) ∧
    (¬ (jit md = true ∧ n.engine.is_stub = false ∧ e.isSome = true) →
      (compile_and_replace_pass n md v pass e).asynchronous = n.asynchronous) ∧
    ∀ live : Nat,
      (compile_and_replace_pass { n with version := live } md v pass e).asynchronous
        = (compile_and_replace_pass n md v pass e).asynchronous := by
  have hp1 : pass ≠ 1 := by omega
  have hj := secondary_isSome md
  refine ⟨?_, ?_, ?_⟩
  · rintro ⟨h1, h2, h3⟩
    rw [h1] at hj
    cases hs : secondary md with
    | none => rw [hs] at hj; exact Bool.noConfusion hj
    | some m2 =>
      refine ⟨m2, rfl, ?_⟩
      rw [compile_and_replace_pass_later n md v pass e hp1]
      simp [queued, hp1, hs, h2, h3]
  · intro h
    rw [compile_and_replace_pass_later n md v pass e hp1]
    cases hs : secondary md with
    | none => simp [queued, hp1, hs]
    | some m2 =>
      rw [hs] at hj
      have hj' : jit md = true := by simpa using hj.symm
      have : ¬ (n.engine.is_stub = false ∧ e.isSome = true) := fun hc => h ⟨hj', hc⟩
      simp only [queued, hp1, if_false, hs]
      by_cases h2 : n.engine.is_stub = false
      · have h3 : e.isSome = false := by
          cases he : e.isSome with
          | false => rfl
          | true => exact absurd ⟨h2, he⟩ this
        simp [h2, h3]
      · simp only [Bool.not_eq_false] at h2
        simp [h2]
  · intro live
    rw [compile_and_replace_pass_later n md v pass e hp1,
      compile_and_replace_pass_later _ md v pass e hp1]

/-- Witness of the amended C18: with the engine of version 2 installed, the
second pass captured at version 1 queues the third pass for version 1. -/
theorem C18_next_pass_enqueued_witness :
    (2 : Nat) ≤ 2 ∧
    ∃ m2, secondary ⟨"logic", "aos;f1", "local;remote", false, false, false, 0⟩ = some m2 ∧
      (compile_and_replace_pass
        { (construct sw_engine) with version := 2 }
        ⟨"logic", "aos;f1", "local;remote", false, false, false, 0⟩ 1 2
        (some hw_engine)).asynchronous = [] ++ [⟨m2, 1, 2⟩] :=
  ⟨le_refl 2,
    (C18_next_pass_enqueued { (construct sw_engine) with version := 2 }
      ⟨"logic", "aos;f1", "local;remote", false, false, false, 0⟩ 1 2 (some hw_engine)
      (le_refl 2)).1 ⟨by decide, by decide, by decide⟩⟩

/-- C19: a pass after the first whose compile produces no engine: `fatal` is
not called, the engine of the node is not touched, no further asynchronous
pass is queued, and the completion it schedules, whenever it runs, leaves the
engine then installed in place, calls no `fatal` and queues nothing. -/
theorem C19_later_pass_failure (n : Node) (md : ModuleDeclaration) (v pass : Nat)
    (hp : 2 ≤ pass) :
    (compile_and_replace_pass n md v pass none).fatals = n.fatals ∧
    (compile_and_replace_pass n md v pass none).engine = n.engine ∧
    (compile_and_replace_pass n md v pass none).installs = n.installs ∧
    (compile_and_replace_pass n md v pass none).asynchronous = n.asynchronous ∧
    (compile_and_replace_pass n md v pass none).interrupts
      = n.interrupts ++ [⟨v, pass, none⟩] ∧
    ∀ n' : Node,
      (run_completion n' ⟨v, pass, none⟩).engine = n'.engine ∧
      (run_completion n' ⟨v, pass, none⟩).installs = n'.installs ∧
      (run_completion n' ⟨v, pass, none⟩).fatals = n'.fatals ∧
      (run_completion n' ⟨v, pass, none⟩).asynchronous = n'.asynchronous := by
  have hp1 : pass ≠ 1 := by omega
  rw [compile_and_replace_pass_later n md v pass none hp1]
  have hq : queued md v pass n.engine none = [] := by
    unfold queued
    split <;> simp
  refine ⟨rfl, rfl, rfl, by simp [hq], rfl, ?_⟩
  intro n'
  simp [run_completion]

/-- Witness of C19: the second pass of the module with three passes fails. -/
theorem C19_later_pass_failure_witness :
    (2 : Nat) ≤ 2 ∧
    (run (construct stub_engine)
      [Event.recompile three_pass_module (some sw_engine),
       Event.asynchronous 0 none, Event.interrupt 0]).engine = sw_engine ∧
    (compile_and_replace_pass (construct sw_engine)
      ⟨"logic", "aos;f1", "local;remote", false, false, false, 0⟩ 1 2 none).asynchronous
      = [] :=
  ⟨le_refl 2, by decide,
    (C19_later_pass_failure (construct sw_engine)
      ⟨"logic", "aos;f1", "local;remote", false, false, false, 0⟩ 1 2 (le_refl 2)).2.2.2.1⟩

theorem find_from_takeWhile (c : Char) (l : List Char) (i : Nat) :
    (∀ k, find_from c i l = some k →
      i ≤ k ∧ l.take (k - i) = l.takeWhile fun x => x ≠ c) ∧
    (find_from c i l = none → (l.takeWhile fun x => x ≠ c) = l) := by
  induction l generalizing i with
  | nil => simp [find_from]
  | cons x rest ih =>
    by_cases hx : x = c
    · subst hx
      simp [find_from, List.takeWhile_cons]
    · obtain ⟨ih1, ih2⟩ := ih (i + 1)
      simp only [find_from, hx, if_false]
      constructor
      · intro k hk
        obtain ⟨h1, h2⟩ := ih1 k hk
        have hki : k - i = (k - (i + 1)) + 1 := by omega
        refine ⟨by omega, ?_⟩
        rw [hki, List.take_succ_cons, h2]
        simp [List.takeWhile_cons, hx]
      · intro hk
        have hrest := ih2 hk
        simp only [List.takeWhile_cons, ne_eq, hx, not_false_eq_true, decide_True]
        rw [hrest]
        rfl

/-- The target of the primary declaration of a `logic` module is the first
segment of its target. -/
theorem primary_target_eq_first_segment (md : ModuleDeclaration) (h : md.std = "logic") :
    (primary md).target = first_segment md.target := by
  obtain ⟨h1, h2⟩ := find_from_takeWhile ';' md.target.data 0
  unfold primary first_segment
  cases ht : find_first_of md.target ';' with
  | none =>
    have : (md.target.data.takeWhile fun x => x ≠ ';') = md.target.data := h2 ht
    rw [this]
    split_ifs <;> rfl
  | some tsep =>
    have hj : jit md = true := by simp [jit, h, ht]
    obtain ⟨_, h3⟩ := h1 tsep ht
    simp only [hj, if_true, substr, List.drop_zero]
    rw [← h3]
    rfl

/-- C20: the first pass of `compile_and_replace(ignore)` calls `fatal` exactly
when the module is `logic` and the first segment of its target is not `sw`,
or the compile returns no engine, and then it calls it once, does not replace
the engine and queues no asynchronous pass; in every other case it calls no
`fatal` and installs the engine that the compile returned. -/
theorem C20_first_pass_installs_or_fatal (n : Node) (md : ModuleDeclaration)
    (e : Option Engine) :
    (((md.std = "logic" ∧ first_segment md.target ≠ "sw") ∨ e = none) →
      (compile_and_replace n md e).fatals.length = n.fatals.length + 1 ∧
      (compile_and_replace n md e).engine = n.engine ∧
      (compile_and_replace n md e).installs = n.installs ∧
      (compile_and_replace n md e).asynchronous = n.asynchronous ∧
      (compile_and_replace n md e).interrupts = n.interrupts) ∧
    (¬ ((md.std = "logic" ∧ first_segment md.target ≠ "sw") ∨ e = none) →
      (compile_and_replace n md e).fatals = n.fatals ∧
      ∃ e1, e = some e1 ∧
        (compile_and_replace n md e).engine = n.engine.replace_with e1 ∧
        (compile_and_replace n md e).installs = n.installs ++ [(n.version + 1, 1)]) ∧
    ((compile_and_replace n md e).fatals ≠ n.fatals ↔
      ((md.std = "logic" ∧ first_segment md.target ≠ "sw") ∨ e = none)) := by
  have hcond : (md.std = "logic" ∧ first_segment md.target ≠ "sw") ↔
      (md.std = "logic" ∧ (primary md).target ≠ "sw") := by
    constructor
    · rintro ⟨h1, h2⟩; exact ⟨h1, by rw [primary_target_eq_first_segment md h1]; exact h2⟩
    · rintro ⟨h1, h2⟩; exact ⟨h1, by rw [← primary_target_eq_first_segment md h1]; exact h2⟩
  have hne : ∀ (l : List String) (s : String), l ++ [s] ≠ l := by
    intro l s hc
    have := congrArg List.length hc
    simp at this
  by_cases ht : md.std = "logic" ∧ (primary md).target ≠ "sw"
  · have hr := compile_and_replace_pass_first_target
      { n with version := n.version + 1, captured := n.captured ++ [n.version + 1] }
      md (n.version + 1) e ht
    have hc : (md.std = "logic" ∧ first_segment md.target ≠ "sw") ∨ e = none :=
      Or.inl (hcond.mpr ht)
    unfold compile_and_replace
    rw [hr]
    refine ⟨fun _ => ⟨by simp, rfl, rfl, rfl, rfl⟩, fun h => absurd hc h, ?_⟩
    exact ⟨fun _ => hc, fun _ => hne _ _⟩
  · cases e with
    | none =>
      have hr := compile_and_replace_pass_first_none
        { n with version := n.version + 1, captured := n.captured ++ [n.version + 1] }
        md (n.version + 1) ht
      unfold compile_and_replace
      rw [hr]
      refine ⟨fun _ => ⟨by simp, rfl, rfl, rfl, rfl⟩, fun h => absurd (Or.inr rfl) h, ?_⟩
      exact ⟨fun _ => Or.inr rfl, fun _ => hne _ _⟩
    | some e1 =>
      have hr := compile_and_replace_pass_first_some
        { n with version := n.version + 1, captured := n.captured ++ [n.version + 1] }
        md (n.version + 1) e1 ht
      have hnc : ¬ ((md.std = "logic" ∧ first_segment md.target ≠ "sw") ∨ some e1 = none) := by
        rintro (h | h)
        · exact ht (hcond.mp h)
        · exact Option.noConfusion h
      unfold compile_and_replace
      rw [hr]
      refine ⟨fun h => absurd h hnc, fun _ => ⟨rfl, e1, rfl, rfl, rfl⟩, ?_⟩
      exact ⟨fun h => absurd rfl h, fun h => absurd h hnc⟩

end Cascade.Runtime

namespace Cascade.Aos

/-! ## Liveness and the compile lead (claims C25, C29) -/

theorem loop_iter_current {t : Slots} {k : Nat} {s : Slot} (hk : t[k]? = some s)
    (hs : s.state = State.CURRENT) : loop_iter t k = (t, Outcome.logic) := by
  simp [loop_iter, hk, hs]

/-- When the build of a caller returns, with either result, the caller's slot
is STOPPED or CURRENT afterwards, so the next iteration of its loop returns. -/
theorem finish_build_returns {t : Slots} {id k : Nat} {s : Slot} (ok : Bool)
    (hk : t[k]? = some s) (hid : s.id = id) (hs : s.state ≠ State.FREE) :
    (finish_build t id k ok).2 = Outcome.null ∨ (finish_build t id k ok).2 = Outcome.logic := by
  have hafter : ∃ s', (after_build t id ok)[k]? = some s' ∧
      (s'.state = State.STOPPED ∨ s'.state = State.CURRENT) := by
    cases ok with
    | true =>
      refine ⟨_, by simp only [after_build, if_true]; rw [getElem?_update, hk]; rfl, ?_⟩
      rcases s with ⟨sid, st, txt⟩
      cases st <;> simp_all
    | false =>
      refine ⟨stop_mark id s, ?_, ?_⟩
      · simp only [after_build, Bool.false_eq_true, if_false]
        exact getElem?_stop_compile_own false hk hid
      · rw [stop_mark_state]
        rcases s with ⟨sid, st, txt⟩
        cases st <;> simp_all
  obtain ⟨s', h1, h2⟩ := hafter
  simp only [finish_build]
  rcases h2 with h2 | h2
  · rw [loop_iter_stopped h1 h2]; exact Or.inl rfl
  · rw [loop_iter_current h1 h2]; exact Or.inr rfl

/-- C25: a compile call either returns null before its loop, or it enters
the loop with a slot that is COMPILING, so that its first iteration starts a
backend build and does not wait; and whatever the other callers do while the
build runs, when the build returns, with success or with failure, the next
iteration returns null or the logic object.  No call reaches the wait on the
condition variable, so a call whose build returns, returns. -/
theorem C25_every_call_returns (t : Slots) (id : Nat) (r : Request) (es : List Event)
    (ok : Bool) :
    (compile_entry t id r).2 = Entry.rejected ∨
    ∃ k : Nat, (compile_entry t id r).2 = Entry.entered k ∧
      loop_iter (compile_entry t id r).1 k = ((compile_entry t id r).1, Outcome.building) ∧
      ((∀ e ∈ es, Event.own k e = false) →
        (finish_build (run (compile_entry t id r).1 es) id k ok).2 = Outcome.null ∨
        (finish_build (run (compile_entry t id r).1 es) id k ok).2 = Outcome.logic) := by
  rcases compile_entry_cases t id r with h | ⟨k, hfree, h⟩
  · left; rw [h]
  · right
    obtain ⟨s0, hs0, _, _⟩ := get_free_eq_nat hfree
    have hk : k < t.length := (List.getElem?_eq_some.mp hs0).1
    have hself := getElem?_preempt_self hk id (r.rewrite k)
    rw [h]
    refine ⟨k, rfl, by simp [loop_iter, hself], ?_⟩
    intro henv
    obtain ⟨s, h1, h2, _, h4, _, _⟩ := run_keeps_held es henv hself (by simp)
    exact finish_build_returns ok h1 h2 h4

theorem has_lead_compile_entry (t : Slots) (id : Nat) (r : Request)
    (h : has_lead_if_waiting t) : has_lead_if_waiting (compile_entry t id r).1 := by
  rcases compile_entry_cases t id r with h1 | ⟨k, hfree, h1⟩
  · rw [h1]; exact h
  · rw [h1]
    obtain ⟨s0, hs0, _, _⟩ := get_free_eq_nat hfree
    have hk : k < t.length := (List.getElem?_eq_some.mp hs0).1
    exact fun _ => ⟨k, _, getElem?_preempt_self hk id (r.rewrite k), rfl⟩

theorem has_lead_update (t : Slots) : has_lead_if_waiting (update t) := by
  rintro ⟨i, s', hs', hw⟩
  exfalso
  rw [getElem?_update] at hs'
  cases hts : t[i]? with
  | none => rw [hts] at hs'; exact Option.noConfusion hs'
  | some s =>
    rw [hts] at hs'
    simp only [Option.map_some', Option.some.injEq] at hs'
    subst hs'
    rcases s with ⟨sid, st, txt⟩
    cases st <;> simp at hw

theorem has_lead_stop_compile (t : Slots) (id : Nat) (force : Bool)
    (h : has_lead_if_waiting t) : has_lead_if_waiting (stop_compile t id force) := by
  rcases stop_compile_cases t id force with ⟨h1, h2⟩ | ⟨_, j, s0, h1, _, _, _, h5⟩
  · rintro ⟨i, s', hs', hw⟩
    rw [h1, List.getElem?_map] at hs'
    cases hts : t[i]? with
    | none => rw [hts] at hs'; exact Option.noConfusion hs'
    | some s =>
      rw [hts] at hs'
      simp only [Option.map_some', Option.some.injEq] at hs'
      subst hs'
      have hws := stop_mark_waiting.mp hw
      obtain ⟨c, sc, hc, hcs⟩ := h ⟨i, s, hts, hws.1⟩
      have hcid : sc.id ≠ id := by
        intro hcid
        exact h2 ⟨need_new_lead_eq_true.mpr ⟨sc, List.getElem?_mem hc, hcid, hcs⟩,
          s, List.getElem?_mem hts, hws.1, hws.2⟩
      refine ⟨c, sc, ?_, hcs⟩
      rw [h1, List.getElem?_map, hc, Option.map_some', stop_mark_of_ne hcid]
  · intro _
    have hjl : j < t.length := (List.getElem?_eq_some.mp h1).1
    refine ⟨j, { s0 with state := State.COMPILING }, ?_, rfl⟩
    rw [h5, List.getElem?_set]
    simp [hjl]

theorem has_lead_set_free (t : Slots) (k : Nat) (sk : Slot) (hk : t[k]? = some sk)
    (hst : sk.state ≠ State.COMPILING) (h : has_lead_if_waiting t) :
    has_lead_if_waiting (set_state t k State.FREE) := by
  rintro ⟨i, s', hs', hw⟩
  have hik : k ≠ i := by
    rintro rfl
    rw [getElem?_set_state, if_pos rfl, hk] at hs'
    simp only [Option.map_some', Option.some.injEq] at hs'
    subst hs'
    exact State.noConfusion hw
  rw [getElem?_set_state, if_neg hik] at hs'
  obtain ⟨c, sc, hc, hcs⟩ := h ⟨i, s', hs', hw⟩
  have hck : k ≠ c := by
    rintro rfl
    rw [hk] at hc
    exact hst (by rw [Option.some.inj hc]; exact hcs)
  exact ⟨c, sc, by rw [getElem?_set_state, if_neg hck]; exact hc, hcs⟩

theorem has_lead_step (t : Slots) (e : Event) (h : has_lead_if_waiting t) :
    has_lead_if_waiting (step t e) := by
  cases e with
  | compile id r => exact has_lead_compile_entry t id r h
  | built => exact has_lead_update t
  | failed id => exact has_lead_stop_compile t id false h
  | stop id => exact has_lead_stop_compile t id true h
  | free k =>
    simp only [step]
    split
    · rename_i s hs
      split_ifs with hst
      · have : (loop_iter t k).1 = set_state t k State.FREE := by
          simp [loop_iter, hs, hst]
        rw [this]
        exact has_lead_set_free t k s hs (by rw [hst]; decide) h
      · exact h
    · exact h
  | release k =>
    simp only [step, release]
    split
    · rename_i s hs
      split_ifs with hst
      · simp only [Option.getD_some]
        exact has_lead_set_free t k s hs (by rw [hst]; decide) h
      · simpa using h
    · simpa using h

theorem has_lead_run (t : Slots) (es : List Event) (h : has_lead_if_waiting t) :
    has_lead_if_waiting (run t es) := by
  induction es generalizing t with
  | nil => exact h
  | cons e es ih => exact ih (step t e) (has_lead_step t e h)

theorem has_lead_init : has_lead_if_waiting init := by
  rintro ⟨i, s, hs, hw⟩
  have hmem := List.getElem?_mem hs
  rw [init] at hmem
  rw [List.eq_of_mem_replicate hmem] at hw
  exact State.noConfusion hw

/-- C29: in every state reached from a freshly constructed scheduler by any
sequence of compile entries, build results, stops, frees and releases, if some
slot is WAITING then some slot is COMPILING. -/
theorem C29_waiting_has_lead (es : List Event) (i : Nat) (s : Slot)
    (hs : (run init es)[i]? = some s) (hw : s.state = State.WAITING) :
    ∃ (j : Nat) (c : Slot), (run init es)[j]? = some c ∧ c.state = State.COMPILING :=
  has_lead_run init es has_lead_init ⟨i, s, hs, hw⟩

/-- Witness of C29: after two compiles slot 0 is WAITING, and there is a
lead. -/
theorem C29_waiting_has_lead_witness :
    (run init [Event.compile 1 (sample_request 1 0), Event.compile 2 (sample_request 1 0)])[0]?
      = some ⟨1, State.WAITING, (sample_request 1 0).rewrite 0⟩ ∧
    ∃ (j : Nat) (c : Slot),
      (run init [Event.compile 1 (sample_request 1 0),
        Event.compile 2 (sample_request 1 0)])[j]? = some c ∧ c.state = State.COMPILING :=
  ⟨by rfl, C29_waiting_has_lead
    [Event.compile 1 (sample_request 1 0), Event.compile 2 (sample_request 1 0)] 0
    ⟨1, State.WAITING, (sample_request 1 0).rewrite 0⟩ (by rfl) rfl⟩

/-! ## Which build makes a slot CURRENT (claim C30) -/

/-- Only the success of a build makes a slot CURRENT, and then the slot was
COMPILING or WAITING. -/
theorem current_only_by_update {t : Slots} {e : Event} {i : Nat} {s s' : Slot}
    (hs : t[i]? = some s) (hs' : (step t e)[i]? = some s')
    (hn : s.state ≠ State.CURRENT) (hc : s'.state = State.CURRENT) :
    e = Event.built ∧ (s.state = State.COMPILING ∨ s.state = State.WAITING) := by
  cases e with
  | compile id r =>
    exfalso
    simp only [step] at hs'
    rcases compile_entry_cases t id r with h | ⟨k, _, h⟩
    · rw [h, hs] at hs'
      exact hn (by rw [Option.some.inj hs']; exact hc)
    · rw [h] at hs'
      by_cases hik : i = k
      · subst hik
        have hil : i < t.length := (List.getElem?_eq_some.mp hs).1
        rw [show (preempt t id i (r.rewrite i), Entry.entered i).1
          = preempt t id i (r.rewrite i) from rfl, getElem?_preempt_self hil] at hs'
        rw [← Option.some.inj hs'] at hc
        exact State.noConfusion hc
      · rw [show (preempt t id k (r.rewrite k), Entry.entered k).1
          = preempt t id k (r.rewrite k) from rfl, getElem?_preempt_ne t id hik, hs] at hs'
        simp only [Option.map_some', Option.some.injEq] at hs'
        subst hs'
        rw [demote_state] at hc
        rcases s with ⟨sid, st, txt⟩
        cases st <;> by_cases h' : sid = id <;> simp_all
  | built =>
    refine ⟨rfl, ?_⟩
    simp only [step] at hs'
    rw [getElem?_update, hs] at hs'
    simp only [Option.map_some', Option.some.injEq] at hs'
    subst hs'
    rcases s with ⟨sid, st, txt⟩
    cases st <;> simp_all
  | failed id =>
    exfalso
    simp only [step] at hs'
    obtain ⟨s2, h1, _, _, h4⟩ := getElem?_stop_compile_state id false hs
    rw [h1] at hs'
    rw [← Option.some.inj hs'] at hc
    rw [stop_mark_state] at h4
    rcases s with ⟨sid, st, txt⟩
    rcases h4 with h4 | ⟨_, h4⟩
    · cases st <;> by_cases h' : sid = id <;> simp_all
    · rw [h4] at hc; exact State.noConfusion hc
  | stop id =>
    exfalso
    simp only [step] at hs'
    obtain ⟨s2, h1, _, _, h4⟩ := getElem?_stop_compile_state id true hs
    rw [h1] at hs'
    rw [← Option.some.inj hs'] at hc
    rw [stop_mark_state] at h4
    rcases s with ⟨sid, st, txt⟩
    rcases h4 with h4 | ⟨_, h4⟩
    · cases st <;> by_cases h' : sid = id <;> simp_all
    · rw [h4] at hc; exact State.noConfusion hc
  | free k =>
    exfalso
    simp only [step] at hs'
    split at hs'
    · rename_i sk hsk
      split_ifs at hs' with hst
      · have : (loop_iter t k).1 = set_state t k State.FREE := by
          simp [loop_iter, hsk, hst]
        rw [this, getElem?_set_state, hs] at hs'
        split_ifs at hs'
        · simp only [Option.map_some', Option.some.injEq] at hs'
          rw [← hs'] at hc
          exact State.noConfusion hc
        · exact hn (by rw [Option.some.inj hs']; exact hc)
      · rw [hs] at hs'
        exact hn (by rw [Option.some.inj hs']; exact hc)
    · rw [hs] at hs'
      exact hn (by rw [Option.some.inj hs']; exact hc)
  | release k =>
    exfalso
    simp only [step, release] at hs'
    split at hs'
    · split_ifs at hs'
      · simp only [Option.getD_some] at hs'
        rw [getElem?_set_state, hs] at hs'
        split_ifs at hs'
        · simp only [Option.map_some', Option.some.injEq] at hs'
          rw [← hs'] at hc
          exact State.noConfusion hc
        · exact hn (by rw [Option.some.inj hs']; exact hc)
      · simp only [Option.getD_none] at hs'
        rw [hs] at hs'
        exact hn (by rw [Option.some.inj hs']; exact hc)
    · simp only [Option.getD_none] at hs'
      rw [hs] at hs'
      exact hn (by rw [Option.some.inj hs']; exact hc)

/-- An event that is not a compile keeps the text of every slot and keeps a
FREE slot FREE. -/
theorem step_keeps_text {t : Slots} {e : Event} {i : Nat} {s : Slot}
    (he : e.is_compile = false) (hs : t[i]? = some s) :
    ∃ s', (step t e)[i]? = some s' ∧ s'.text = s.text ∧
      (s.state = State.FREE → s'.state = State.FREE) := by
  cases e with
  | compile id r => exact absurd he (by simp [Event.is_compile])
  | built =>
    refine ⟨_, by simp only [step]; rw [getElem?_update, hs]; rfl, ?_, ?_⟩ <;>
      (rcases s with ⟨sid, st, txt⟩; cases st <;> simp)
  | failed id =>
    obtain ⟨s2, h1, _, h3, h4⟩ := getElem?_stop_compile_state id false hs
    refine ⟨s2, h1, h3, ?_⟩
    intro hf
    rw [stop_mark_state] at h4
    rcases h4 with h4 | ⟨h4, _⟩
    · rw [h4]; simp [hf]
    · rw [hf] at h4; exact State.noConfusion h4
  | stop id =>
    obtain ⟨s2, h1, _, h3, h4⟩ := getElem?_stop_compile_state id true hs
    refine ⟨s2, h1, h3, ?_⟩
    intro hf
    rw [stop_mark_state] at h4
    rcases h4 with h4 | ⟨h4, _⟩
    · rw [h4]; simp [hf]
    · rw [hf] at h4; exact State.noConfusion h4
  | free k =>
    simp only [step]
    have hset : ∃ s', (set_state t k State.FREE)[i]? = some s' ∧ s'.text = s.text ∧
        (s.state = State.FREE → s'.state = State.FREE) := by
      rw [getElem?_set_state, hs]
      split_ifs
      · exact ⟨_, rfl, rfl, fun _ => rfl⟩
      · exact ⟨s, rfl, rfl, fun h => h⟩
    split
    · rename_i sk hsk
      split_ifs with hst
      · have : (loop_iter t k).1 = set_state t k State.FREE := by
          simp [loop_iter, hsk, hst]
        rw [this]
        exact hset
      · exact ⟨s, hs, rfl, fun h => h⟩
    · exact ⟨s, hs, rfl, fun h => h⟩
  | release k =>
    simp only [step, release]
    have hset : ∃ s', (set_state t k State.FREE)[i]? = some s' ∧ s'.text = s.text ∧
        (s.state = State.FREE → s'.state = State.FREE) := by
      rw [getElem?_set_state, hs]
      split_ifs
      · exact ⟨_, rfl, rfl, fun _ => rfl⟩
      · exact ⟨s, rfl, rfl, fun h => h⟩
    split
    · split_ifs
      · simpa using hset
      · exact ⟨s, by simpa using hs, rfl, fun h => h⟩
    · exact ⟨s, by simpa using hs, rfl, fun h => h⟩

theorem run_keeps_text {t : Slots} (es : List Event) {i : Nat} {s : Slot}
    (he : ∀ e ∈ es, e.is_compile = false) (hs : t[i]? = some s) :
    ∃ s', (run t es)[i]? = some s' ∧ s'.text = s.text ∧
      (s.state = State.FREE → s'.state = State.FREE) := by
  induction es generalizing t s with
  | nil => exact ⟨s, hs, rfl, fun h => h⟩
  | cons e es ih =>
    obtain ⟨s1, h1, h2, h3⟩ := step_keeps_text (he e (List.mem_cons_self e es)) hs
    obtain ⟨s2, g1, g2, g3⟩ := ih (fun e' he' => he e' (List.mem_cons_of_mem e he')) h1
    exact ⟨s2, by simpa [run] using g1, by rw [g2, h2], fun h => g3 (h3 h)⟩

/-- C30, counterexample: requester 1 compiles on slot 0 and its build is
started on a composite text that holds slot 0 only, slot 1 being FREE.  While
that build runs requester 2 compiles: it acquires slot 1, which becomes
COMPILING with a new text.  When the first build returns success, `update`
marks slot 1 CURRENT, although slot 1 was acquired after that build was started
and its index and text are not in the input of that build. -/
theorem C30_old_build_marks_new_slot :
    (text_map (compile_entry init 1 (sample_request 1 0)).1).map Prod.fst = [0] ∧
    (get_text (compile_entry init 1 (sample_request 1 0)).1).count (Tok.num 1) = 0 ∧
    ((compile_entry init 1 (sample_request 1 0)).1[1]?).map Slot.state = some State.FREE ∧
    ((run (compile_entry init 1 (sample_request 1 0)).1
      [Event.compile 2 (sample_request 1 0)])[1]?).map Slot.state = some State.COMPILING ∧
    ((update (run (compile_entry init 1 (sample_request 1 0)).1
      [Event.compile 2 (sample_request 1 0)]))[1]?).map Slot.state = some State.CURRENT := by
  refine ⟨by decide, ?_, by decide, by decide, by decide⟩
  have hk : (text_map (compile_entry init 1 (sample_request 1 0)).1).map Prod.fst = [0] := by
    decide
  have hp : ((text_map (compile_entry init 1 (sample_request 1 0)).1).map Prod.fst).Pairwise
      (· < ·) := by rw [hk]; simp
  have hc := (count_num_branches (text_map (compile_entry init 1 (sample_request 1 0)).1) 1
    hp).2 (by rw [hk]; decide)
  simp only [get_text, List.count_append, count_num_module_declarations, count_num_shell_head,
    count_num_shell_tail, hc]

/-- A slot of the table after one event that is not FREE either was acquired
by that event, a compile call that entered the loop with it, or was not FREE
before the event and has the text it had. -/
theorem step_text_or_entered {t : Slots} {e : Event} {i : Nat} {s' : Slot}
    (hs' : (step t e)[i]? = some s') (hn : s'.state ≠ State.FREE) :
    (∃ (id : Nat) (r : Request), e = Event.compile id r ∧
      (compile_entry t id r).2 = Entry.entered i) ∨
    ∃ s, t[i]? = some s ∧ s.text = s'.text ∧ s.state ≠ State.FREE := by
  have hil : i < t.length := by
    have := (List.getElem?_eq_some.mp hs').1
    simpa using this
  obtain ⟨s, hs⟩ : ∃ s, t[i]? = some s := ⟨t[i], List.getElem?_eq_getElem hil⟩
  by_cases hc : e.is_compile = false
  · right
    obtain ⟨s1, h1, h2, h3⟩ := step_keeps_text hc hs
    have hss : s1 = s' := by rw [hs'] at h1; exact (Option.some.inj h1).symm
    subst hss
    exact ⟨s, hs, h2.symm, fun hf => hn (h3 hf)⟩
  · cases e with
    | compile id r =>
      simp only [step] at hs'
      rcases compile_entry_cases t id r with h | ⟨k, _, h⟩
      · right
        rw [h, hs] at hs'
        have hss : s = s' := Option.some.inj hs'
        subst hss
        exact ⟨s, hs, rfl, hn⟩
      · by_cases hik : i = k
        · left
          subst hik
          exact ⟨id, r, rfl, by rw [h]⟩
        · right
          rw [h, getElem?_preempt_ne t id hik, hs] at hs'
          have hss : demote id s = s' := Option.some.inj hs'
          subst hss
          refine ⟨s, hs, (demote_text id s).symm, ?_⟩
          intro hf
          apply hn
          rw [demote_state, hf]
    | built => exact absurd rfl hc
    | failed id => exact absurd rfl hc
    | stop id => exact absurd rfl hc
    | free k => exact absurd rfl hc
    | release k => exact absurd rfl hc

/-- A slot that is not FREE after a sequence of events either was not FREE
at the start and has the text it had then, or was acquired by a compile call
of the sequence. -/
theorem run_text_or_entered (t0 : Slots) (es : List Event) (i : Nat) (s : Slot)
    (hs : (run t0 es)[i]? = some s) (hn : s.state ≠ State.FREE) :
    (∃ s0, t0[i]? = some s0 ∧ s0.text = s.text ∧ s0.state ≠ State.FREE) ∨
    ∃ (es1 : List Event) (id : Nat) (r : Request) (es2 : List Event),
      es = es1 ++ Event.compile id r :: es2 ∧
      (compile_entry (run t0 es1) id r).2 = Entry.entered i := by
  induction es using List.reverseRecOn generalizing s with
  | nil => exact Or.inl ⟨s, hs, rfl, hn⟩
  | append_singleton es e ih =>
    have hrun : run t0 (es ++ [e]) = step (run t0 es) e := by
      rw [run_append]; rfl
    rw [hrun] at hs
    rcases step_text_or_entered hs hn with ⟨id, r, he, hent⟩ | ⟨s1, h1, h2, h3⟩
    · right
      exact ⟨es, id, r, [], by rw [he], hent⟩
    · rcases ih s1 h1 h3 with ⟨s0, g1, g2, g3⟩ | ⟨es1, id, r, es2, g1, g2⟩
      · left
        exact ⟨s0, g1, g2.trans h2, g3⟩
      · right
        exact ⟨es1, id, r, es2 ++ [e], by rw [g1]; simp, g2⟩

/-- The text of a slot that is not FREE is in the input of a build started
on the table. -/
theorem text_in_get_text {t0 : Slots} {i : Nat} {s0 : Slot} (hs0 : t0[i]? = some s0)
    (hn : s0.state ≠ State.FREE) :
    (i, s0.text) ∈ text_map t0 ∧ Tok.str s0.text ∈ get_text t0 := by
  have hmem : (i, s0.text) ∈ text_map t0 := by
    rw [text_map_eq_occupied]
    exact (mem_occupied t0 i s0.text).mpr ⟨s0, hs0, hn, rfl⟩
  refine ⟨hmem, ?_⟩
  simp only [get_text, module_declarations, List.mem_append, List.mem_flatMap]
  exact Or.inl (Or.inl (Or.inl ⟨(i, s0.text), hmem, by simp⟩))

/-- C30, amended: a slot that is not CURRENT becomes CURRENT only by the
success of a backend build (`update`), and it was COMPILING or WAITING then.
Under every interleaving `es` of events between the start of a build on the
table `t0` and its success, every slot that the success marks CURRENT either
has its index and its current text in the map from which the input of that
build was assembled, with its text written in that input, or was acquired, and
given its text, by a compile call of `es` that entered the loop with it.  A
slot that is not FREE when the build is started and is neither freed nor
released meanwhile keeps its text, which is in the input of that build. -/
theorem C30_current_by_build_success :
    (∀ (t : Slots) (e : Event) (i : Nat) (s s' : Slot),
      t[i]? = some s → (step t e)[i]? = some s' →
      s.state ≠ State.CURRENT → s'.state = State.CURRENT →
      e = Event.built ∧ (s.state = State.COMPILING ∨ s.state = State.WAITING)) ∧
    (∀ (t0 : Slots) (es : List Event) (i : Nat) (s : Slot),
      (run t0 es)[i]? = some s →
      (s.state = State.COMPILING ∨ s.state = State.WAITING) →
      ((update (run t0 es))[i]?).map Slot.state = some State.CURRENT ∧
      (((i, s.text) ∈ text_map t0 ∧ Tok.str s.text ∈ get_text t0) ∨
        ∃ (es1 : List Event) (id : Nat) (r : Request) (es2 : List Event),
          es = es1 ++ Event.compile id r :: es2 ∧
          (compile_entry (run t0 es1) id r).2 = Entry.entered i)) ∧
    (∀ (t0 : Slots) (es : List Event) (i : Nat) (s0 : Slot),
      t0[i]? = some s0 → s0.state ≠ State.FREE →
      (∀ e ∈ es, Event.own i e = false) →
      ∃ s, (run t0 es)[i]? = some s ∧ s.text = s0.text ∧ s.state ≠ State.FREE ∧
        (i, s.text) ∈ text_map t0 ∧ Tok.str s.text ∈ get_text t0) := by
  refine ⟨fun t e i s s' hs hs' hn hc => current_only_by_update hs hs' hn hc, ?_, ?_⟩
  · intro t0 es i s hs hst
    have hnf : s.state ≠ State.FREE := by
      rcases hst with h | h <;> rw [h] <;> exact fun hc => State.noConfusion hc
    refine ⟨?_, ?_⟩
    · rw [getElem?_update, hs]
      rcases hst with h | h <;> simp [h]
    · rcases run_text_or_entered t0 es i s hs hnf with ⟨s0, g1, g2, g3⟩ | h
      · left
        rw [← g2]
        exact text_in_get_text g1 g3
      · exact Or.inr h
  · intro t0 es i s0 hs0 hn he
    obtain ⟨s, h1, _, h3, h4, _, _⟩ := run_keeps_held es he hs0 hn
    refine ⟨s, h1, h3, h4, ?_⟩
    rw [h3]
    exact text_in_get_text hs0 hn

end Cascade.Aos

namespace Cascade.Runtime

/-! ## Splitting the target and location attributes (claim C21) -/

theorem find_from_spec (c : Char) (l : List Char) (i : Nat) :
    (find_from c i l = none ↔ c ∉ l) ∧
    ∀ k, find_from c i l = some k →
      i ≤ k ∧ c ∉ l.take (k - i) ∧ l.take (k - i) ++ c :: l.drop (k - i + 1) = l := by
  induction l generalizing i with
  | nil => simp [find_from]
  | cons x rest ih =>
    obtain ⟨ih1, ih2⟩ := ih (i + 1)
    by_cases hx : x = c
    · subst hx
      simp [find_from]
    · have hx' : ¬ c = x := fun h => hx h.symm
      simp only [find_from, hx, if_false, List.mem_cons, not_or]
      refine ⟨⟨fun h => ⟨hx', ih1.mp h⟩, fun h => ih1.mpr h.2⟩, ?_⟩
      intro k hk
      obtain ⟨h1, h2, h3⟩ := ih2 k hk
      have hki : k - i = (k - (i + 1)) + 1 := by omega
      refine ⟨by omega, ?_, ?_⟩
      · rw [hki, List.take_succ_cons]
        simp only [List.mem_cons, not_or]
        exact ⟨hx', h2⟩
      · rw [hki, List.take_succ_cons, List.drop_succ_cons, List.cons_append, h3]

theorem find_first_of_none {s : String} {c : Char} :
    find_first_of s c = none ↔ c ∉ s.data :=
  (find_from_spec c s.data 0).1

theorem find_first_of_some {s : String} {c : Char} {p : Nat} (h : find_first_of s c = some p) :
    c ∉ (substr s 0 p).data ∧
    substr s 0 p ++ String.singleton c ++ substr_from s (p + 1) = s := by
  obtain ⟨_, h2, h3⟩ := (find_from_spec c s.data 0).2 p h
  simp only [Nat.sub_zero] at h2 h3
  refine ⟨by simpa [substr] using h2, ?_⟩
  apply String.ext
  simp only [String.data_append, substr, substr_from, List.drop_zero, String.singleton,
    List.append_assoc]
  simpa using h3

theorem jit_iff (md : ModuleDeclaration) :
    jit md = true ↔ md.std = "logic" ∧ (';' ∈ md.target.data ∨ ';' ∈ md.loc.data) := by
  have ht : (find_first_of md.target ';').isSome = true ↔ ';' ∈ md.target.data := by
    rw [← not_iff_not, ← find_first_of_none]
    cases find_first_of md.target ';' <;> simp
  have hl : (find_first_of md.loc ';').isSome = true ↔ ';' ∈ md.loc.data := by
    rw [← not_iff_not, ← find_first_of_none]
    cases find_first_of md.loc ';' <;> simp
  simp only [jit, Bool.and_eq_true, Bool.or_eq_true, decide_eq_true_eq, ht, hl]

/-- C21: a second copy is made exactly when the module is `logic` and its
target or its location holds a `;`.  For a `logic` module whose target holds a
`;`, with `p` the index of the first one: the primary target is the `p`
characters before it and holds no `;`, the target of the copy is what follows
it, and primary, `;` and copy together are the target.  The location is split
in the same way.  When a copy is made, an attribute without `;` is the same on
both copies as before; when none is made the declaration is not changed. -/
theorem C21_attribute_split (md : ModuleDeclaration) :
    ((secondary md).isSome = true ↔
      md.std = "logic" ∧ (';' ∈ md.target.data ∨ ';' ∈ md.loc.data)) ∧
    (md.std = "logic" → ';' ∈ md.target.data →
      ∃ (p : Nat) (m2 : ModuleDeclaration),
        find_first_of md.target ';' = some p ∧ secondary md = some m2 ∧
        (primary md).target = substr md.target 0 p ∧
        m2.target = substr_from md.target (p + 1) ∧
        ';' ∉ (primary md).target.data ∧
        (primary md).target ++ ";" ++ m2.target = md.target) ∧
    (md.std = "logic" → ';' ∈ md.loc.data →
      ∃ (p : Nat) (m2 : ModuleDeclaration),
        find_first_of md.loc ';' = some p ∧ secondary md = some m2 ∧
        (primary md).loc = substr md.loc 0 p ∧
        m2.loc = substr_from md.loc (p + 1) ∧
        ';' ∉ (primary md).loc.data ∧
        (primary md).loc ++ ";" ++ m2.loc = md.loc) ∧
    (∀ m2, secondary md = some m2 →
      (';' ∉ md.target.data → (primary md).target = md.target ∧ m2.target = md.target) ∧
      (';' ∉ md.loc.data → (primary md).loc = md.loc ∧ m2.loc = md.loc)) ∧
    (secondary md = none → primary md = md) := by
  have hsome : ∀ (s : String), ';' ∈ s.data → ∃ p, find_first_of s ';' = some p := by
    intro s hs
    cases h : find_first_of s ';' with
    | none => exact absurd hs (find_first_of_none.mp h)
    | some p => exact ⟨p, rfl⟩
  refine ⟨by rw [secondary_isSome, jit_iff], ?_, ?_, ?_, ?_⟩
  · intro hstd ht
    obtain ⟨p, hp⟩ := hsome md.target ht
    have hj : jit md = true := (jit_iff md).mpr ⟨hstd, Or.inl ht⟩
    obtain ⟨h1, h2⟩ := find_first_of_some hp
    have hprim : (primary md).target = substr md.target 0 p := by
      simp [primary, hj, hp]
    cases hs2 : secondary md with
    | none =>
      have := secondary_isSome md
      rw [hs2, hj] at this
      exact Bool.noConfusion this
    | some m2 =>
      have hm2 : m2.target = substr_from md.target (p + 1) := by
        simp only [secondary, hj, if_true, Option.some.injEq] at hs2
        subst hs2
        simp [hp]
      refine ⟨p, m2, hp, rfl, hprim, hm2, ?_, ?_⟩
      · rw [hprim]; exact h1
      · rw [hprim, hm2]
        exact h2
  · intro hstd hl
    obtain ⟨p, hp⟩ := hsome md.loc hl
    have hj : jit md = true := (jit_iff md).mpr ⟨hstd, Or.inr hl⟩
    obtain ⟨h1, h2⟩ := find_first_of_some hp
    have hprim : (primary md).loc = substr md.loc 0 p := by
      simp [primary, hj, hp]
    cases hs2 : secondary md with
    | none =>
      have := secondary_isSome md
      rw [hs2, hj] at this
      exact Bool.noConfusion this
    | some m2 =>
      have hm2 : m2.loc = substr_from md.loc (p + 1) := by
        simp only [secondary, hj, if_true, Option.some.injEq] at hs2
        subst hs2
        simp [hp]
      refine ⟨p, m2, hp, rfl, hprim, hm2, ?_, ?_⟩
      · rw [hprim]; exact h1
      · rw [hprim, hm2]
        exact h2
  · intro m2 hm2
    have hj : jit md = true := by
      rw [← secondary_isSome, hm2]; rfl
    simp only [secondary, hj, if_true, Option.some.injEq] at hm2
    subst hm2
    constructor
    · intro ht
      have := find_first_of_none.mpr ht
      simp [primary, hj, this]
    · intro hl
      have := find_first_of_none.mpr hl
      simp [primary, hj, this]
  · intro hnone
    have hj : jit md = false := by
      rw [← secondary_isSome, hnone]; rfl
    simp [primary, hj]

end Cascade.Runtime

namespace Cascade.Analyze

/-! ## Mixed triggers (claim C26) -/

theorem scan_foldl (ec : EventControl) (acc : Bool × Bool × Nat) :
    (ec.foldl
      (fun acc ev =>
        match ev with
        | EventType.POSEDGE => (true, acc.2.1, acc.2.2 + 1)
        | EventType.NEGEDGE => (true, acc.2.1, acc.2.2 + 1)
        | EventType.EDGE => (acc.1, true, acc.2.2))
      acc).1 = (acc.1 || ec.any EventType.is_edge) ∧
    (ec.foldl
      (fun acc ev =>
        match ev with
        | EventType.POSEDGE => (true, acc.2.1, acc.2.2 + 1)
        | EventType.NEGEDGE => (true, acc.2.1, acc.2.2 + 1)
        | EventType.EDGE => (acc.1, true, acc.2.2))
      acc).2.1 = (acc.2.1 || ec.any fun ev => ev = EventType.EDGE) := by
  induction ec generalizing acc with
  | nil => simp
  | cons ev rest ih =>
    simp only [List.foldl_cons, List.any_cons]
    cases ev with
    | POSEDGE =>
      obtain ⟨h1, h2⟩ := ih (true, acc.2.1, acc.2.2 + 1)
      exact ⟨by rw [h1]; simp [EventType.is_edge], by rw [h2]; simp⟩
    | NEGEDGE =>
      obtain ⟨h1, h2⟩ := ih (true, acc.2.1, acc.2.2 + 1)
      exact ⟨by rw [h1]; simp [EventType.is_edge], by rw [h2]; simp⟩
    | EDGE =>
      obtain ⟨h1, h2⟩ := ih (acc.1, true, acc.2.2)
      exact ⟨by rw [h1]; simp [EventType.is_edge], by rw [h2]; simp⟩

theorem scan_events_flags (clocks : Nat) (ec : EventControl) :
    (scan_events clocks ec).1 = ec.any EventType.is_edge ∧
    (scan_events clocks ec).2.1 = ec.any fun ev => ev = EventType.EDGE := by
  have := scan_foldl ec (false, false, clocks)
  simpa [scan_events] using this

theorem mixed_foldl (ecs : List EventControl) (md : Info) :
    (ecs.foldl visit_event_control md).uses_mixed_triggers =
      (md.uses_mixed_triggers ||
        ecs.any fun ec => ec.any EventType.is_edge && ec.any fun ev => ev = EventType.EDGE) := by
  induction ecs generalizing md with
  | nil => simp
  | cons ec rest ih =>
    simp only [List.foldl_cons, List.any_cons]
    rw [ih]
    simp only [visit_event_control, (scan_events_flags md.clocks ec).1,
      (scan_events_flags md.clocks ec).2, Bool.or_assoc]

/-- C26, counterexample: a module with an edge-triggered event in one event
control and a level-triggered event in another one holds both kinds of
events, and the flag is false. -/
theorem C26_separate_controls_not_mixed :
    (∃ ec ∈ [[EventType.POSEDGE], [EventType.EDGE]], ∃ ev ∈ ec, ev.is_edge = true) ∧
    (∃ ec ∈ [[EventType.POSEDGE], [EventType.EDGE]], EventType.EDGE ∈ ec) ∧
    uses_mixed_triggers [[EventType.POSEDGE], [EventType.EDGE]] = false := by
  decide

/-- C26, amended: the flag `uses_mixed_triggers` is true exactly when some
single event control of the module holds both an edge-triggered event
(posedge or negedge) and a level-triggered event. -/
theorem C26_mixed_triggers_same_control (ecs : List EventControl) :
    uses_mixed_triggers ecs = true ↔
      ∃ ec ∈ ecs, (∃ ev ∈ ec, ev.is_edge = true) ∧ EventType.EDGE ∈ ec := by
  simp only [uses_mixed_triggers, mixed_foldl, Bool.false_or, List.any_eq_true,
    Bool.and_eq_true, decide_eq_true_eq]
  constructor
  · rintro ⟨ec, hec, ⟨ev, hev, h1⟩, ⟨ev', hev', h2⟩⟩
    exact ⟨ec, hec, ⟨ev, hev, h1⟩, by rw [← h2]; exact hev'⟩
  · rintro ⟨ec, hec, ⟨ev, hev, h1⟩, h2⟩
    exact ⟨ec, hec, ⟨ev, hev, h1⟩, ⟨EventType.EDGE, h2, rfl⟩⟩

end Cascade.Analyze

namespace Cascade.Vivado

/-! ## The compilation cache (claim C27) -/

/-- C27, at the failing inputs: after `cache_add("abc", "agfi-1", "afi-1")`
the query `"abcdef"`, of which the stored text is a proper prefix, is reported
as found, with the identifiers of `"abc"`; a stored empty text is found for
the query `"module m"`; and with both `"abc"` and `"abcdef"` stored the query
`"abcdef"` returns the identifiers stored with `"abc"`.  The exact text is
found, and a text of which no stored text is a prefix is not. -/
theorem C27_prefix_entry_hits :
    cache_find (cache_add [] "abc" "agfi-1" "afi-1") "abcdef" "" ""
      = (true, "agfi-1", "afi-1") ∧
    cache_find (cache_add [] "" "agfi-0" "afi-0") "module m" "" ""
      = (true, "agfi-0", "afi-0") ∧
    cache_find (cache_add (cache_add [] "abc" "agfi-1" "afi-1") "abcdef" "agfi-2" "afi-2")
      "abcdef" "" "" = (true, "agfi-1", "afi-1") ∧
    cache_find (cache_add [] "abc" "agfi-1" "afi-1") "abc" "" ""
      = (true, "agfi-1", "afi-1") ∧
    (cache_find (cache_add [] "abc" "agfi-1" "afi-1") "abx" "" "").1 = false := by
  decide

end Cascade.Vivado

namespace Cascade.Syncbuf

/-! ## The buffer is a queue (claim C28) -/

theorem grow_bounds (fuel cap need : Nat) (hc : 0 < cap) (h : need ≤ cap * 2 ^ fuel) :
    need ≤ grow fuel cap need ∧ cap ≤ grow fuel cap need := by
  induction fuel generalizing cap with
  | zero => simpa [grow] using h
  | succ fuel ih =>
    unfold grow
    split_ifs with hlt
    · have h' : need ≤ cap * 2 * 2 ^ fuel := by
        rw [Nat.mul_assoc, ← Nat.pow_succ']; exact h
      obtain ⟨h1, h2⟩ := ih (cap * 2) (by omega) h'
      exact ⟨h1, by omega⟩
    · exact ⟨by omega, le_refl _⟩

theorem grow_ge (cap need : Nat) (hc : 0 < cap) :
    need ≤ grow need cap need ∧ cap ≤ grow need cap need := by
  apply grow_bounds need cap need hc
  have h1 : need < 2 ^ need := Nat.lt_two_pow need
  calc need ≤ 1 * 2 ^ need := by omega
    _ ≤ cap * 2 ^ need := Nat.mul_le_mul_right _ hc

theorem length_copy_to (d : List Nat) (p : Nat) (s : List Nat) (h : p + s.length ≤ d.length) :
    (copy_to d p s).length = d.length := by
  simp only [copy_to, List.length_append, List.length_take, List.length_drop]
  omega

theorem contents_copy_to (d : List Nat) (g p : Nat) (s : List Nat) (hg : g ≤ p)
    (h : p + s.length ≤ d.length) :
    ((copy_to d p s).drop g).take (p + s.length - g) = (d.drop g).take (p - g) ++ s := by
  have hlen : (d.take p).length = p := by
    rw [List.length_take]; omega
  have h1 : (copy_to d p s).drop g = (d.take p).drop g ++ (s ++ d.drop (p + s.length)) := by
    rw [copy_to, List.append_assoc, List.drop_append_of_le_length (by omega)]
  have h2 : ((d.take p).drop g).length = p - g := by
    rw [List.length_drop, hlen]
  have h3 : p + s.length - g = ((d.take p).drop g).length + s.length := by
    rw [h2]; omega
  rw [h1, h3, List.take_append, List.take_left, List.drop_take]

theorem length_contents (b : syncbuf) (h : WellFormed b) :
    (contents b).length = b.poff - b.goff := by
  obtain ⟨h1, _, h3, h4, _⟩ := h
  simp only [contents, List.length_take, List.length_drop]
  omega

theorem contents_recycle (b : syncbuf) : contents (recycle b) = contents b := by
  unfold recycle
  split_ifs with h
  · simp [contents, h]
  · rfl

theorem wellFormed_recycle (b : syncbuf) (h1 : b.data.length = b.data_cap) (h2 : 0 < b.data_cap)
    (h3 : b.goff ≤ b.poff) (h4 : b.poff ≤ b.data_cap) : WellFormed (recycle b) := by
  unfold recycle
  split_ifs with h
  · exact ⟨h1, h2, le_refl _, Nat.zero_le _, fun _ => rfl⟩
  · exact ⟨h1, h2, h3, h4, fun hc => absurd hc h⟩

theorem xsputn_spec (b : syncbuf) (s : List Nat) (h : WellFormed b) :
    WellFormed (xsputn b s).1 ∧ contents (xsputn b s).1 = contents b ++ s ∧
    (xsputn b s).2 = s.length := by
  obtain ⟨h1, h2, h3, h4, h5⟩ := h
  have hcl := length_contents b ⟨h1, h2, h3, h4, h5⟩
  unfold xsputn
  simp only []
  split_ifs with hgrow
  · obtain ⟨g1, g2⟩ := grow_ge b.data_cap (b.poff + s.length) h2
    have hnd : (copy_to (List.replicate (grow (b.poff + s.length) b.data_cap
        (b.poff + s.length)) 0) 0 (contents b)).length
        = grow (b.poff + s.length) b.data_cap (b.poff + s.length) := by
      rw [length_copy_to _ _ _ (by rw [List.length_replicate, hcl]; omega)]
      exact List.length_replicate _ _
    have hfit : b.poff - b.goff + s.length ≤ (copy_to (List.replicate (grow (b.poff + s.length)
        b.data_cap (b.poff + s.length)) 0) 0 (contents b)).length := by
      rw [hnd]; omega
    have hpre : (copy_to (List.replicate (grow (b.poff + s.length) b.data_cap
        (b.poff + s.length)) 0) 0 (contents b)).take (b.poff - b.goff) = contents b := by
      rw [← hcl]
      simp [copy_to]
    refine ⟨⟨?_, by simp only []; omega, Nat.zero_le _, by simp only []; omega,
      fun hc => hc.symm⟩, ?_, rfl⟩
    · simp only []
      rw [length_copy_to _ _ _ hfit, hnd]
    · have hc := contents_copy_to _ 0 (b.poff - b.goff) s (Nat.zero_le _) hfit
      simp only [contents, Nat.sub_zero, List.drop_zero] at hc hpre ⊢
      rw [hc, hpre]
  · have hfit : b.poff + s.length ≤ b.data.length := by omega
    refine ⟨⟨?_, h2, by simp only []; omega, by simp only []; omega, ?_⟩, ?_, rfl⟩
    · simp only []
      rw [length_copy_to _ _ _ hfit, h1]
    · simp only []
      intro hc
      have : b.goff = b.poff := by omega
      have := h5 this
      omega
    · simp only [contents]
      exact contents_copy_to b.data b.goff b.poff s h3 hfit

theorem xsgetn_spec (b : syncbuf) (count : Nat) (h : WellFormed b) :
    WellFormed (xsgetn b count).1 ∧ (xsgetn b count).2 = (contents b).take count ∧
    contents (xsgetn b count).1 = (contents b).drop count ∧
    (xsgetn b count).2.length = min count (b.poff - b.goff) := by
  obtain ⟨h1, h2, h3, h4, h5⟩ := h
  have hcl := length_contents b ⟨h1, h2, h3, h4, h5⟩
  have htake : (contents b).take count
      = (b.data.drop b.goff).take (min count (b.poff - b.goff)) := by
    simp only [contents, List.take_take]
  unfold xsgetn
  simp only []
  split_ifs with hz
  · have hcz : (contents b).take count = [] := by rw [htake, hz]; rfl
    refine ⟨⟨h1, h2, h3, h4, h5⟩, hcz.symm, ?_, by rw [hz]; rfl⟩
    rcases Nat.eq_zero_or_pos count with hc0 | hcpos
    · rw [hc0]; rfl
    · have : b.poff - b.goff = 0 := by
        rcases Nat.le_total count (b.poff - b.goff) with hle | hle
        · rw [Nat.min_eq_left hle] at hz; omega
        · rw [Nat.min_eq_right hle] at hz; exact hz
      have hnil : contents b = [] := List.length_eq_zero.mp (by rw [hcl, this])
      rw [hnil]; simp
  · have hle : min count (b.poff - b.goff) ≤ b.poff - b.goff := Nat.min_le_right _ _
    refine ⟨wellFormed_recycle _ h1 h2 (by simp only []; omega) h4, htake.symm, ?_, ?_⟩
    · rw [contents_recycle]
      simp only [contents]
      rw [List.drop_take, List.drop_drop]
      rcases Nat.le_total count (b.poff - b.goff) with hc | hc
      · rw [Nat.min_eq_left hc]
        congr 1
        omega
      · rw [Nat.min_eq_right hc]
        have e1 : b.poff - (b.goff + (b.poff - b.goff)) = 0 := by omega
        have e2 : b.poff - b.goff - count = 0 := by omega
        rw [e1, e2]
        rfl
    · rw [List.length_take, List.length_drop]
      omega

theorem uflow_spec (b : syncbuf) (h : WellFormed b) :
    WellFormed (uflow b).1 ∧ ((uflow b).2 = none ↔ b.poff - b.goff = 0) ∧
    (uflow b).2.toList ++ contents (uflow b).1 = contents b := by
  obtain ⟨h1, h2, h3, h4, h5⟩ := h
  unfold uflow
  split_ifs with he
  · refine ⟨⟨h1, h2, h3, h4, h5⟩, ⟨fun _ => by omega, fun _ => rfl⟩, rfl⟩
  · have hlt : b.goff < b.poff := by omega
    refine ⟨wellFormed_recycle _ h1 h2 (by simp only []; omega) h4,
      ⟨fun hc => by simp at hc, fun hc => by omega⟩, ?_⟩
    rw [contents_recycle]
    simp only [contents, Option.toList]
    have hidx : b.goff < b.data.length := by omega
    have hd : b.data.drop b.goff = b.data.getD b.goff 0 :: b.data.drop (b.goff + 1) := by
      rw [List.getD_eq_getElem _ _ hidx]
      exact List.drop_eq_getElem_cons hidx
    have hk : b.poff - b.goff = (b.poff - (b.goff + 1)) + 1 := by omega
    rw [hd, hk, List.take_succ_cons]
    rfl

theorem step_invariant (t : Trace) (op : Op)
    (h : WellFormed t.buf ∧ t.read ++ contents t.buf = t.written) :
    WellFormed (step t op).buf ∧
    (step t op).read ++ contents (step t op).buf = (step t op).written := by
  obtain ⟨hw, hq⟩ := h
  cases op with
  | xsputn s =>
    obtain ⟨h1, h2, _⟩ := xsputn_spec t.buf s hw
    refine ⟨h1, ?_⟩
    simp only [step]
    rw [h2, ← List.append_assoc, hq]
  | xsgetn count =>
    obtain ⟨h1, h2, h3, _⟩ := xsgetn_spec t.buf count hw
    refine ⟨h1, ?_⟩
    simp only [step]
    rw [h2, h3, List.append_assoc, List.take_append_drop, hq]
  | uflow =>
    obtain ⟨h1, _, h3⟩ := uflow_spec t.buf hw
    refine ⟨h1, ?_⟩
    simp only [step]
    rw [List.append_assoc, h3, hq]

theorem foldl_invariant (ops : List Op) (t : Trace)
    (h : WellFormed t.buf ∧ t.read ++ contents t.buf = t.written) :
    WellFormed (ops.foldl step t).buf ∧
    (ops.foldl step t).read ++ contents (ops.foldl step t).buf = (ops.foldl step t).written := by
  induction ops generalizing t with
  | nil => exact h
  | cons op ops ih => exact ih (step t op) (step_invariant t op h)

theorem run_invariant (ops : List Op) :
    WellFormed (run ops).buf ∧ (run ops).read ++ contents (run ops).buf = (run ops).written :=
  foldl_invariant ops ⟨init, [], []⟩ ⟨by simp [WellFormed, init], by simp [contents, init]⟩

/-- C28: after every sequence of calls of `xsputn`, `xsgetn` and `uflow` on a
new buffer, the characters read so far followed by the characters still held
are the characters written so far, so what was read is a prefix of what was
written; `goff_ <= poff_ <= data_cap_`, and both offsets are 0 when the buffer
holds nothing.  On the buffer reached, `xsputn` returns the count it was given
and adds the characters at the end, across a growth of the array as well;
`xsgetn` hands out the first `min(count, poff_ - goff_)` characters held; and
`uflow` returns eof exactly when nothing is held. -/
theorem C28_syncbuf_fifo (ops : List Op) :
    (run ops).read ++ contents (run ops).buf = (run ops).written ∧
    (run ops).read <+: (run ops).written ∧
    (run ops).buf.goff ≤ (run ops).buf.poff ∧
    (run ops).buf.poff ≤ (run ops).buf.data_cap ∧
    (run ops).buf.data.length = (run ops).buf.data_cap ∧
    (contents (run ops).buf).length = (run ops).buf.poff - (run ops).buf.goff ∧
    (contents (run ops).buf = [] → (run ops).buf.goff = 0 ∧ (run ops).buf.poff = 0) ∧
    (∀ s : List Nat,
      (xsputn (run ops).buf s).2 = s.length ∧
      contents (xsputn (run ops).buf s).1 = contents (run ops).buf ++ s) ∧
    (∀ count : Nat,
      (xsgetn (run ops).buf count).2 = (contents (run ops).buf).take count ∧
      (xsgetn (run ops).buf count).2.length
        = min count ((run ops).buf.poff - (run ops).buf.goff) ∧
      contents (xsgetn (run ops).buf count).1 = (contents (run ops).buf).drop count) ∧
    ((uflow (run ops).buf).2 = none ↔ (run ops).buf.poff - (run ops).buf.goff = 0) ∧
    (uflow (run ops).buf).2.toList ++ contents (uflow (run ops).buf).1
      = contents (run ops).buf := by
  obtain ⟨hw, hq⟩ := run_invariant ops
  have hcl := length_contents _ hw
  obtain ⟨h1, _, h3, h4, h5⟩ := hw
  have hw' : WellFormed (run ops).buf := ⟨h1, ‹_›, h3, h4, h5⟩
  refine ⟨hq, ⟨_, hq⟩, h3, h4, h1, hcl, ?_, ?_, ?_, (uflow_spec _ hw').2.1,
    (uflow_spec _ hw').2.2⟩
  · intro hnil
    have hlen : (contents (run ops).buf).length = 0 := by rw [hnil]; rfl
    have heq : (run ops).buf.goff = (run ops).buf.poff := by omega
    have := h5 heq
    omega
  · intro s
    obtain ⟨_, g2, g3⟩ := xsputn_spec _ s hw'
    exact ⟨g3, g2⟩
  · intro count
    obtain ⟨_, g2, g3, g4⟩ := xsgetn_spec _ count hw'
    exact ⟨g2, g4, g3⟩

end Cascade.Syncbuf

namespace Cascade.Runtime

/-! ## Iteration over the hierarchy (claim C24) -/

theorem preorder_list_append {R : Type} (xs ys : List (Module R)) :
    preorder_list (xs ++ ys) = preorder_list xs ++ preorder_list ys := by
  induction xs with
  | nil => simp [preorder_list]
  | cons x xs ih => simp [preorder_list, ih]

theorem preorder_list_eq_flatMap {R : Type} (cs : List (Module R)) :
    preorder_list cs = cs.flatMap preorder := by
  induction cs with
  | nil => simp [preorder_list]
  | cons c cs ih => simp [preorder_list, ih]

theorem push_children {R : Type} (cs : List (Module R)) (rest : List (Option (Module R))) :
    cs.reverse.foldl (fun p c => some c :: p) rest = cs.map some ++ rest := by
  induction cs generalizing rest with
  | nil => rfl
  | cons c cs ih =>
    simp only [List.reverse_cons, List.foldl_append, List.foldl_cons, List.foldl_nil,
      List.map_cons, List.cons_append]
    rw [ih]

theorem next_some {R : Type} (m : Module R) (rest : List (Option (Module R))) :
    iterator.next ⟨some m :: rest⟩ = ⟨m.children.map some ++ rest⟩ := by
  simp only [iterator.next, push_children]

theorem preorder_length_pos {R : Type} (m : Module R) : 0 < (preorder m).length := by
  cases m; simp [preorder]

theorem visit_loop_worklist {R : Type} (fuel : Nat) (ms : List (Module R))
    (rest : List (Option (Module R))) (h : (preorder_list ms).length < fuel) :
    visit_loop fuel ⟨ms.map some ++ none :: rest⟩ = some (preorder_list ms) := by
  induction fuel generalizing ms with
  | zero => omega
  | succ fuel ih =>
    cases ms with
    | nil => simp [visit_loop, iterator.front, preorder_list]
    | cons m ms =>
      cases m with
      | mk i a b cs =>
        simp only [visit_loop, iterator.front, List.map_cons, List.cons_append]
        rw [next_some]
        simp only [Module.children]
        rw [← List.append_assoc, ← List.map_append, ih]
        · simp [preorder_list, preorder, preorder_list_append]
        · simp only [preorder_list, preorder, preorder_list_append, List.length_append,
            List.length_cons] at h ⊢
          omega

theorem size_loop_worklist {R : Type} (fuel : Nat) (ms : List (Module R))
    (rest : List (Option (Module R))) (res : Nat) (h : (preorder_list ms).length < fuel) :
    size_loop fuel ⟨ms.map some ++ none :: rest⟩ res = some (res + (preorder_list ms).length) := by
  induction fuel generalizing ms res with
  | zero => omega
  | succ fuel ih =>
    cases ms with
    | nil => simp [size_loop, iterator.front, preorder_list]
    | cons m ms =>
      cases m with
      | mk i a b cs =>
        simp only [size_loop, iterator.front, List.map_cons, List.cons_append]
        rw [next_some]
        simp only [Module.children]
        rw [← List.append_assoc, ← List.map_append, ih]
        · simp only [preorder_list, preorder, preorder_list_append, List.length_append,
            List.length_cons]
          congr 1
          omega
        · simp only [preorder_list, preorder, preorder_list_append, List.length_append,
            List.length_cons] at h ⊢
          omega

theorem visit_loop_begin {R : Type} (m : Module R) (fuel : Nat)
    (h : (preorder m).length < fuel) : visit_loop fuel m.begin = some (preorder m) := by
  have := visit_loop_worklist fuel [m] [] (by simpa [preorder_list] using h)
  simpa [preorder_list, Module.begin] using this

theorem size_begin {R : Type} (m : Module R) (fuel : Nat)
    (h : (preorder m).length < fuel) : m.size fuel = some (preorder m).length := by
  have := size_loop_worklist fuel [m] [] 0 (by simpa [preorder_list] using h)
  simpa [preorder_list, Module.begin, Module.size] using this

/-- C24: for every module tree `m`, the loop from `m.begin()` to `m.end()`
ends within one round more than the subtree has nodes (and gives the same
result with any larger bound), and the modules it visits are, in order, the
pre-order of the subtree: `m` itself, then for each child in the order of
`children_` the whole pre-order of that child.  `size()` returns the number
of nodes of the subtree, and `++` on the end iterator leaves it as it is. -/
theorem C24_iteration_is_preorder {R : Type} (m : Module R) (k : Nat) :
    visit_loop ((preorder m).length + 1 + k) m.begin = some (preorder m) ∧
    preorder m = m :: m.children.flatMap preorder ∧
    m.size ((preorder m).length + 1 + k) = some (preorder m).length ∧
    (iterator.end_ R).next = iterator.end_ R ∧
    (iterator.end_ R).front = none ∧
    m.begin.front = some m := by
  refine ⟨visit_loop_begin m _ (by omega), ?_, size_begin m _ (by omega), rfl, rfl, rfl⟩
  cases m with
  | mk i a b cs => simp [preorder, Module.children, preorder_list_eq_flatMap]

/-! ## The table read by `restart` -/

theorem find_filter_ne {R : Type} (save : SaveMap R) (id k : Nat) :
    SaveMap.find (save.filter (fun e => e.1 != id)) k
      = if k = id then none else SaveMap.find save k := by
  induction save with
  | nil => simp [SaveMap.find]
  | cons e save ih =>
    rcases e with ⟨j, v⟩
    by_cases hj : j = id
    · have hb : (j != id) = false := by simp [hj]
      simp only [List.filter_cons, hb, SaveMap.find]
      by_cases hk : k = id
      · subst hk; simpa using ih
      · have hjk : ¬ j = k := fun h => hk (h ▸ hj)
        simp [ih, hk, hjk]
    · have hb : (j != id) = true := by simp [hj]
      simp only [List.filter_cons, hb, if_true, SaveMap.find]
      by_cases hk : k = id
      · have hjk : ¬ j = k := fun h => hj (h.trans hk)
        subst hk
        simpa [hjk] using ih
      · simp [ih, hk]

theorem find_assign {R : Type} (save : SaveMap R) (id k : Nat) (v : R × R) :
    (save.assign id v).find k = if id = k then some v else save.find k := by
  simp only [SaveMap.assign, SaveMap.find, find_filter_ne]
  by_cases h : id = k
  · simp [h]
  · have h' : ¬ k = id := fun e => h e.symm
    simp [h, h']

theorem read_entries_eq {R : Type} (c : Codec R) (held : Nat → Nat) (k i : Nat)
    (is : IStream) (save : SaveMap R) :
    read_entries c held k i is save
      = (stored c held k i is).foldl (fun (s : SaveMap R) e => s.assign e.1 e.2) save := by
  induction k generalizing i is save with
  | zero => rfl
  | succ k ih => simp only [read_entries, stored, List.foldl_cons, ih]

theorem find_foldl_assign {R : Type} (es : List (Nat × R × R)) (save : SaveMap R) (k : Nat) :
    (es.foldl (fun (s : SaveMap R) e => s.assign e.1 e.2) save).find k
      = match last_entry es k with
        | some v => some v
        | none => save.find k := by
  induction es generalizing save with
  | nil => simp [last_entry]
  | cons e es ih =>
    simp only [List.foldl_cons, ih, last_entry, find_assign]
    cases last_entry es k with
    | some v => simp
    | none => by_cases h : e.1 = k <;> simp [h]

theorem find_table {R : Type} (es : List (Nat × R × R)) (k : Nat) :
    SaveMap.find (es.foldl (fun (s : SaveMap R) e => s.assign e.1 e.2) ([] : SaveMap R)) k
      = last_entry es k := by
  rw [find_foldl_assign]
  cases last_entry es k <;> simp [SaveMap.find]

theorem last_entry_none {R : Type} (es : List (Nat × R × R)) (k : Nat) :
    last_entry es k = none ↔ k ∉ es.map Prod.fst := by
  induction es with
  | nil => simp [last_entry]
  | cons e es ih =>
    simp only [last_entry, List.map_cons, List.mem_cons, not_or]
    cases h : last_entry es k with
    | some v =>
      have hmem : k ∈ es.map Prod.fst := by
        by_contra hn
        rw [← ih] at hn; rw [hn] at h; exact Option.noConfusion h
      simp [hmem]
    | none =>
      have hk : k ∉ es.map Prod.fst := ih.mp h
      by_cases he : e.1 = k
      · simp [he]
      · have he' : ¬ k = e.1 := fun x => he x.symm
        simp [he, he', hk]

theorem last_entry_mem {R : Type} (es : List (Nat × R × R)) (k : Nat) (v : R × R)
    (h : last_entry es k = some v) : (k, v) ∈ es := by
  induction es with
  | nil => simp [last_entry] at h
  | cons e es ih =>
    simp only [last_entry] at h
    cases h2 : last_entry es k with
    | some w =>
      rw [h2] at h
      simp only [Option.some.injEq] at h
      subst h
      exact List.mem_cons_of_mem _ (ih h2)
    | none =>
      rw [h2] at h
      by_cases he : e.1 = k
      · simp only [he, if_true, Option.some.injEq] at h
        rcases e with ⟨j, w⟩
        simp only at he h
        subst he; subst h
        exact List.mem_cons_self _ _
      · simp [he] at h

theorem last_entry_nodup {R : Type} (es : List (Nat × R × R)) (e : Nat × R × R)
    (hd : (es.map Prod.fst).Nodup) (he : e ∈ es) : last_entry es e.1 = some e.2 := by
  induction es with
  | nil => simp at he
  | cons x es ih =>
    simp only [List.map_cons, List.nodup_cons] at hd
    rcases List.mem_cons.mp he with hx | hx
    · subst hx
      have : last_entry es e.1 = none := (last_entry_none es e.1).mpr hd.1
      simp [last_entry, this]
    · simp [last_entry, ih hd.2 hx]

theorem last_entry_filter {R : Type} (es : List (Nat × R × R)) (q : Nat → Bool) (k : Nat)
    (hk : q k = true) : last_entry (es.filter (fun e => q e.1)) k = last_entry es k := by
  induction es with
  | nil => simp [last_entry]
  | cons e es ih =>
    by_cases he : q e.1 = true
    · simp [List.filter, he, last_entry, ih]
    · have hne : ¬ e.1 = k := fun x => he (x ▸ hk)
      simp [List.filter, he, last_entry, ih, hne]
      cases last_entry es k <;> rfl

/-! ## The update of the hierarchy by `restart` -/

theorem regs_restart_module {R : Type} (save : SaveMap R) (p : Module R) :
    (restart_module save p).regs
      = match save.find p.mid with
        | none => p.regs
        | some v => (p.mid, v) := by
  cases p with
  | mk i a b cs =>
    simp only [restart_module, Module.mid]
    cases save.find i with
    | none => rfl
    | some v => rfl

theorem regs_restart_module_children {R : Type} (save : SaveMap R) (i : Nat) (a b : R)
    (cs cs' : List (Module R)) :
    (restart_module save (Module.mk i a b cs)).regs
      = (restart_module save (Module.mk i a b cs')).regs := by
  simp only [restart_module, Module.mid]
  cases save.find i with
  | none => rfl
  | some v => rfl

theorem children_restart_module {R : Type} (save : SaveMap R) (p : Module R) :
    (restart_module save p).children = p.children := by
  cases p with
  | mk i a b cs =>
    simp only [restart_module, Module.mid]
    cases save.find i with
    | none => rfl
    | some v => rfl

theorem mid_restart_module {R : Type} (save : SaveMap R) (p : Module R) :
    (restart_module save p).mid = p.mid := by
  cases p with
  | mk i a b cs =>
    simp only [restart_module, Module.mid]
    cases save.find i with
    | none => rfl
    | some v => rfl

theorem preorder_eq {R : Type} (m : Module R) :
    preorder m = m :: preorder_list m.children := by
  cases m; rfl

theorem skeleton_eq {R : Type} (m : Module R) :
    skeleton m = Module.mk m.mid () () (skeleton_list m.children) := by
  cases m; rfl

mutual
theorem skeleton_update {R : Type} (save : SaveMap R) :
    ∀ m : Module R, skeleton (update_hierarchy save m) = skeleton m
  | .mk i a b cs => by
    rw [update_hierarchy, skeleton_eq, mid_restart_module, children_restart_module]
    simp only [Module.mid, Module.children, skeleton, skeleton_list_update save cs]
theorem skeleton_list_update {R : Type} (save : SaveMap R) :
    ∀ cs : List (Module R), skeleton_list (update_children save cs) = skeleton_list cs
  | [] => rfl
  | c :: cs => by
    simp only [update_children, skeleton_list, skeleton_update save c,
      skeleton_list_update save cs]
end

mutual
theorem regs_update {R : Type} (save : SaveMap R) :
    ∀ m : Module R, (preorder (update_hierarchy save m)).map Module.regs
      = (preorder m).map (fun p => (restart_module save p).regs)
  | .mk i a b cs => by
    rw [update_hierarchy, preorder_eq, children_restart_module]
    simp only [Module.children, List.map_cons, preorder, regs_list_update save cs]
    rw [regs_restart_module_children save i a b _ cs]
theorem regs_list_update {R : Type} (save : SaveMap R) :
    ∀ cs : List (Module R), (preorder_list (update_children save cs)).map Module.regs
      = (preorder_list cs).map (fun p => (restart_module save p).regs)
  | [] => rfl
  | c :: cs => by
    simp only [update_children, preorder_list, List.map_append, regs_update save c,
      regs_list_update save cs]
end

mutual
theorem update_congr {R : Type} (s1 s2 : SaveMap R) :
    ∀ m : Module R, (∀ p ∈ preorder m, s1.find p.mid = s2.find p.mid) →
      update_hierarchy s1 m = update_hierarchy s2 m
  | .mk i a b cs, h => by
    have hc : update_children s1 cs = update_children s2 cs :=
      update_children_congr s1 s2 cs (fun p hp => h p (by simp [preorder, hp]))
    have hi : s1.find i = s2.find i := h (.mk i a b cs) (by simp [preorder])
    simp only [update_hierarchy, restart_module, Module.mid, hc, hi]
theorem update_children_congr {R : Type} (s1 s2 : SaveMap R) :
    ∀ cs : List (Module R), (∀ p ∈ preorder_list cs, s1.find p.mid = s2.find p.mid) →
      update_children s1 cs = update_children s2 cs
  | [], _ => rfl
  | c :: cs, h => by
    simp only [update_children]
    rw [update_congr s1 s2 c (fun p hp => h p (by simp [preorder_list, hp])),
      update_children_congr s1 s2 cs (fun p hp => h p (by simp [preorder_list, hp]))]
end

mutual
theorem update_restores {R : Type} (save : SaveMap R) :
    ∀ m m' : Module R, skeleton m' = skeleton m →
      (∀ p ∈ preorder m, save.find p.mid = some (p.get_input, p.get_state)) →
      update_hierarchy save m' = m
  | .mk i a b cs, .mk i' a' b' cs', hs, h => by
    simp only [skeleton, Module.mk.injEq, true_and] at hs
    obtain ⟨hi, hl⟩ := hs
    subst hi
    have hc : update_children save cs' = cs :=
      update_children_restores save cs cs' hl (fun p hp => h p (by simp [preorder, hp]))
    have hf := h (.mk i' a b cs) (by simp [preorder])
    simp only [Module.mid, Module.get_input, Module.get_state] at hf
    simp only [update_hierarchy, restart_module, Module.mid, hc, hf, Module.set_input,
      Module.set_state]
theorem update_children_restores {R : Type} (save : SaveMap R) :
    ∀ cs cs' : List (Module R), skeleton_list cs' = skeleton_list cs →
      (∀ p ∈ preorder_list cs, save.find p.mid = some (p.get_input, p.get_state)) →
      update_children save cs' = cs
  | [], [], _, _ => rfl
  | [], _ :: _, hs, _ => by simp [skeleton_list] at hs
  | _ :: _, [], hs, _ => by simp [skeleton_list] at hs
  | c :: cs, c' :: cs', hs, h => by
    simp only [skeleton_list, List.cons.injEq] at hs
    simp only [update_children]
    rw [update_restores save c c' hs.1 (fun p hp => h p (by simp [preorder_list, hp])),
      update_children_restores save cs cs' hs.2 (fun p hp => h p (by simp [preorder_list, hp]))]
end

/-! ## Reading back what `save` wrote -/

theorem parse_entry_save_module {R : Type} (c : Codec R) (hc : c.RoundTrip) (p : Module R)
    (rest : List Stok) :
    parse_entry c (save_module c p ++ rest) = some (p.regs, rest) := by
  have h1 := hc p.get_input (Stok.word "STATE:" :: (c.write p.get_state ++ rest))
  have h2 := hc p.get_state rest
  simp only [save_module, List.cons_append, List.nil_append, List.append_assoc, parse_entry,
    h1, h2, Module.regs]

theorem entries_save {R : Type} (c : Codec R) (hc : c.RoundTrip) (ms : List (Module R)) :
    entries c ms.length (ms.flatMap (save_module c)) = some (ms.map Module.regs) := by
  induction ms with
  | nil => rfl
  | cons p ms ih =>
    simp only [List.length_cons, List.flatMap_cons, entries, parse_entry_save_module c hc, ih,
      List.map_cons, Option.map_some']

/-- On a stream that starts with an entry, a round of the reading loop reads
that entry, whatever the local `id` held, and the stream has not failed. -/
theorem read_entry_of_parse {R : Type} (c : Codec R) (held : Nat) (is : List Stok)
    (e : Nat × R × R) (rest : List Stok) (h : parse_entry c is = some (e, rest)) :
    read_entry c held (some is) = (e, some rest) := by
  rcases is with _ | ⟨a, _ | ⟨b, _ | ⟨d, rest0⟩⟩⟩
  · simp [parse_entry] at h
  · simp [parse_entry] at h
  · cases b <;> simp [parse_entry] at h
  · cases b with
    | word w => simp [parse_entry] at h
    | num id =>
      simp only [parse_entry] at h
      rcases hr : c.read (some rest0) with ⟨input, s1⟩
      rw [hr] at h
      rcases s1 with _ | ⟨_ | ⟨x, rest2⟩⟩
      · simp at h
      · simp at h
      · simp only at h
        rcases hr2 : c.read (some rest2) with ⟨state, s2⟩
        rw [hr2] at h
        rcases s2 with _ | rest3
        · simp at h
        · simp only [Option.some.injEq, Prod.mk.injEq] at h
          obtain ⟨he, hrest⟩ := h
          subst he; subst hrest
          simp only [read_entry, read_string, read_num, hr, hr2]

theorem stored_of_entries {R : Type} (c : Codec R) (held : Nat → Nat) (n i : Nat)
    (is : List Stok) (es : List (Nat × R × R)) (h : entries c n is = some es) :
    stored c held n i (some is) = es := by
  induction n generalizing i is es with
  | zero =>
    simp only [entries, Option.some.injEq] at h
    subst h
    rfl
  | succ n ih =>
    simp only [entries] at h
    cases hp : parse_entry c is with
    | none => rw [hp] at h; simp at h
    | some x =>
      rcases x with ⟨e, rest⟩
      rw [hp] at h
      simp only at h
      cases he : entries c n rest with
      | none => rw [he] at h; simp at h
      | some es1 =>
        rw [he] at h
        simp only [Option.map_some', Option.some.injEq] at h
        subst h
        simp only [stored, read_entry_of_parse c (held i) is e rest hp, ih (i + 1) rest es1 he]

theorem restart_eq {R : Type} (c : Codec R) (held : Nat → Nat) (is : List Stok)
    (m : Module R) :
    restart c held is m
      = update_hierarchy
          ((stored_of c held is).foldl (fun (s : SaveMap R) e => s.assign e.1 e.2) []) m := by
  simp only [restart, read_entries_eq, stored_of]

theorem stored_of_num {R : Type} (c : Codec R) (held : Nat → Nat) (n : Nat)
    (rest : List Stok) : stored_of c held (Stok.num n :: rest) = stored c held n 0 (some rest) :=
  rfl

/-! ## Save and restart (claims C22, C23) -/

theorem last_entry_split {R : Type} (es1 es2 : List (Nat × R × R)) (e : Nat × R × R)
    (h : e.1 ∉ es2.map Prod.fst) : last_entry (es1 ++ e :: es2) e.1 = some e.2 := by
  induction es1 with
  | nil =>
    have : last_entry es2 e.1 = none := (last_entry_none es2 e.1).mpr h
    simp [last_entry, this]
  | cons x es1 ih => simp [last_entry, ih]

theorem word_codec_round_trip : word_codec.RoundTrip := fun _ _ => rfl

theorem save_eq {R : Type} (c : Codec R) (m : Module R) (fuel : Nat)
    (h : (preorder m).length < fuel) :
    save c fuel m
      = some (Stok.num (preorder m).length :: (preorder m).flatMap (save_module c)) := by
  simp only [save, size_begin m fuel h, visit_loop_begin m fuel h]

theorem restart_save {R : Type} (c : Codec R) (held : Nat → Nat) (m m' : Module R)
    (hc : c.RoundTrip) (hd : (ids m).Nodup) (hs : skeleton m' = skeleton m) :
    restart c held (Stok.num (preorder m).length :: (preorder m).flatMap (save_module c)) m'
      = m := by
  rw [restart_eq, stored_of_num,
    stored_of_entries c held _ 0 _ _ (entries_save c hc (preorder m))]
  apply update_restores _ m m' hs
  intro p hp
  rw [find_table]
  have hd' : (((preorder m).map Module.regs).map Prod.fst).Nodup := by
    have : ((preorder m).map Module.regs).map Prod.fst = ids m := by
      simp only [ids, List.map_map]
      apply List.map_congr_left
      intro q _
      rfl
    rw [this]; exact hd
  exact last_entry_nodup _ p.regs hd' (List.mem_map_of_mem _ hp)

/-- C22: for a module tree `m` whose ids are pairwise distinct and register
files that round-trip through `write` and `read`, `save` returns a stream
(within one round more than the tree has nodes): the size, then the entry of
every module in pre-order; and `restart` on that stream gives the tree `m`
itself, with every input and state register file as it was at the save, both
when applied to `m` unchanged and when applied to a tree `m2` of the same shape
and ids whose registers hold anything. -/
theorem C22_save_restart_round_trip {R : Type} (c : Codec R) (m m2 : Module R) (k : Nat)
    (hc : c.RoundTrip) (hd : (ids m).Nodup) (hs : skeleton m2 = skeleton m) :
    ∃ os : List Stok, save c ((preorder m).length + 1 + k) m = some os ∧
      os = Stok.num (preorder m).length :: (preorder m).flatMap (save_module c) ∧
      (∀ held : Nat → Nat, restart c held os m = m) ∧
      (∀ held : Nat → Nat, restart c held os m2 = m) :=
  ⟨_, save_eq c m _ (by omega), rfl, fun held => restart_save c held m m hc hd rfl,
    fun held => restart_save c held m m2 hc hd hs⟩

/-- Witness of C22: the sample hierarchy of four modules with the one-token
register files, restored from its save into itself and into the hierarchy
with all registers 0. -/
theorem C22_save_restart_round_trip_witness :
    word_codec.RoundTrip ∧ (ids sample_hierarchy).Nodup ∧
    skeleton sample_hierarchy_reset = skeleton sample_hierarchy ∧
    ∃ os : List Stok, save word_codec ((preorder sample_hierarchy).length + 1 + 0)
        sample_hierarchy = some os ∧
      os = Stok.num (preorder sample_hierarchy).length
        :: (preorder sample_hierarchy).flatMap (save_module word_codec) ∧
      (∀ held : Nat → Nat, restart word_codec held os sample_hierarchy = sample_hierarchy) ∧
      (∀ held : Nat → Nat,
        restart word_codec held os sample_hierarchy_reset = sample_hierarchy) :=
  ⟨word_codec_round_trip, by decide, rfl,
    C22_save_restart_round_trip word_codec sample_hierarchy sample_hierarchy_reset 0
      word_codec_round_trip (by decide) rfl⟩

mutual
theorem update_hierarchy_nil {R : Type} :
    ∀ m : Module R, update_hierarchy ([] : SaveMap R) m = m
  | .mk i a b cs => by
    simp only [update_hierarchy, update_children_nil cs, restart_module, SaveMap.find]
theorem update_children_nil {R : Type} :
    ∀ cs : List (Module R), update_children ([] : SaveMap R) cs = cs
  | [] => rfl
  | c :: cs => by simp only [update_children, update_hierarchy_nil c, update_children_nil cs]
end

/-- The sample stream on the sample hierarchy: the module 1 gets the registers
of the last entry for 1, the entry for 7 changes nothing, the modules 0, 2 and
3 keep their registers. -/
theorem restart_sample :
    restart word_codec (fun _ => 0) (Stok.num 3 :: sample_entries) sample_hierarchy
      = .mk 0 10 20 [.mk 1 111 211 [.mk 2 12 22 []], .mk 3 13 23 []] := rfl

/-- C23, counterexample: the stream `1 MODULE: x`, in which the id of the one
entry is not a number.  No id occurs in it, in particular not the id 0 of the
root of the sample hierarchy.  The extraction of the id fails and stores 0,
the reads that follow do nothing, and the round stores the two new register
files under the id 0: `restart` sets the input and the state of the root,
which held 10 and 20, to what a new register file holds. -/
theorem C23_failed_extraction_sets_module :
    Stok.num 0 ∉ [Stok.num 1, Stok.word "MODULE:", Stok.word "x"] ∧
    (∀ n : Nat, Stok.num n ∈ [Stok.word "MODULE:", Stok.word "x"] → False) ∧
    entries word_codec 1 [Stok.word "MODULE:", Stok.word "x"] = none ∧
    sample_hierarchy.regs = (0, 10, 20) ∧
    stored_of word_codec (fun _ => 7) [Stok.num 1, Stok.word "MODULE:", Stok.word "x"]
      = [(0, 0, 0)] ∧
    (restart word_codec (fun _ => 7) [Stok.num 1, Stok.word "MODULE:", Stok.word "x"]
      sample_hierarchy).regs = (0, 0, 0) := by
  refine ⟨by decide, ?_, rfl, rfl, rfl, rfl⟩
  intro n hn
  simp at hn

/-- C23, amended: for every stream and every live tree, `restart` gives a tree
of the same shape and ids in which every module whose id is not among the ids
stored by the reading loop keeps its input and state, and every module whose
id is among them holds the input and state stored last under it; any other
stream that stores the same triples for the ids of the live modules gives the
same tree, so what is stored under the id of no live module changes nothing.
When the count and the entries of the stream are read without a failed
extraction, the triples stored are the entries of the stream, in order; when
the count cannot be read, nothing is stored and the tree is unchanged. -/
theorem C23_restart_frame {R : Type} (c : Codec R) (held : Nat → Nat) (is : List Stok)
    (m : Module R) :
    skeleton (restart c held is m) = skeleton m ∧
    (preorder (restart c held is m)).map Module.regs
      = (preorder m).map (fun p =>
          match last_entry (stored_of c held is) p.mid with
          | none => p.regs
          | some v => (p.mid, v)) ∧
    (∀ id : Nat, last_entry (stored_of c held is) id = none ↔
      id ∉ (stored_of c held is).map Prod.fst) ∧
    (∀ (es1 es2 : List (Nat × R × R)) (e : Nat × R × R),
      stored_of c held is = es1 ++ e :: es2 → e.1 ∉ es2.map Prod.fst →
      last_entry (stored_of c held is) e.1 = some e.2) ∧
    (∀ (held2 : Nat → Nat) (is2 : List Stok),
      (stored_of c held2 is2).filter (fun e => decide (e.1 ∈ ids m))
        = (stored_of c held is).filter (fun e => decide (e.1 ∈ ids m)) →
      restart c held2 is2 m = restart c held is m) ∧
    (∀ (n : Nat) (rest : List Stok) (es : List (Nat × R × R)),
      is = Stok.num n :: rest → entries c n rest = some es → stored_of c held is = es) ∧
    ((∀ (n : Nat) (rest : List Stok), is ≠ Stok.num n :: rest) →
      stored_of c held is = [] ∧ restart c held is m = m) := by
  refine ⟨?_, ?_, last_entry_none _, ?_, ?_, ?_, ?_⟩
  · rw [restart_eq]
    exact skeleton_update _ m
  · rw [restart_eq, regs_update]
    apply List.map_congr_left
    intro p _
    rw [regs_restart_module, find_table]
  · intro es1 es2 e he hn
    rw [he]
    exact last_entry_split es1 es2 e hn
  · intro held2 is2 hf
    rw [restart_eq, restart_eq]
    apply update_congr
    intro p hp
    have hm : decide (p.mid ∈ ids m) = true := by
      simp only [decide_eq_true_eq, ids]
      exact List.mem_map_of_mem _ hp
    rw [find_table, find_table,
      ← last_entry_filter (stored_of c held2 is2) (fun id => decide (id ∈ ids m)) p.mid hm,
      ← last_entry_filter (stored_of c held is) (fun id => decide (id ∈ ids m)) p.mid hm, hf]
  · intro n rest es his he
    rw [his, stored_of_num]
    exact stored_of_entries c held n 0 rest es he
  · intro hno
    have hst : stored_of c held is = [] := by
      rcases is with _ | ⟨tok, rest⟩
      · rfl
      · cases tok with
        | word w => rfl
        | num n => exact absurd rfl (hno n rest)
    refine ⟨hst, ?_⟩
    rw [restart_eq, hst]
    exact update_hierarchy_nil m

end Cascade.Runtime

namespace Cascade.Analyze

/-- The flag is set exactly when one event control holds both kinds of
events. -/
theorem uses_mixed_triggers_iff (ecs : List EventControl) :
    uses_mixed_triggers ecs = true ↔
      ∃ ec ∈ ecs, (∃ ev ∈ ec, ev.is_edge = true) ∧ EventType.EDGE ∈ ec := by
  simp only [uses_mixed_triggers, mixed_foldl, Bool.false_or, List.any_eq_true,
    Bool.and_eq_true, decide_eq_true_eq]
  constructor
  · rintro ⟨ec, hec, ⟨ev, hev, h1⟩, ⟨ev', hev', h2⟩⟩
    exact ⟨ec, hec, ⟨ev, hev, h1⟩, by rw [← h2]; exact hev'⟩
  · rintro ⟨ec, hec, ⟨ev, hev, h1⟩, h2⟩
    exact ⟨ec, hec, ⟨ev, hev, h1⟩, ⟨EventType.EDGE, h2, rfl⟩⟩

end Cascade.Analyze

namespace Cascade.Aos

/-! ## Validation before the slot pool (claim C11) -/

theorem compile_entry_unsupported (t : Slots) (id : Nat) (r : Request)
    (h : r.mixed_triggers = true ∨ r.implied_latches = true) :
    compile_entry t id r = (t, Entry.rejected) := by
  unfold compile_entry
  rcases h with h | h
  · simp [h]
  · by_cases h' : r.mixed_triggers = true <;> simp [h, h']

theorem compile_logic_begin_unsupported (t : Slots) (id : Nat) (r : Request)
    (h : r.mixed_triggers = true ∨ r.implied_latches = true) :
    compile_logic_begin t id r = (t, Outcome.null) := by
  simp only [compile_logic_begin, compile_entry_unsupported t id r h]

/-- C11, counterexample: a module with a posedge event in one event control
and a level-triggered event in another one holds both kinds of timing
constructs, and `compile_logic` does not reject it: on a fresh pool the call
takes slot 0, which becomes COMPILING for the requester, and its first
iteration starts the backend build. -/
theorem C11_separate_controls_accepted :
    (∃ ec ∈ [[Analyze.EventType.POSEDGE], [Analyze.EventType.EDGE]],
      ∃ ev ∈ ec, ev.is_edge = true) ∧
    (∃ ec ∈ [[Analyze.EventType.POSEDGE], [Analyze.EventType.EDGE]],
      Analyze.EventType.EDGE ∈ ec) ∧
    (compile_entry init 1 (Request.of_module
      [[Analyze.EventType.POSEDGE], [Analyze.EventType.EDGE]] false true 1 0
      (fun _ => "module M0"))).2 = Entry.entered 0 ∧
    (compile_entry init 1 (Request.of_module
      [[Analyze.EventType.POSEDGE], [Analyze.EventType.EDGE]] false true 1 0
      (fun _ => "module M0"))).1[0]? = some ⟨1, State.COMPILING, "module M0"⟩ ∧
    (compile_logic_begin init 1 (Request.of_module
      [[Analyze.EventType.POSEDGE], [Analyze.EventType.EDGE]] false true 1 0
      (fun _ => "module M0"))).2 = Outcome.building := by
  decide

/-- C11, amended: a module of which one event control holds both an
edge-triggered and a level-triggered event, or which has an implied latch, is
rejected at once: for every slot table, `compile_logic` returns null before
its loop with the table as it was, so that the result does not depend on the
slot pool and no backend build is started.  The same holds for every request
whose flag `uses_mixed_triggers` or whose implied-latch flag is set. -/
theorem C11_validation_rejects (t : Slots) (id : Nat) (ecs : List Analyze.EventControl)
    (implied_latches build_ok : Bool) (nv_size volatile_size : Nat) (rewrite : Nat → String)
    (h : (∃ ec ∈ ecs, (∃ ev ∈ ec, ev.is_edge = true) ∧ Analyze.EventType.EDGE ∈ ec) ∨
      implied_latches = true) :
    compile_entry t id
        (Request.of_module ecs implied_latches build_ok nv_size volatile_size rewrite)
      = (t, Entry.rejected) ∧
    compile_logic_begin t id
        (Request.of_module ecs implied_latches build_ok nv_size volatile_size rewrite)
      = (t, Outcome.null) ∧
    ∀ r : Request, r.mixed_triggers = true ∨ r.implied_latches = true →
      compile_entry t id r = (t, Entry.rejected) ∧
      compile_logic_begin t id r = (t, Outcome.null) := by
  have hr : (Request.of_module ecs implied_latches build_ok nv_size volatile_size
        rewrite).mixed_triggers = true ∨
      (Request.of_module ecs implied_latches build_ok nv_size volatile_size
        rewrite).implied_latches = true := by
    rcases h with h | h
    · exact Or.inl ((Analyze.uses_mixed_triggers_iff ecs).mpr h)
    · exact Or.inr h
  exact ⟨compile_entry_unsupported t id _ hr, compile_logic_begin_unsupported t id _ hr,
    fun r h' => ⟨compile_entry_unsupported t id r h', compile_logic_begin_unsupported t id r h'⟩⟩

/-- Witness of C11: a module whose one event control holds a posedge and a
level-triggered event, on a fresh pool. -/
theorem C11_validation_rejects_witness :
    ((∃ ec ∈ [[Analyze.EventType.POSEDGE, Analyze.EventType.EDGE]],
        (∃ ev ∈ ec, ev.is_edge = true) ∧ Analyze.EventType.EDGE ∈ ec) ∨ false = true) ∧
    (compile_entry init 1
        (Request.of_module [[Analyze.EventType.POSEDGE, Analyze.EventType.EDGE]] false true 1 0
          (fun _ => "module M0"))
      = (init, Entry.rejected) ∧
    compile_logic_begin init 1
        (Request.of_module [[Analyze.EventType.POSEDGE, Analyze.EventType.EDGE]] false true 1 0
          (fun _ => "module M0"))
      = (init, Outcome.null) ∧
    ∀ r : Request, r.mixed_triggers = true ∨ r.implied_latches = true →
      compile_entry init 1 r = (init, Entry.rejected) ∧
      compile_logic_begin init 1 r = (init, Outcome.null)) :=
  ⟨by decide, C11_validation_rejects init 1
    [[Analyze.EventType.POSEDGE, Analyze.EventType.EDGE]] false true 1 0
    (fun _ => "module M0") (by decide)⟩

end Cascade.Aos
